import Mathlib

/-! # PerlinNoise: bilinear resampling and octave averaging

A shallow embedding of `PerlinNoise.go` and a verification of its specification.

* Go `int` is modelled by `Int`, `uint8` samples by `Nat` reduced `% 256` wherever the
  source narrows to `byte`.  A single image in memory has fewer than `2^63` samples, but
  the product `maxWidth*maxHeight` of `NoiseImagesMiddle` can overflow for a wide and a
  tall grid: `sumPixelsInt64` and `NoiseImagesMiddleInt64` compute it, and the
  accumulator indices, in the wrapping 64-bit `int`; `sumPixels` and
  `NoiseImagesMiddle` are the same code in mathematical integers, equal to them
  whenever the product stays below `2^63`.
* Go `float32` / `float64` values are modelled by the rationals they denote.  Every
  floating-point operation of the source is wrapped in a rounding function
  `fl : ℚ → ℚ`; the models `float32` and `float64` below are IEEE-754
  round-to-nearest-even to 24 and 53 significant bits (each operation rounded on
  its own, as the Go compiler emits for amd64), and `fl = id` is the reading of
  the arithmetic as exact rational arithmetic.
* `image.Gray`, `image.Rect`, `GrayAt`, `SetGray` follow the Go standard library:
  reads outside the rectangle yield the zero colour, writes outside it are ignored.
-/

namespace PerlinNoise

/-! ## Floating point -/

/-- Binade exponent of a non-zero rational: the `e` with `2^e ≤ |q| < 2^(e+1)`. -/
def ilog2 (q : ℚ) : Int :=
  let k : Int := (q.num.natAbs.log2 : Int) - (q.den.log2 : Int)
  if (2 : ℚ) ^ k ≤ |q| then k else k - 1

/-- Nearest integer, ties to the even neighbour. -/
def roundHalfEven (q : ℚ) : Int :=
  let f := ⌊q⌋
  if q - f < 1 / 2 then f
  else if 1 / 2 < q - f then f + 1
  else if f % 2 = 0 then f else f + 1

/-- IEEE-754 round-to-nearest-even to `prec` significant bits, `emin` the smallest
normal exponent (gradual underflow below it).  Overflow to infinity is not
modelled: every magnitude the program forms from 64-bit integers stays below
`2^127`. -/
def roundFloat (prec : Nat) (emin : Int) (q : ℚ) : ℚ :=
  if q = 0 then 0
  else
    let e := max (ilog2 q) emin
    let ulp := (2 : ℚ) ^ (e - ((prec : Int) - 1))
    roundHalfEven (q / ulp) * ulp

/-- The values of a binary floating-point format: `m * 2^j` with a significand of
at most `prec` bits and an exponent not below that of the smallest subnormal. -/
def IsFloat (prec : Nat) (emin : Int) (r : ℚ) : Prop :=
  ∃ m j : Int, |m| < 2 ^ prec ∧ emin - ((prec : Int) - 1) ≤ j ∧ r = m * (2 : ℚ) ^ j

/-- Rounding to Go `float32` (IEEE binary32). -/
def float32 (q : ℚ) : ℚ := roundFloat 24 (-126) q

/-- Rounding to Go `float64` (IEEE binary64). -/
def float64 (q : ℚ) : ℚ := roundFloat 53 (-1022) q

/-- Go conversion of a floating-point value to an integer: truncation toward zero. -/
def truncToInt (q : ℚ) : Int := if 0 ≤ q then ⌊q⌋ else ⌈q⌉

/-- Go conversion `byte(f)` of a floating-point value: truncation toward zero.  Values
outside `[0, 255]`, for which Go leaves the result to the implementation, are
reduced modulo 256. -/
def byteOfFloat (q : ℚ) : Nat := (truncToInt q % 256).toNat

/-- Go `math.Round`: nearest integer, halves away from zero. -/
def mathRound (q : ℚ) : ℚ := if 0 ≤ q then ⌊q + 1 / 2⌋ else ⌈q - 1 / 2⌉

/-! ## Images (Go package `image`) -/

/-- Go `image.Rectangle`: the points with `MinX ≤ x < MaxX`, `MinY ≤ y < MaxY`. -/
structure Rectangle where
  MinX : Int
  MinY : Int
  MaxX : Int
  MaxY : Int
  deriving DecidableEq, Repr

/-- Go `image.Rect`: the rectangle with the given corners, put in canonical order. -/
def imageRect (x0 y0 x1 y1 : Int) : Rectangle :=
  { MinX := if x0 > x1 then x1 else x0
    MinY := if y0 > y1 then y1 else y0
    MaxX := if x0 > x1 then x0 else x1
    MaxY := if y0 > y1 then y0 else y1 }

/-- Width of a rectangle. -/
def Rectangle.Dx (r : Rectangle) : Int := r.MaxX - r.MinX

/-- Height of a rectangle. -/
def Rectangle.Dy (r : Rectangle) : Int := r.MaxY - r.MinY

/-- Go `Point.In`: membership of a point in a rectangle. -/
def Rectangle.Contains (r : Rectangle) (x y : Int) : Prop :=
  r.MinX ≤ x ∧ x < r.MaxX ∧ r.MinY ≤ y ∧ y < r.MaxY

instance (r : Rectangle) (x y : Int) : Decidable (r.Contains x y) := by
  unfold Rectangle.Contains; infer_instance

/-- Go `image.Gray`: a row-major buffer of 8-bit samples over a rectangle. -/
structure Gray where
  Pix : List Nat
  Stride : Int
  Rect : Rectangle
  deriving DecidableEq, Repr

/-- Go `image.NewGray`: a zero-filled image over `r`. -/
def NewGray (r : Rectangle) : Gray :=
  { Pix := List.replicate (r.Dx * r.Dy).toNat 0, Stride := r.Dx, Rect := r }

/-- Go `(*Gray).PixOffset`: index in `Pix` of the sample at `(x, y)`. -/
def Gray.PixOffset (p : Gray) (x y : Int) : Int :=
  (y - p.Rect.MinY) * p.Stride + (x - p.Rect.MinX)

/-- Go `(*Gray).GrayAt(x, y).Y`: the sample at `(x, y)`, zero outside the rectangle. -/
def Gray.GrayAt (p : Gray) (x y : Int) : Nat :=
  if p.Rect.Contains x y then p.Pix.getD (p.PixOffset x y).toNat 0 else 0

/-- Go `(*Gray).SetGray(x, y, color.Gray{Y: c})`: store a sample, ignored outside
the rectangle. -/
def Gray.SetGray (p : Gray) (x y : Int) (c : Nat) : Gray :=
  if p.Rect.Contains x y then { p with Pix := p.Pix.set (p.PixOffset x y).toNat c } else p

/-- A zero-based `W × H` image with a full buffer. -/
def Gray.IsCanvas (p : Gray) (W H : Int) : Prop :=
  0 ≤ W ∧ 0 ≤ H ∧ p.Rect = imageRect 0 0 W H ∧ p.Stride = W ∧ (p.Pix.length : Int) = W * H

/-! ## Loops -/

/-- The loop `for i := 0; i < n; i++ { s = body s i }`. -/
def forRange {σ : Type} (n : Int) (body : σ → Int → σ) (s : σ) : σ :=
  (List.range n.toNat).foldl (fun s i => body s (i : Int)) s

/-- The loop `for i := 0; i < n; i++`, with a body that may panic. -/
def forRangeM {σ : Type} (n : Int) (body : σ → Int → Option σ) (s : σ) : Option σ :=
  (List.range n.toNat).foldlM (fun s i => body s (i : Int)) s

/-! ## The program -/

/-- The Go struct `NoiseImage`. -/
structure NoiseImage where
  Image : Gray
  Width : Int
  Height : Int
  deriving DecidableEq, Repr

/-- A grid of size `ws × hs`: what `NewNoiseImage` and `Resize` produce, a zero-based
rectangle with a full buffer of 8-bit samples. -/
def NoiseImage.IsGrid (g : NoiseImage) (ws hs : Int) : Prop :=
  g.Width = ws ∧ g.Height = hs ∧ g.Image.Rect = imageRect 0 0 ws hs ∧ g.Image.Stride = ws ∧
    (g.Image.Pix.length : Int) = ws * hs ∧ ∀ v ∈ g.Image.Pix, v < 256

instance (g : NoiseImage) (ws hs : Int) : Decidable (g.IsGrid ws hs) := by
  unfold NoiseImage.IsGrid; infer_instance

/-- Source-space coordinate `sx` of destination column `i` (and `sy` of row `i`):
the scale factor of source line 35 and source lines 40 to 48. -/
def sourceCoord (fl : ℚ → ℚ) (sizeSource size i : Int) : ℚ :=
  let xs := fl (fl sizeSource / fl size)
  let sx := fl (fl (fl (fl i + 1 / 2) * xs) - 1 / 2)
  if sx < 0 then 0 else sx

/-- Lower source index `x0 = int(sx)` (and `y0`), source lines 51 and 52. -/
def lowIndex (fl : ℚ → ℚ) (sizeSource size i : Int) : Int :=
  truncToInt (sourceCoord fl sizeSource size i)

/-- Upper source index `x1` (and `y1`), source lines 59 to 67. -/
def highIndex (fl : ℚ → ℚ) (sizeSource size i : Int) : Int :=
  let x0 := lowIndex fl sizeSource size i
  let x1 := x0 + 1
  if x1 ≥ sizeSource then x0 else x1

/-- Body of the two loops of `Resize` (source lines 40 to 80): the sample stored at
destination `(x, y)`. -/
def resizePixel (fl : ℚ → ℚ) (noiseImage : NoiseImage) (width height x y : Int) : Nat :=
  let widthSource := noiseImage.Width
  let heightSource := noiseImage.Height
  let sx := sourceCoord fl widthSource width x
  let sy := sourceCoord fl heightSource height y
  let x0 := lowIndex fl widthSource width x
  let y0 := lowIndex fl heightSource height y
  let fracx := fl (sx - fl x0)
  let fracy := fl (sy - fl y0)
  let ifracx := fl (1 - fracx)
  let ifracy := fl (1 - fracy)
  let x1 := highIndex fl widthSource width x
  let y1 := highIndex fl heightSource height y
  let c1 := fl (noiseImage.Image.GrayAt x0 y0)
  let c2 := fl (noiseImage.Image.GrayAt x1 y0)
  let c3 := fl (noiseImage.Image.GrayAt x0 y1)
  let c4 := fl (noiseImage.Image.GrayAt x1 y1)
  let l0 := fl (fl (ifracx * c1) + fl (fracx * c2))
  let l1 := fl (fl (ifracx * c3) + fl (fracx * c4))
  let rf := fl (fl (ifracy * l0) + fl (fracy * l1))
  byteOfFloat rf

/-- The method `(*NoiseImage).Resize`; the receiver after the call is returned. -/
def Resize (fl : ℚ → ℚ) (noiseImage : NoiseImage) (width height : Int) : NoiseImage :=
  let newImage := NewGray (imageRect 0 0 width height)
  let newImage := forRange height (fun img y =>
    forRange width (fun img x =>
      img.SetGray x y (resizePixel fl noiseImage width height x y)) img) newImage
  { Image := newImage, Width := width, Height := height }

/-- Go slice read `s[i]`; `none` stands for the index-out-of-range panic. -/
def sliceGet (s : List Int) (i : Int) : Option Int :=
  if 0 ≤ i then s[i.toNat]? else none

/-- Go `s[i] += v`; `none` stands for the index-out-of-range panic. -/
def sliceAdd (s : List Int) (i : Int) (v : Int) : Option (List Int) :=
  (sliceGet s i).map fun old => s.set i.toNat (old + v)

/-- Content of the accumulator slot `i` (zero where the slice has no such slot). -/
def cell (s : List Int) (i : Int) : Int := s.getD i.toNat 0

/-- First loop of `NoiseImagesMiddle` (source lines 99 to 107). -/
def maxDims (noiseImages : List NoiseImage) : Int × Int :=
  noiseImages.foldl (fun m noiseImage =>
    (if noiseImage.Width > m.1 then noiseImage.Width else m.1,
     if noiseImage.Height > m.2 then noiseImage.Height else m.2)) (0, 0)

/-- Second loop of `NoiseImagesMiddle` (source lines 109 to 116): the accumulator, with
the length and the indices in mathematical integers (no overflow of
`maxWidth*maxHeight`; see `sumPixelsInt64` for the wrapping `int`). -/
def sumPixels (noiseImages : List NoiseImage) (maxWidth maxHeight : Int) :
    Option (List Int) :=
  noiseImages.foldlM (fun pixels noiseImage =>
    forRangeM noiseImage.Height (fun pixels y =>
      forRangeM noiseImage.Width (fun pixels x =>
        sliceAdd pixels (x + y * maxWidth) (noiseImage.Image.GrayAt x y)) pixels) pixels)
    (List.replicate (maxWidth * maxHeight).toNat 0)

/-- The function `NoiseImagesMiddle`, integers being mathematical integers; `none`
stands for a run-time panic. See `NoiseImagesMiddleInt64` for the wrapping `int`. -/
def NoiseImagesMiddle (fl : ℚ → ℚ) (noiseImages : List NoiseImage) : Option Gray :=
  let m := maxDims noiseImages
  let maxWidth := m.1
  let maxHeight := m.2
  (sumPixels noiseImages maxWidth maxHeight).bind fun pixels =>
    let newImage := NewGray (imageRect 0 0 maxWidth maxHeight)
    let noiseImagesCount : Int := noiseImages.length
    forRangeM maxHeight (fun img y =>
      forRangeM maxWidth (fun img x =>
        (sliceGet pixels (x + y * maxWidth)).map fun (v : Int) =>
          img.SetGray x y (byteOfFloat (mathRound (fl (fl v / fl noiseImagesCount))))) img)
      newImage

/-- Sum, over the images that cover `(x, y)` (those with `Width > x` and
`Height > y`), of their samples at `(x, y)`. -/
def coverSum (noiseImages : List NoiseImage) (x y : Int) : Int :=
  (noiseImages.map fun g =>
    if x < g.Width ∧ y < g.Height then (g.Image.GrayAt x y : Int) else 0).sum

/-- Round-to-nearest with ties rounded up: the rounding of section 4.3. -/
def roundNearest (q : ℚ) : Int := ⌊q + 1 / 2⌋

/-- Largest width in a list of images (zero for the empty list). -/
def maxWidthOf (noiseImages : List NoiseImage) : Int :=
  (noiseImages.map fun g => g.Width).foldr max 0

/-- Largest height in a list of images (zero for the empty list). -/
def maxHeightOf (noiseImages : List NoiseImage) : Int :=
  (noiseImages.map fun g => g.Height).foldr max 0

/-- A `ws × hs` grid with the given row-major samples. -/
def gridOf (ws hs : Int) (pix : List Nat) : NoiseImage :=
  { Image := { Pix := pix, Stride := ws, Rect := imageRect 0 0 ws hs }, Width := ws, Height := hs }


/-- The `ws × hs` grid whose samples are all `V`. -/
def constGrid (ws hs : Int) (V : Nat) : NoiseImage :=
  gridOf ws hs (List.replicate (ws * hs).toNat V)

/-- An `8388612 × 1` grid, zero everywhere but for the sample 200 at column
`8388610`. -/
def wideGrid : NoiseImage :=
  gridOf 8388612 1 (List.replicate 8388610 0 ++ [200, 0])

/-- Section 4.2 of the specification, in exact rational arithmetic: the resampled
value at destination `(x, y)` of a `ws × hs` source, before narrowing. -/
def specResample (g : NoiseImage) (ws hs w h x y : Int) : Int :=
  let sx : ℚ := max 0 (((x : ℚ) + 1 / 2) * ws / w - 1 / 2)
  let sy : ℚ := max 0 (((y : ℚ) + 1 / 2) * hs / h - 1 / 2)
  let x0 : Int := ⌊sx⌋
  let y0 : Int := ⌊sy⌋
  let fracx : ℚ := sx - x0
  let fracy : ℚ := sy - y0
  let x1 : Int := min (x0 + 1) (ws - 1)
  let y1 : Int := min (y0 + 1) (hs - 1)
  let c1 : ℚ := g.Image.GrayAt x0 y0
  let c2 : ℚ := g.Image.GrayAt x1 y0
  let c3 : ℚ := g.Image.GrayAt x0 y1
  let c4 : ℚ := g.Image.GrayAt x1 y1
  ⌊(1 - fracy) * ((1 - fracx) * c1 + fracx * c2) + fracy * ((1 - fracx) * c3 + fracx * c4)⌋


/-- The function `NewNoiseImage`. The process-wide random source is the sequence
`draws` of the values returned by the successive calls of `rand.Intn(256)`; `calls` is
the number of calls made before, and the number of calls made after is returned with
the image. `byte(v)` keeps `v` modulo 256. -/
def NewNoiseImage (draws : Nat → Nat) (calls : Nat) (width height : Int) :
    NoiseImage × Nat :=
  let image := NewGray (imageRect 0 0 width height)
  let s := forRange height (fun s y =>
    forRange width (fun (s : Gray × Nat) x =>
      (s.1.SetGray x y (draws s.2 % 256), s.2 + 1)) s) (image, calls)
  ({ Image := s.1, Width := width, Height := height }, s.2)

/-- Constant `octaves` of `main`. -/
def octaves : Nat := 12

/-- Constant `outSize` of `main`: `1 << octaves`. -/
def outSize : Int := ((1 <<< octaves : Nat) : Int)

/-- Variables of `main`: `size`, the octaves stored so far in `noiseImages` (the slots
are assigned once each, in index order) and the number of calls of `rand.Intn` made. -/
structure MainState where
  size : Int
  noiseImages : List NoiseImage
  calls : Nat

/-- One iteration of the loop of `main` (source lines 141 to 146); Go integer division
truncates. -/
def mainStep (draws : Nat → Nat) (st : MainState) : MainState :=
  let size := Int.tdiv st.size 2
  let r := NewNoiseImage draws st.calls size size
  let noiseImage := Resize float32 r.1 outSize outSize
  { size := size, noiseImages := st.noiseImages ++ [noiseImage], calls := r.2 }

/-- The octaves built by `main` (source lines 136 to 146). -/
def mainOctaves (draws : Nat → Nat) : MainState :=
  let r := NewNoiseImage draws 0 outSize outSize
  forRange ((octaves : Int) - 1) (fun st _ => mainStep draws st)
    { size := outSize, noiseImages := [r.1], calls := r.2 }

/-- The image that `main` hands to `SaveAsPng`. -/
def mainImage (draws : Nat → Nat) : Option Gray :=
  NoiseImagesMiddle float64 (mainOctaves draws).noiseImages

/-- Fractional weight `fracx` of destination column `i` (and `fracy` of row `i`),
source lines 53 and 54. -/
def fracPart (fl : ℚ → ℚ) (sizeSource size i : Int) : ℚ :=
  fl (sourceCoord fl sizeSource size i - fl (lowIndex fl sizeSource size i))

/-- Value `rf` that the body of the two loops of `Resize` computes for destination
`(x, y)` (source lines 40 to 78), before the conversion to a byte of source line 80. -/
def resizeValue (fl : ℚ → ℚ) (noiseImage : NoiseImage) (width height x y : Int) : ℚ :=
  let widthSource := noiseImage.Width
  let heightSource := noiseImage.Height
  let sx := sourceCoord fl widthSource width x
  let sy := sourceCoord fl heightSource height y
  let x0 := lowIndex fl widthSource width x
  let y0 := lowIndex fl heightSource height y
  let fracx := fl (sx - fl x0)
  let fracy := fl (sy - fl y0)
  let ifracx := fl (1 - fracx)
  let ifracy := fl (1 - fracy)
  let x1 := highIndex fl widthSource width x
  let y1 := highIndex fl heightSource height y
  let c1 := fl (noiseImage.Image.GrayAt x0 y0)
  let c2 := fl (noiseImage.Image.GrayAt x1 y0)
  let c3 := fl (noiseImage.Image.GrayAt x0 y1)
  let c4 := fl (noiseImage.Image.GrayAt x1 y1)
  let l0 := fl (fl (ifracx * c1) + fl (fracx * c2))
  let l1 := fl (fl (ifracx * c3) + fl (fracx * c4))
  fl (fl (ifracy * l0) + fl (fracy * l1))

/-- Section 4.2 of the specification with every arithmetic operation rounded by `fl`, the
way the code computes it for `fl = float32`: the resampled value at destination `(x, y)`
of a `ws × hs` source, with the clamps written as `max` and `min` and the narrowing as a
floor. With `fl = id` it is `specResample`. -/
def specResampleFl (fl : ℚ → ℚ) (g : NoiseImage) (ws hs w h x y : Int) : Int :=
  let xs : ℚ := fl (fl ws / fl w)
  let ys : ℚ := fl (fl hs / fl h)
  let sx : ℚ := max 0 (fl (fl (fl (fl x + 1 / 2) * xs) - 1 / 2))
  let sy : ℚ := max 0 (fl (fl (fl (fl y + 1 / 2) * ys) - 1 / 2))
  let x0 : Int := ⌊sx⌋
  let y0 : Int := ⌊sy⌋
  let fracx : ℚ := fl (sx - fl x0)
  let fracy : ℚ := fl (sy - fl y0)
  let x1 : Int := min (x0 + 1) (ws - 1)
  let y1 : Int := min (y0 + 1) (hs - 1)
  let c1 : ℚ := fl (g.Image.GrayAt x0 y0)
  let c2 : ℚ := fl (g.Image.GrayAt x1 y0)
  let c3 : ℚ := fl (g.Image.GrayAt x0 y1)
  let c4 : ℚ := fl (g.Image.GrayAt x1 y1)
  let l0 : ℚ := fl (fl (fl (1 - fracx) * c1) + fl (fracx * c2))
  let l1 : ℚ := fl (fl (fl (1 - fracx) * c3) + fl (fracx * c4))
  ⌊fl (fl (fl (1 - fracy) * l0) + fl (fracy * l1))⌋

/-- Go `int` on a 64-bit platform: the result of an integer operation wraps around
modulo `2^64` into `[-2^63, 2^63)`. -/
def wrapInt64 (z : Int) : Int := (z + 2 ^ 63) % 2 ^ 64 - 2 ^ 63

/-- Go `make([]int, n)`: a zero-filled slice of length `n`; `none` stands for the
run-time panic on a negative length. -/
def makeSlice (n : Int) : Option (List Int) :=
  if 0 ≤ n then some (List.replicate n.toNat 0) else none

/-- Second loop of `NoiseImagesMiddle` (source lines 109 to 116) with the length
`maxWidth*maxHeight` of the accumulator and the index `x+y*maxWidth` computed in Go's
wrapping `int`. The sums stored in the slots do not bear on the indices and are kept as
mathematical integers (they stay below `255 * len(noiseImages)`). -/
def sumPixelsInt64 (noiseImages : List NoiseImage) (maxWidth maxHeight : Int) :
    Option (List Int) :=
  (makeSlice (wrapInt64 (maxWidth * maxHeight))).bind fun pixels =>
    noiseImages.foldlM (fun pixels noiseImage =>
      forRangeM noiseImage.Height (fun pixels y =>
        forRangeM noiseImage.Width (fun pixels x =>
          sliceAdd pixels (wrapInt64 (x + wrapInt64 (y * maxWidth)))
            (noiseImage.Image.GrayAt x y)) pixels) pixels)
      pixels

/-- The function `NoiseImagesMiddle` with the accumulator length and the accumulator
indices computed in Go's wrapping `int`; `none` stands for a run-time panic. It agrees with
`NoiseImagesMiddle` whenever `maxWidth*maxHeight` does not overflow. -/
def NoiseImagesMiddleInt64 (fl : ℚ → ℚ) (noiseImages : List NoiseImage) : Option Gray :=
  let m := maxDims noiseImages
  let maxWidth := m.1
  let maxHeight := m.2
  (sumPixelsInt64 noiseImages maxWidth maxHeight).bind fun pixels =>
    let newImage := NewGray (imageRect 0 0 maxWidth maxHeight)
    let noiseImagesCount : Int := noiseImages.length
    forRangeM maxHeight (fun img y =>
      forRangeM maxWidth (fun img x =>
        (sliceGet pixels (wrapInt64 (x + wrapInt64 (y * maxWidth)))).map fun (v : Int) =>
          img.SetGray x y (byteOfFloat (mathRound (fl (fl v / fl noiseImagesCount))))) img)
      newImage

/-! ## Floating-point rounding -/

theorem abs_eq_natAbs_div_den (q : ℚ) : |q| = (q.num.natAbs : ℚ) / (q.den : ℚ) := by
  conv_lhs => rw [← Rat.num_div_den q]
  rw [abs_div, Nat.abs_cast, ← Int.cast_abs, Int.abs_eq_natAbs, Int.cast_natCast]

theorem two_zpow_log2_le (n : Nat) (hn : n ≠ 0) : (2 : ℚ) ^ (n.log2 : Int) ≤ n := by
  rw [zpow_natCast]
  exact_mod_cast Nat.log2_self_le hn

theorem lt_two_zpow_log2 (n : Nat) : (n : ℚ) < (2 : ℚ) ^ ((n.log2 : Int) + 1) := by
  have h : (n : ℚ) < (2 : ℚ) ^ (n.log2 + 1) := by exact_mod_cast Nat.lt_log2_self
  have e : ((n.log2 : Int) + 1) = ((n.log2 + 1 : Nat) : Int) := by push_cast; ring
  rw [e, zpow_natCast]
  exact h

/-- The binade exponent bounds the magnitude from below. -/
theorem two_zpow_ilog2_le {q : ℚ} (hq : q ≠ 0) : (2 : ℚ) ^ ilog2 q ≤ |q| := by
  unfold ilog2
  simp only
  split
  · assumption
  · have ha : q.num.natAbs ≠ 0 := by
      simpa [Int.natAbs_eq_zero] using hq
    have hb : (0 : ℚ) < q.den := by exact_mod_cast q.den_pos
    have h1 := two_zpow_log2_le q.num.natAbs ha
    have h2 := lt_two_zpow_log2 q.den
    rw [abs_eq_natAbs_div_den, le_div_iff₀ hb]
    have h3 : (2 : ℚ) ^ ((q.num.natAbs.log2 : Int) - (q.den.log2 : Int) - 1)
        * (2 : ℚ) ^ ((q.den.log2 : Int) + 1) = (2 : ℚ) ^ (q.num.natAbs.log2 : Int) := by
      rw [← zpow_add₀ (by norm_num : (2 : ℚ) ≠ 0)]
      congr 1; ring
    have h4 : (0 : ℚ) < (2 : ℚ) ^ ((q.num.natAbs.log2 : Int) - (q.den.log2 : Int) - 1) := by
      positivity
    calc (2 : ℚ) ^ ((q.num.natAbs.log2 : Int) - (q.den.log2 : Int) - 1) * (q.den : ℚ)
        ≤ (2 : ℚ) ^ ((q.num.natAbs.log2 : Int) - (q.den.log2 : Int) - 1)
            * (2 : ℚ) ^ ((q.den.log2 : Int) + 1) :=
          mul_le_mul_of_nonneg_left h2.le h4.le
      _ = (2 : ℚ) ^ (q.num.natAbs.log2 : Int) := h3
      _ ≤ (q.num.natAbs : ℚ) := h1

/-- The binade exponent bounds the magnitude from above. -/
theorem lt_two_zpow_ilog2 (q : ℚ) : |q| < (2 : ℚ) ^ (ilog2 q + 1) := by
  unfold ilog2
  simp only
  split
  · have hb : (0 : ℚ) < q.den := by exact_mod_cast q.den_pos
    have h1 := lt_two_zpow_log2 q.num.natAbs
    have h2 := two_zpow_log2_le q.den (by exact_mod_cast q.den_pos.ne')
    rw [abs_eq_natAbs_div_den, div_lt_iff₀ hb]
    have h3 : (2 : ℚ) ^ ((q.num.natAbs.log2 : Int) - (q.den.log2 : Int) + 1)
        * (2 : ℚ) ^ (q.den.log2 : Int) = (2 : ℚ) ^ ((q.num.natAbs.log2 : Int) + 1) := by
      rw [← zpow_add₀ (by norm_num : (2 : ℚ) ≠ 0)]
      congr 1; ring
    have h4 : (0 : ℚ) < (2 : ℚ) ^ ((q.num.natAbs.log2 : Int) - (q.den.log2 : Int) + 1) := by
      positivity
    calc (q.num.natAbs : ℚ) < (2 : ℚ) ^ ((q.num.natAbs.log2 : Int) + 1) := h1
      _ = (2 : ℚ) ^ ((q.num.natAbs.log2 : Int) - (q.den.log2 : Int) + 1)
            * (2 : ℚ) ^ (q.den.log2 : Int) := h3.symm
      _ ≤ (2 : ℚ) ^ ((q.num.natAbs.log2 : Int) - (q.den.log2 : Int) + 1) * (q.den : ℚ) :=
          mul_le_mul_of_nonneg_left h2 h4.le
  · rename_i h
    have : (q.num.natAbs.log2 : Int) - (q.den.log2 : Int) - 1 + 1
        = (q.num.natAbs.log2 : Int) - (q.den.log2 : Int) := by ring
    rw [this]
    exact lt_of_not_le h

theorem floor_le_roundHalfEven (y : ℚ) : ⌊y⌋ ≤ roundHalfEven y := by
  unfold roundHalfEven
  simp only
  split_ifs <;> omega

theorem roundHalfEven_le_floor_add_one (y : ℚ) : roundHalfEven y ≤ ⌊y⌋ + 1 := by
  unfold roundHalfEven
  simp only
  split_ifs <;> omega

theorem roundHalfEven_intCast (z : Int) : roundHalfEven (z : ℚ) = z := by
  unfold roundHalfEven
  simp

/-- An integer below `y` stays below the rounding of `y`. -/
theorem le_roundHalfEven {z : Int} {y : ℚ} (h : (z : ℚ) ≤ y) : z ≤ roundHalfEven y :=
  le_trans (Int.le_floor.mpr h) (floor_le_roundHalfEven y)

/-- An integer above `y` stays above the rounding of `y`. -/
theorem roundHalfEven_le {z : Int} {y : ℚ} (h : y ≤ (z : ℚ)) : roundHalfEven y ≤ z := by
  by_cases hy : y = ⌊y⌋
  · rw [hy, roundHalfEven_intCast]
    rw [hy] at h
    exact_mod_cast h
  · have h1 : (⌊y⌋ : ℚ) < y := lt_of_le_of_ne (Int.floor_le y) (Ne.symm hy)
    have h2 : (⌊y⌋ : ℚ) < z := lt_of_lt_of_le h1 h
    have h3 : ⌊y⌋ < z := by exact_mod_cast h2
    have := roundHalfEven_le_floor_add_one y
    omega

/-- Half an ulp bounds the distance between `y` and its rounding. -/
theorem abs_roundHalfEven_sub_le (y : ℚ) : |(roundHalfEven y : ℚ) - y| ≤ 1 / 2 := by
  have h1 := Int.floor_le y
  have h2 := Int.lt_floor_add_one y
  unfold roundHalfEven
  simp only
  rw [abs_le]
  split_ifs with a b c <;> push_cast <;> constructor <;> linarith


theorem roundFloat_of_ne {prec : Nat} {emin : Int} {q : ℚ} (hq : q ≠ 0) :
    roundFloat prec emin q
      = roundHalfEven (q / (2 : ℚ) ^ (max (ilog2 q) emin - ((prec : Int) - 1)))
          * (2 : ℚ) ^ (max (ilog2 q) emin - ((prec : Int) - 1)) := by
  simp [roundFloat, hq]

/-- A float whose exponent is not below the ulp exponent `k` is an integer number
of ulps. -/
theorem IsFloat.int_mul_ulp {m j k : Int} (hjk : k ≤ j) :
    ∃ z : Int, (m : ℚ) * (2 : ℚ) ^ j = z * (2 : ℚ) ^ k := by
  refine ⟨m * 2 ^ (j - k).toNat, ?_⟩
  have e : j = (((j - k).toNat : Nat) : Int) + k := by omega
  conv_lhs => rw [e, zpow_add₀ (by norm_num : (2 : ℚ) ≠ 0), zpow_natCast]
  push_cast
  ring

/-- A float with an exponent below the ulp exponent of `q` is smaller in magnitude
than the binade of `q`. -/
theorem IsFloat.abs_lt_of_fine {prec : Nat} {m j e : Int} (hm : |m| < 2 ^ prec)
    (hj : j < e - ((prec : Int) - 1)) : |(m : ℚ) * (2 : ℚ) ^ j| < (2 : ℚ) ^ e := by
  have h2 : (0 : ℚ) < (2 : ℚ) ^ j := by positivity
  have hm' : |(m : ℚ)| < (2 : ℚ) ^ (prec : Int) := by
    rw [zpow_natCast]
    exact_mod_cast hm
  rw [abs_mul, abs_of_pos h2]
  calc |(m : ℚ)| * (2 : ℚ) ^ j < (2 : ℚ) ^ (prec : Int) * (2 : ℚ) ^ j :=
        mul_lt_mul_of_pos_right hm' h2
    _ = (2 : ℚ) ^ ((prec : Int) + j) := by rw [zpow_add₀ (by norm_num : (2 : ℚ) ≠ 0)]
    _ ≤ (2 : ℚ) ^ e := zpow_le_zpow_right₀ (by norm_num) (by omega)

theorem binade_eq_int_mul_ulp {prec : Nat} (hp : 1 ≤ prec) (e : Int) :
    (2 : ℚ) ^ e = ((2 ^ (prec - 1) : Int) : ℚ) * (2 : ℚ) ^ (e - ((prec : Int) - 1)) := by
  have h : (((2 : Int) ^ (prec - 1) : Int) : ℚ) = (2 : ℚ) ^ (((prec - 1 : Nat) : Int)) := by
    rw [zpow_natCast]; push_cast; rfl
  rw [h, ← zpow_add₀ (by norm_num : (2 : ℚ) ≠ 0)]
  congr 1
  omega

/-- Rounding never crosses a float from above: a float below `q` stays below the
rounding of `q`. -/
theorem le_roundFloat {prec : Nat} {emin : Int} {r q : ℚ} (hp : 1 ≤ prec)
    (hr : IsFloat prec emin r) (h : r ≤ q) : r ≤ roundFloat prec emin q := by
  by_cases hq : q = 0
  · simpa [roundFloat, hq] using h
  obtain ⟨m, j, hm, hj, rfl⟩ := hr
  rw [roundFloat_of_ne hq]
  set e := max (ilog2 q) emin with he
  set u := (2 : ℚ) ^ (e - ((prec : Int) - 1)) with hu
  have hu0 : 0 < u := by positivity
  by_cases hjk : e - ((prec : Int) - 1) ≤ j
  · obtain ⟨z, hz⟩ := IsFloat.int_mul_ulp (m := m) hjk
    rw [hz]
    have h1 : (z : ℚ) ≤ q / u := by
      rw [le_div_iff₀ hu0, ← hz]; exact h
    have h2 := le_roundHalfEven h1
    exact mul_le_mul_of_nonneg_right (by exact_mod_cast h2) hu0.le
  · have hjk' : j < e - ((prec : Int) - 1) := not_le.mp hjk
    have hlt := IsFloat.abs_lt_of_fine hm hjk'
    have hee : e = ilog2 q := by omega
    have hqe : (2 : ℚ) ^ e ≤ |q| := by rw [hee]; exact two_zpow_ilog2_le hq
    rcases lt_or_gt_of_ne hq with hneg | hpos
    · exfalso
      have h3 : |q| ≤ |(m : ℚ) * (2 : ℚ) ^ j| := by
        rw [abs_of_neg hneg, abs_of_neg (lt_of_le_of_lt h hneg)]
        linarith
      linarith
    · rw [abs_of_pos hpos, binade_eq_int_mul_ulp hp e] at hqe
      have h1 : (((2 ^ (prec - 1) : Int)) : ℚ) ≤ q / u := by
        rw [le_div_iff₀ hu0]; exact hqe
      have h2 := le_roundHalfEven h1
      have h3 : (2 : ℚ) ^ e ≤ (roundHalfEven (q / u) : ℚ) * u := by
        rw [binade_eq_int_mul_ulp hp e]
        exact mul_le_mul_of_nonneg_right (by exact_mod_cast h2) hu0.le
      have h4 := le_abs_self ((m : ℚ) * (2 : ℚ) ^ j)
      linarith

/-- Rounding never crosses a float from below: a float above `q` stays above the
rounding of `q`. -/
theorem roundFloat_le {prec : Nat} {emin : Int} {r q : ℚ} (hp : 1 ≤ prec)
    (hr : IsFloat prec emin r) (h : q ≤ r) : roundFloat prec emin q ≤ r := by
  by_cases hq : q = 0
  · simpa [roundFloat, hq] using h
  obtain ⟨m, j, hm, hj, rfl⟩ := hr
  rw [roundFloat_of_ne hq]
  set e := max (ilog2 q) emin with he
  set u := (2 : ℚ) ^ (e - ((prec : Int) - 1)) with hu
  have hu0 : 0 < u := by positivity
  by_cases hjk : e - ((prec : Int) - 1) ≤ j
  · obtain ⟨z, hz⟩ := IsFloat.int_mul_ulp (m := m) hjk
    rw [hz]
    have h1 : q / u ≤ (z : ℚ) := by
      rw [div_le_iff₀ hu0, ← hz]; exact h
    have h2 := roundHalfEven_le h1
    exact mul_le_mul_of_nonneg_right (by exact_mod_cast h2) hu0.le
  · have hjk' : j < e - ((prec : Int) - 1) := not_le.mp hjk
    have hlt := IsFloat.abs_lt_of_fine hm hjk'
    have hee : e = ilog2 q := by omega
    have hqe : (2 : ℚ) ^ e ≤ |q| := by rw [hee]; exact two_zpow_ilog2_le hq
    rcases lt_or_gt_of_ne hq with hneg | hpos
    · rw [abs_of_neg hneg, binade_eq_int_mul_ulp hp e] at hqe
      have h1 : q / u ≤ ((-(2 ^ (prec - 1) : Int) : Int) : ℚ) := by
        rw [div_le_iff₀ hu0]; push_cast; push_cast at hqe; linarith
      have h2 := roundHalfEven_le h1
      have h3 : (roundHalfEven (q / u) : ℚ) * u ≤ -(2 : ℚ) ^ e := by
        rw [binade_eq_int_mul_ulp hp e, ← neg_mul]
        exact mul_le_mul_of_nonneg_right (by exact_mod_cast h2) hu0.le
      have h4 := neg_abs_le ((m : ℚ) * (2 : ℚ) ^ j)
      linarith
    · exfalso
      have h3 : |q| ≤ |(m : ℚ) * (2 : ℚ) ^ j| := by
        rw [abs_of_pos hpos, abs_of_pos (lt_of_lt_of_le hpos h)]
        exact h
      linarith

/-- Rounding leaves the values of the format unchanged. -/
theorem roundFloat_eq_self {prec : Nat} {emin : Int} {r : ℚ} (hp : 1 ≤ prec)
    (hr : IsFloat prec emin r) : roundFloat prec emin r = r :=
  le_antisymm (roundFloat_le hp hr le_rfl) (le_roundFloat hp hr le_rfl)


/-- The result of rounding is a value of the format. -/
theorem roundFloat_isFloat {prec : Nat} {emin : Int} (hp : 1 ≤ prec) (q : ℚ) :
    IsFloat prec emin (roundFloat prec emin q) := by
  by_cases hq : q = 0
  · refine ⟨0, emin - ((prec : Int) - 1), by simp, le_rfl, ?_⟩
    simp [roundFloat, hq]
  rw [roundFloat_of_ne hq]
  set e := max (ilog2 q) emin with he
  set u := (2 : ℚ) ^ (e - ((prec : Int) - 1)) with hu
  have hu0 : 0 < u := by positivity
  have hje : emin - ((prec : Int) - 1) ≤ e - ((prec : Int) - 1) := by
    have : emin ≤ e := le_max_right _ _
    omega
  -- the scaled value lies within `2^prec` of zero
  have hlt : |q / u| < ((2 ^ prec : Int) : ℚ) := by
    rw [abs_div, abs_of_pos hu0, div_lt_iff₀ hu0]
    have h1 := lt_two_zpow_ilog2 q
    have h2 : (2 : ℚ) ^ (ilog2 q + 1) ≤ (2 : ℚ) ^ (e + 1) :=
      zpow_le_zpow_right₀ (by norm_num) (by have : ilog2 q ≤ e := le_max_left _ _; omega)
    have h3 : (((2 : Int) ^ prec : Int) : ℚ) * u = (2 : ℚ) ^ (e + 1) := by
      rw [hu]
      push_cast
      rw [← zpow_natCast, ← zpow_add₀ (by norm_num : (2 : ℚ) ≠ 0)]
      congr 1; ring
    rw [h3]
    exact lt_of_lt_of_le h1 h2
  obtain ⟨hlo, hhi⟩ := abs_lt.mp hlt
  have hm1 : roundHalfEven (q / u) ≤ 2 ^ prec := roundHalfEven_le hhi.le
  have hm2 : -(2 ^ prec) ≤ roundHalfEven (q / u) :=
    le_roundHalfEven (by push_cast at hlo ⊢; exact hlo.le)
  have hpow : (2 : Int) ^ prec = 2 * 2 ^ (prec - 1) := by
    rw [← pow_succ']; congr 1; omega
  have hpos : (0 : Int) < 2 ^ (prec - 1) := by positivity
  have hu2 : (2 : ℚ) ^ (e - ((prec : Int) - 1) + 1) = 2 * u := by
    rw [zpow_add₀ (by norm_num : (2 : ℚ) ≠ 0), zpow_one, mul_comm]
  rcases eq_or_lt_of_le hm1 with htop | htop
  · refine ⟨2 ^ (prec - 1), e - ((prec : Int) - 1) + 1, ?_, by omega, ?_⟩
    · rw [abs_of_pos hpos]; omega
    · rw [htop, hpow, hu2]; push_cast; ring
  rcases eq_or_lt_of_le hm2 with hbot | hbot
  · refine ⟨-(2 ^ (prec - 1)), e - ((prec : Int) - 1) + 1, ?_, by omega, ?_⟩
    · rw [abs_neg, abs_of_pos hpos]; omega
    · rw [← hbot, hpow, hu2]; push_cast; ring
  · exact ⟨roundHalfEven (q / u), e - ((prec : Int) - 1), abs_lt.mpr ⟨hbot, htop⟩, hje, rfl⟩


/-- No integer is closer to `y` than its rounding. -/
theorem abs_roundHalfEven_sub_le_int (y : ℚ) (z : Int) :
    |(roundHalfEven y : ℚ) - y| ≤ |(z : ℚ) - y| := by
  have h := abs_roundHalfEven_sub_le y
  by_cases hz : z = roundHalfEven y
  · rw [hz]
  · have h1 : (1 : ℚ) ≤ |(z : ℚ) - (roundHalfEven y : ℚ)| := by
      have : (1 : Int) ≤ |z - roundHalfEven y| := by
        have : z - roundHalfEven y ≠ 0 := sub_ne_zero.mpr hz
        exact Int.one_le_abs this
      exact_mod_cast this
    have h2 : |(z : ℚ) - (roundHalfEven y : ℚ)|
        ≤ |(z : ℚ) - y| + |(roundHalfEven y : ℚ) - y| := by
      have := abs_sub_le (z : ℚ) y (roundHalfEven y : ℚ)
      rwa [abs_sub_comm y (roundHalfEven y : ℚ)] at this
    linarith

/-- Round to nearest: no value of the format is closer to `q` than its rounding. -/
theorem abs_roundFloat_sub_le_isFloat {prec : Nat} {emin : Int} {r : ℚ} (hp : 1 ≤ prec)
    (hr : IsFloat prec emin r) (q : ℚ) :
    |roundFloat prec emin q - q| ≤ |r - q| := by
  by_cases hq : q = 0
  · simp [roundFloat, hq]
  obtain ⟨m, j, hm, hj, rfl⟩ := hr
  rw [roundFloat_of_ne hq]
  set e := max (ilog2 q) emin with he
  set u := (2 : ℚ) ^ (e - ((prec : Int) - 1)) with hu
  have hu0 : 0 < u := by positivity
  -- distance to any integer number of ulps
  have key : ∀ z : Int, |(roundHalfEven (q / u) : ℚ) * u - q| ≤ |(z : ℚ) * u - q| := by
    intro z
    have h1 : (roundHalfEven (q / u) : ℚ) * u - q
        = ((roundHalfEven (q / u) : ℚ) - q / u) * u := by field_simp
    have h2 : (z : ℚ) * u - q = ((z : ℚ) - q / u) * u := by field_simp
    rw [h1, h2, abs_mul, abs_mul]
    exact mul_le_mul_of_nonneg_right (abs_roundHalfEven_sub_le_int _ z) (abs_nonneg u)
  by_cases hjk : e - ((prec : Int) - 1) ≤ j
  · obtain ⟨z, hz⟩ := IsFloat.int_mul_ulp (m := m) hjk
    rw [hz]
    exact key z
  · have hjk' : j < e - ((prec : Int) - 1) := not_le.mp hjk
    have hlt := IsFloat.abs_lt_of_fine hm hjk'
    have hee : e = ilog2 q := by omega
    have hqe : (2 : ℚ) ^ e ≤ |q| := by rw [hee]; exact two_zpow_ilog2_le hq
    have hb := binade_eq_int_mul_ulp hp e
    obtain ⟨h3, h4⟩ := abs_lt.mp hlt
    rcases lt_or_gt_of_ne hq with hneg | hpos
    · rw [abs_of_neg hneg] at hqe
      have h5 := key (-(2 ^ (prec - 1) : Int))
      have h6 : ((-(2 ^ (prec - 1) : Int) : Int) : ℚ) * u = -(2 : ℚ) ^ e := by
        rw [hb]; push_cast; ring
      rw [h6] at h5
      refine le_trans h5 ?_
      rw [abs_of_nonneg (by linarith), abs_of_nonneg (by linarith)]
      linarith
    · rw [abs_of_pos hpos] at hqe
      have h5 := key ((2 ^ (prec - 1) : Int))
      rw [← hb] at h5
      refine le_trans h5 ?_
      rw [abs_of_nonpos (by linarith), abs_of_nonpos (by linarith)]
      linarith


theorem isFloat_intCast {prec : Nat} {emin : Int} (hemin : emin ≤ (prec : Int) - 1) {z : Int}
    (hz : |z| < 2 ^ prec) : IsFloat prec emin (z : ℚ) :=
  ⟨z, 0, hz, by omega, by simp⟩

theorem isFloat_half {prec : Nat} {emin : Int} (hemin : emin ≤ (prec : Int) - 2) {z : Int}
    (hz : |z| < 2 ^ prec) : IsFloat prec emin ((z : ℚ) / 2) :=
  ⟨z, -1, hz, by omega, by rw [zpow_neg_one]; ring⟩

theorem float64_intCast {z : Int} (hz : |z| < 2 ^ 53) : float64 (z : ℚ) = z :=
  roundFloat_eq_self (by norm_num) (isFloat_intCast (by norm_num) hz)

theorem float32_intCast {z : Int} (hz : |z| < 2 ^ 24) : float32 (z : ℚ) = z :=
  roundFloat_eq_self (by norm_num) (isFloat_intCast (by norm_num) hz)

theorem float64_half {z : Int} (hz : |z| < 2 ^ 53) : float64 ((z : ℚ) / 2) = (z : ℚ) / 2 :=
  roundFloat_eq_self (by norm_num) (isFloat_half (by norm_num) hz)

theorem float32_half {z : Int} (hz : |z| < 2 ^ 24) : float32 ((z : ℚ) / 2) = (z : ℚ) / 2 :=
  roundFloat_eq_self (by norm_num) (isFloat_half (by norm_num) hz)

/-! ## Evaluating `float32` arithmetic -/

/-- A rational with a numerator below `2^24` and a power-of-two denominator down to
`2^149` is a `float32` value, left unchanged by rounding. -/
theorem float32_exact {q : ℚ} (h1 : |q.num| < 2 ^ 24) (h2 : q.den ∣ 2 ^ 149) :
    float32 q = q := by
  obtain ⟨k, hk, hden⟩ := (Nat.dvd_prime_pow Nat.prime_two).mp h2
  apply roundFloat_eq_self (by norm_num)
  refine ⟨q.num, -(k : Int), h1, by omega, ?_⟩
  conv_lhs => rw [← Rat.num_div_den q]
  rw [hden, zpow_neg, zpow_natCast]
  push_cast
  rw [div_eq_mul_inv]


/-- Rounding error: at most half an ulp, that is the relative error `2^-prec` in the
normal range and the absolute error `2^(emin - prec)` below it. -/
theorem abs_roundFloat_sub_le {prec : Nat} {emin : Int} (q : ℚ) :
    |roundFloat prec emin q - q|
      ≤ |q| * (2 : ℚ) ^ (-(prec : Int)) + (2 : ℚ) ^ (emin - (prec : Int)) := by
  by_cases hq : q = 0
  · subst hq
    simp only [roundFloat, if_true, sub_self, abs_zero, zero_mul, zero_add]
    positivity
  rw [roundFloat_of_ne hq]
  set e := max (ilog2 q) emin with he
  set u := (2 : ℚ) ^ (e - ((prec : Int) - 1)) with hu
  have hu0 : 0 < u := by positivity
  have h1 : (roundHalfEven (q / u) : ℚ) * u - q = ((roundHalfEven (q / u) : ℚ) - q / u) * u := by
    field_simp
  rw [h1, abs_mul, abs_of_pos hu0]
  have h2 := abs_roundHalfEven_sub_le (q / u)
  have h3 : |(roundHalfEven (q / u) : ℚ) - q / u| * u ≤ 1 / 2 * u :=
    mul_le_mul_of_nonneg_right h2 hu0.le
  have h4 : 1 / 2 * u = (2 : ℚ) ^ (e - (prec : Int)) := by
    rw [hu, show e - ((prec : Int) - 1) = (e - (prec : Int)) + 1 by ring,
      zpow_add₀ (by norm_num : (2 : ℚ) ≠ 0), zpow_one]
    ring
  rw [h4] at h3
  refine le_trans h3 ?_
  rcases le_total (ilog2 q) emin with hle | hle
  · have : e = emin := by rw [he]; exact max_eq_right hle
    rw [this]
    have : (0 : ℚ) ≤ |q| * (2 : ℚ) ^ (-(prec : Int)) := by positivity
    linarith
  · have hee : e = ilog2 q := by rw [he]; exact max_eq_left hle
    have h5 := two_zpow_ilog2_le hq
    have h6 : (2 : ℚ) ^ (e - (prec : Int)) = (2 : ℚ) ^ e * (2 : ℚ) ^ (-(prec : Int)) := by
      rw [← zpow_add₀ (by norm_num : (2 : ℚ) ≠ 0)]; congr 1
    rw [h6, hee]
    have h7 : (0 : ℚ) < (2 : ℚ) ^ (-(prec : Int)) := by positivity
    have h8 : (0 : ℚ) < (2 : ℚ) ^ (emin - (prec : Int)) := by positivity
    have h9 := mul_le_mul_of_nonneg_right h5 h7.le
    linarith

theorem float32_le_of_nonneg {q : ℚ} (hq : 0 ≤ q) :
    float32 q ≤ q * (1 + 1 / 2 ^ 24) + 1 / 2 ^ 150 := by
  have h := @abs_roundFloat_sub_le 24 (-126) q
  rw [abs_of_nonneg hq] at h
  have h1 : (2 : ℚ) ^ (-((24 : Nat) : Int)) = 1 / 2 ^ 24 := by norm_num
  have h2 : (2 : ℚ) ^ ((-126 : Int) - ((24 : Nat) : Int)) = 1 / 2 ^ 150 := by norm_num
  rw [h1, h2] at h
  have h3 := (abs_le.mp h).2
  unfold float32
  linarith

theorem float32_nonneg {q : ℚ} (hq : 0 ≤ q) : 0 ≤ float32 q :=
  le_roundFloat (by norm_num) (isFloat_intCast (z := 0) (by norm_num) (by norm_num))
    (by exact_mod_cast hq)

theorem float32_nonpos {q : ℚ} (hq : q ≤ 0) : float32 q ≤ 0 := by
  have := @roundFloat_le 24 (-126) ((0 : Int) : ℚ) q (by norm_num)
    (isFloat_intCast (z := 0) (by norm_num) (by norm_num)) (by exact_mod_cast hq)
  exact_mod_cast this


/-! ## Loop lemmas -/

theorem forRange_natCast_succ {σ : Type} (n : Nat) (body : σ → Int → σ) (s : σ) :
    forRange ((n : Int) + 1) body s = body (forRange (n : Int) body s) (n : Int) := by
  have h : ((n : Int) + 1).toNat = n + 1 := by omega
  simp [forRange, h, List.range_succ, List.foldl_append]

theorem forRange_zero {σ : Type} (body : σ → Int → σ) (s : σ) :
    forRange 0 body s = s := by
  simp [forRange]

theorem forRangeM_natCast_succ {σ : Type} (n : Nat) (body : σ → Int → Option σ) (s : σ) :
    forRangeM ((n : Int) + 1) body s
      = (forRangeM (n : Int) body s).bind fun t => body t (n : Int) := by
  have h : ((n : Int) + 1).toNat = n + 1 := by omega
  simp [forRangeM, h, List.range_succ, List.foldlM_append]

theorem forRangeM_zero {σ : Type} (body : σ → Int → Option σ) (s : σ) :
    forRangeM 0 body s = some s := by
  simp [forRangeM]

/-! ## Image lemmas -/

theorem imageRect_zero_nonneg {W H : Int} (hW : 0 ≤ W) (hH : 0 ≤ H) :
    imageRect 0 0 W H = { MinX := 0, MinY := 0, MaxX := W, MaxY := H } := by
  simp [imageRect, not_lt.mpr hW, not_lt.mpr hH]

theorem Gray.IsCanvas.contains_iff {p : Gray} {W H : Int} (hp : p.IsCanvas W H) (x y : Int) :
    p.Rect.Contains x y ↔ (0 ≤ x ∧ x < W ∧ 0 ≤ y ∧ y < H) := by
  obtain ⟨hW, hH, hR, -, -⟩ := hp
  rw [hR, imageRect_zero_nonneg hW hH]
  simp [Rectangle.Contains]

theorem Gray.IsCanvas.pixOffset {p : Gray} {W H : Int} (hp : p.IsCanvas W H) (x y : Int) :
    p.PixOffset x y = y * W + x := by
  obtain ⟨hW, hH, hR, hS, -⟩ := hp
  simp [Gray.PixOffset, hR, imageRect_zero_nonneg hW hH, hS]

theorem offset_lt {W H x y : Int} (hx0 : 0 ≤ x) (hx : x < W) (hy0 : 0 ≤ y) (hy : y < H) :
    0 ≤ y * W + x ∧ y * W + x < W * H := by
  constructor
  · have : 0 ≤ y * W := mul_nonneg hy0 (by omega)
    omega
  · have h1 : y + 1 ≤ H := by omega
    have h2 : (y + 1) * W ≤ H * W := by
      apply mul_le_mul_of_nonneg_right h1; omega
    nlinarith

theorem offset_inj {W x y x' y' : Int} (hx0 : 0 ≤ x) (hx : x < W) (hx0' : 0 ≤ x')
    (hx' : x' < W) (h : y * W + x = y' * W + x') : x = x' ∧ y = y' := by
  have hW : 0 < W := by omega
  have hy : y = y' := by
    by_contra hne
    rcases lt_or_gt_of_ne hne with hlt | hgt
    · have : (y + 1) * W ≤ y' * W := by
        apply mul_le_mul_of_nonneg_right (by omega) (by omega)
      nlinarith
    · have : (y' + 1) * W ≤ y * W := by
        apply mul_le_mul_of_nonneg_right (by omega) (by omega)
      nlinarith
  subst hy
  exact ⟨by omega, rfl⟩

theorem NewGray_isCanvas {W H : Int} (hW : 0 ≤ W) (hH : 0 ≤ H) :
    (NewGray (imageRect 0 0 W H)).IsCanvas W H := by
  refine ⟨hW, hH, rfl, ?_, ?_⟩
  · simp [NewGray, imageRect_zero_nonneg hW hH, Rectangle.Dx]
  · simp [NewGray, imageRect_zero_nonneg hW hH, Rectangle.Dx, Rectangle.Dy, mul_nonneg hW hH]

theorem Gray.IsCanvas.setGray {p : Gray} {W H : Int} (hp : p.IsCanvas W H) (x y : Int)
    (c : Nat) : (p.SetGray x y c).IsCanvas W H := by
  unfold Gray.SetGray
  split
  · obtain ⟨hW, hH, hR, hS, hL⟩ := hp
    exact ⟨hW, hH, hR, hS, by simpa using hL⟩
  · exact hp

theorem Gray.IsCanvas.grayAt_setGray {p : Gray} {W H : Int} (hp : p.IsCanvas W H)
    (x y : Int) (c : Nat) (x' y' : Int) :
    (p.SetGray x y c).GrayAt x' y'
      = if x' = x ∧ y' = y ∧ 0 ≤ x ∧ x < W ∧ 0 ≤ y ∧ y < H then c else p.GrayAt x' y' := by
  by_cases hin : p.Rect.Contains x y
  · obtain ⟨hx0, hx, hy0, hy⟩ := (hp.contains_iff x y).mp hin
    have hoff := offset_lt hx0 hx hy0 hy
    have hS : p.SetGray x y c = { p with Pix := p.Pix.set (y * W + x).toNat c } := by
      simp [Gray.SetGray, hin, hp.pixOffset]
    have hO : ∀ q : List Nat, ({ p with Pix := q } : Gray).PixOffset x' y' = y' * W + x' :=
      fun q => hp.pixOffset x' y'
    rw [hS]
    simp only [Gray.GrayAt, hO, hp.pixOffset]
    by_cases hin' : p.Rect.Contains x' y'
    · obtain ⟨hx0', hx', hy0', hy'⟩ := (hp.contains_iff x' y').mp hin'
      have hoff' := offset_lt hx0' hx' hy0' hy'
      have hlen := hp.2.2.2.2
      rw [if_pos hin', if_pos hin']
      by_cases heq : x' = x ∧ y' = y
      · obtain ⟨rfl, rfl⟩ := heq
        have hlt : (y' * W + x').toNat < p.Pix.length := by omega
        simp [List.getD_eq_getElem?_getD, List.getElem?_set, hlt, hx0, hx, hy0, hy]
      · have hne : (y * W + x).toNat ≠ (y' * W + x').toNat := by
          intro h
          have h2 : y * W + x = y' * W + x' := by omega
          obtain ⟨h3, h4⟩ := offset_inj hx0 hx hx0' hx' h2
          exact heq ⟨h3.symm, h4.symm⟩
        have hif : ¬ (x' = x ∧ y' = y ∧ 0 ≤ x ∧ x < W ∧ 0 ≤ y ∧ y < H) :=
          fun h => heq ⟨h.1, h.2.1⟩
        simp [List.getD_eq_getElem?_getD, List.getElem?_set, hne, hif]
    · have hif : ¬ (x' = x ∧ y' = y ∧ 0 ≤ x ∧ x < W ∧ 0 ≤ y ∧ y < H) := by
        rintro ⟨rfl, rfl, -⟩; exact hin' hin
      rw [if_neg hin', if_neg hin', if_neg hif]
  · have hif : ¬ (x' = x ∧ y' = y ∧ 0 ≤ x ∧ x < W ∧ 0 ≤ y ∧ y < H) := by
      rintro ⟨-, -, h⟩; exact hin ((hp.contains_iff x y).mpr h)
    simp only [Gray.SetGray, if_neg hin, if_neg hif]


/-- One row of a row-major fill: the inner loop `for x := 0; x < n; x++` storing
`f x` at `(x, y)`. -/
theorem fill_row {p : Gray} {W H : Int} (hp : p.IsCanvas W H) (f : Int → Nat) (y : Int)
    (n : Nat) (hn : (n : Int) ≤ W) :
    (forRange (n : Int) (fun img x => img.SetGray x y (f x)) p).IsCanvas W H ∧
    ∀ x' y', (forRange (n : Int) (fun img x => img.SetGray x y (f x)) p).GrayAt x' y'
      = if y' = y ∧ 0 ≤ y ∧ y < H ∧ 0 ≤ x' ∧ x' < (n : Int) then f x' else p.GrayAt x' y' := by
  induction n with
  | zero =>
    refine ⟨by simp [forRange_zero, hp], fun x' y' => ?_⟩
    have : ¬ (y' = y ∧ 0 ≤ y ∧ y < H ∧ 0 ≤ x' ∧ x' < (0 : Int)) := by
      rintro ⟨-, -, -, h1, h2⟩; omega
    simp only [Nat.cast_zero, forRange_zero]
    rw [if_neg this]
  | succ n ih =>
    have hn' : (n : Int) ≤ W := by push_cast at hn; omega
    obtain ⟨ih1, ih2⟩ := ih hn'
    have hs : forRange ((n + 1 : Nat) : Int) (fun img x => img.SetGray x y (f x)) p
        = (forRange (n : Int) (fun img x => img.SetGray x y (f x)) p).SetGray n y (f n) := by
      push_cast; rw [forRange_natCast_succ]
    rw [hs]
    refine ⟨ih1.setGray _ _ _, fun x' y' => ?_⟩
    rw [ih1.grayAt_setGray, ih2]
    push_cast at hn ⊢
    by_cases h1 : x' = (n : Int) ∧ y' = y ∧ 0 ≤ (n : Int) ∧ (n : Int) < W ∧ 0 ≤ y ∧ y < H
    · rw [if_pos h1]
      obtain ⟨rfl, rfl, h3, -, h5, h6⟩ := h1
      rw [if_pos ⟨rfl, h5, h6, h3, by omega⟩]
    · rw [if_neg h1]
      by_cases h2 : y' = y ∧ 0 ≤ y ∧ y < H ∧ 0 ≤ x' ∧ x' < (n : Int)
      · rw [if_pos h2]
        obtain ⟨rfl, h3, h4, h5, h6⟩ := h2
        rw [if_pos ⟨rfl, h3, h4, h5, by omega⟩]
      · rw [if_neg h2, if_neg]
        rintro ⟨rfl, h3, h4, h5, h6⟩
        by_cases h7 : x' = (n : Int)
        · exact h1 ⟨h7, rfl, by omega, by omega, h3, h4⟩
        · exact h2 ⟨rfl, h3, h4, h5, by omega⟩

/-- A row-major fill: the loop nest `for y < m { for x < W { SetGray(x, y, f x y) } }`
stores `f x y` in every cell of the first `m` rows and leaves the others. -/
theorem fill_rows {p : Gray} {W H : Int} (hp : p.IsCanvas W H) (f : Int → Int → Nat)
    (m : Nat) :
    (forRange (m : Int) (fun img y =>
        forRange W (fun img x => img.SetGray x y (f x y)) img) p).IsCanvas W H ∧
    ∀ x' y', (forRange (m : Int) (fun img y =>
        forRange W (fun img x => img.SetGray x y (f x y)) img) p).GrayAt x' y'
      = if 0 ≤ y' ∧ y' < (m : Int) ∧ y' < H ∧ 0 ≤ x' ∧ x' < W then f x' y'
        else p.GrayAt x' y' := by
  have hW : W = ((W.toNat : Nat) : Int) := by have := hp.1; omega
  induction m with
  | zero =>
    refine ⟨by simp [forRange_zero, hp], fun x' y' => ?_⟩
    simp only [Nat.cast_zero, forRange_zero]
    rw [if_neg]; rintro ⟨h1, h2, -⟩; omega
  | succ m ih =>
    obtain ⟨ih1, ih2⟩ := ih
    have hs : forRange ((m + 1 : Nat) : Int) (fun img y =>
        forRange W (fun img x => img.SetGray x y (f x y)) img) p
        = forRange W (fun img x => img.SetGray x (m : Int) (f x (m : Int)))
            (forRange (m : Int) (fun img y =>
              forRange W (fun img x => img.SetGray x y (f x y)) img) p) := by
      push_cast; rw [forRange_natCast_succ]
    rw [hs]
    have hrow := fill_row ih1 (fun x => f x (m : Int)) (m : Int) W.toNat (le_of_eq hW.symm)
    rw [← hW] at hrow
    refine ⟨hrow.1, fun x' y' => ?_⟩
    rw [hrow.2, ih2]
    push_cast
    by_cases h1 : y' = (m : Int) ∧ 0 ≤ (m : Int) ∧ (m : Int) < H ∧ 0 ≤ x' ∧ x' < W
    · rw [if_pos h1]
      obtain ⟨rfl, h2, h3, h4, h5⟩ := h1
      rw [if_pos ⟨h2, by omega, h3, h4, h5⟩]
    · rw [if_neg h1]
      by_cases h2 : 0 ≤ y' ∧ y' < (m : Int) ∧ y' < H ∧ 0 ≤ x' ∧ x' < W
      · rw [if_pos h2]
        obtain ⟨h3, h4, h5, h6, h7⟩ := h2
        rw [if_pos ⟨h3, by omega, h5, h6, h7⟩]
      · rw [if_neg h2, if_neg]
        rintro ⟨h3, h4, h5, h6, h7⟩
        by_cases h8 : y' = (m : Int)
        · exact h1 ⟨h8, by omega, by omega, h6, h7⟩
        · exact h2 ⟨h3, by omega, h5, h6, h7⟩

/-- The image written by `Resize` holds, at every destination coordinate, the value
computed by the loop body. -/
theorem Resize_grayAt (fl : ℚ → ℚ) (noiseImage : NoiseImage) {width height : Int}
    (hw : 0 ≤ width) (hh : 0 ≤ height) {x y : Int} (hx0 : 0 ≤ x) (hx : x < width)
    (hy0 : 0 ≤ y) (hy : y < height) :
    (Resize fl noiseImage width height).Image.GrayAt x y
      = resizePixel fl noiseImage width height x y := by
  have hH : height = ((height.toNat : Nat) : Int) := by omega
  have h := (fill_rows (NewGray_isCanvas hw hh)
    (fun x y => resizePixel fl noiseImage width height x y) height.toNat).2 x y
  rw [← hH] at h
  simp only [Resize]
  rw [h, if_pos ⟨hy0, hy, hy, hx0, hx⟩]

theorem Resize_isCanvas (fl : ℚ → ℚ) (noiseImage : NoiseImage) {width height : Int}
    (hw : 0 ≤ width) (hh : 0 ≤ height) :
    (Resize fl noiseImage width height).Image.IsCanvas width height := by
  have hH : height = ((height.toNat : Nat) : Int) := by omega
  have h := (fill_rows (NewGray_isCanvas hw hh)
    (fun x y => resizePixel fl noiseImage width height x y) height.toNat).1
  rw [← hH] at h
  exact h


/-! ## Resampling in exact arithmetic -/

theorem sourceCoord_id (n d i : Int) :
    sourceCoord id n d i = max 0 (((i : ℚ) + 1 / 2) * n / d - 1 / 2) := by
  simp only [sourceCoord, id]
  rw [mul_div_assoc]
  split
  · rw [max_eq_left]; linarith
  · rw [max_eq_right]; linarith

theorem sourceCoord_id_nonneg (n d i : Int) : 0 ≤ sourceCoord id n d i := by
  rw [sourceCoord_id]; exact le_max_left _ _

theorem sourceCoord_id_lt {n d i : Int} (hn : 1 ≤ n) (hd : 1 ≤ d) (hi : i < d) :
    sourceCoord id n d i < n := by
  rw [sourceCoord_id]
  have hd' : (0 : ℚ) < d := by exact_mod_cast (by omega : 0 < d)
  have hn' : (1 : ℚ) ≤ n := by exact_mod_cast hn
  have hi' : (i : ℚ) + 1 ≤ d := by exact_mod_cast (by omega : i + 1 ≤ d)
  apply max_lt
  · linarith
  · have h1 : ((i : ℚ) + 1 / 2) * n / d ≤ n := by
      rw [div_le_iff₀ hd']
      nlinarith
    linarith

theorem lowIndex_id (n d i : Int) : lowIndex id n d i = ⌊sourceCoord id n d i⌋ := by
  simp [lowIndex, truncToInt, sourceCoord_id_nonneg]

theorem lowIndex_id_nonneg (n d i : Int) : 0 ≤ lowIndex id n d i := by
  rw [lowIndex_id]; exact Int.floor_nonneg.mpr (sourceCoord_id_nonneg n d i)

theorem lowIndex_id_le {n d i : Int} (hn : 1 ≤ n) (hd : 1 ≤ d) (hi : i < d) :
    lowIndex id n d i ≤ n - 1 := by
  rw [lowIndex_id]
  have h := sourceCoord_id_lt hn hd hi
  have : ⌊sourceCoord id n d i⌋ < n := Int.floor_lt.mpr h
  omega

theorem highIndex_id {n d i : Int} (hn : 1 ≤ n) (hd : 1 ≤ d) (hi : i < d) :
    highIndex id n d i = min (lowIndex id n d i + 1) (n - 1) := by
  have h := lowIndex_id_le hn hd hi
  simp only [highIndex]
  split
  · rw [min_eq_right]; omega; omega
  · rw [min_eq_left]; omega

/-- A convex combination stays between the bounds of its two ends. -/
theorem lerp_mem {t a b lo hi : ℚ} (ht0 : 0 ≤ t) (ht1 : t ≤ 1) (ha : lo ≤ a) (ha' : a ≤ hi)
    (hb : lo ≤ b) (hb' : b ≤ hi) :
    lo ≤ (1 - t) * a + t * b ∧ (1 - t) * a + t * b ≤ hi := by
  constructor <;> nlinarith

/-- A bilinear blend stays between the bounds of its four corners. -/
theorem bilerp_mem {tx ty c1 c2 c3 c4 lo hi : ℚ} (hx0 : 0 ≤ tx) (hx1 : tx ≤ 1) (hy0 : 0 ≤ ty)
    (hy1 : ty ≤ 1) (h1 : lo ≤ c1) (h1' : c1 ≤ hi) (h2 : lo ≤ c2) (h2' : c2 ≤ hi)
    (h3 : lo ≤ c3) (h3' : c3 ≤ hi) (h4 : lo ≤ c4) (h4' : c4 ≤ hi) :
    lo ≤ (1 - ty) * ((1 - tx) * c1 + tx * c2) + ty * ((1 - tx) * c3 + tx * c4) ∧
    (1 - ty) * ((1 - tx) * c1 + tx * c2) + ty * ((1 - tx) * c3 + tx * c4) ≤ hi := by
  obtain ⟨a1, a2⟩ := lerp_mem hx0 hx1 h1 h1' h2 h2'
  obtain ⟨b1, b2⟩ := lerp_mem hx0 hx1 h3 h3' h4 h4'
  exact lerp_mem hy0 hy1 a1 a2 b1 b2

theorem Gray.grayAt_lt (p : Gray) (hp : ∀ v ∈ p.Pix, v < 256) (x y : Int) :
    p.GrayAt x y < 256 := by
  unfold Gray.GrayAt
  split
  · rw [List.getD_eq_getElem?_getD]
    cases h : p.Pix[(p.PixOffset x y).toNat]? with
    | none => simp
    | some v => simpa using hp v (List.getElem?_mem h)
  · norm_num

theorem byteOfFloat_eq_floor {q : ℚ} (h0 : 0 ≤ q) (h1 : q < 256) :
    (byteOfFloat q : Int) = ⌊q⌋ := by
  have hf0 : 0 ≤ ⌊q⌋ := Int.floor_nonneg.mpr h0
  have hf1 : ⌊q⌋ < 256 := Int.floor_lt.mpr (by exact_mod_cast h1)
  simp only [byteOfFloat, truncToInt, if_pos h0]
  omega

/-- The body of `Resize`, read in exact arithmetic, is the formula of section 4.2. -/
theorem resizePixel_id_eq_spec {g : NoiseImage} {ws hs w h x y : Int} (hg : g.IsGrid ws hs)
    (hws : 1 ≤ ws) (hhs : 1 ≤ hs) (hw : 1 ≤ w) (hh : 1 ≤ h) (hx : x < w) (hy : y < h) :
    (resizePixel id g w h x y : Int) = specResample g ws hs w h x y := by
  obtain ⟨hW, hH, -, -, -, hpix⟩ := hg
  have hc : ∀ a b, (0 : ℚ) ≤ g.Image.GrayAt a b ∧ ((g.Image.GrayAt a b : ℕ) : ℚ) ≤ 255 := by
    intro a b
    have := g.Image.grayAt_lt hpix a b
    constructor
    · positivity
    · exact_mod_cast (by omega : g.Image.GrayAt a b ≤ 255)
  have hfx0 := Int.fract_nonneg (sourceCoord id ws w x)
  have hfx1 := (Int.fract_lt_one (sourceCoord id ws w x)).le
  have hfy0 := Int.fract_nonneg (sourceCoord id hs h y)
  have hfy1 := (Int.fract_lt_one (sourceCoord id hs h y)).le
  simp only [resizePixel, specResample, hW, hH, id, highIndex_id hws hw hx,
    highIndex_id hhs hh hy, lowIndex_id, ← sourceCoord_id]
  simp only [Int.self_sub_floor]
  obtain ⟨hl, hu⟩ := bilerp_mem hfx0 hfx1 hfy0 hfy1
    (hc ⌊sourceCoord id ws w x⌋ ⌊sourceCoord id hs h y⌋).1
    (hc ⌊sourceCoord id ws w x⌋ ⌊sourceCoord id hs h y⌋).2
    (hc ((⌊sourceCoord id ws w x⌋ + 1) ⊓ (ws - 1)) ⌊sourceCoord id hs h y⌋).1
    (hc ((⌊sourceCoord id ws w x⌋ + 1) ⊓ (ws - 1)) ⌊sourceCoord id hs h y⌋).2
    (hc ⌊sourceCoord id ws w x⌋ ((⌊sourceCoord id hs h y⌋ + 1) ⊓ (hs - 1))).1
    (hc ⌊sourceCoord id ws w x⌋ ((⌊sourceCoord id hs h y⌋ + 1) ⊓ (hs - 1))).2
    (hc ((⌊sourceCoord id ws w x⌋ + 1) ⊓ (ws - 1)) ((⌊sourceCoord id hs h y⌋ + 1) ⊓ (hs - 1))).1
    (hc ((⌊sourceCoord id ws w x⌋ + 1) ⊓ (ws - 1)) ((⌊sourceCoord id hs h y⌋ + 1) ⊓ (hs - 1))).2
  exact byteOfFloat_eq_floor hl (lt_of_le_of_lt hu (by norm_num))


/-- The idealisation `fl = id` of `Resize`, in which no operation is rounded (the code
itself rounds every operation to float32): for a
`ws × hs` source grid and a destination size `w, h ≥ 1` the sample at every
destination `(x, y)` is the floor (truncation, not rounding) of the bilinear blend of
section 4.2: `sx = max(0, (x+0.5)*ws/w - 0.5)`, `x0 = floor(sx)`, `fracx = sx - x0`,
`x1 = min(x0+1, ws-1)` (likewise in `y`), blended over the four source samples. -/
theorem Resize_exact_eq_specResample (g : NoiseImage) (ws hs w h x y : Int)
    (hg : g.IsGrid ws hs) (hws : 1 ≤ ws) (hhs : 1 ≤ hs) (hw : 1 ≤ w) (hh : 1 ≤ h)
    (hx0 : 0 ≤ x) (hx : x < w) (hy0 : 0 ≤ y) (hy : y < h) :
    ((Resize id g w h).Image.GrayAt x y : Int) = specResample g ws hs w h x y := by
  rw [Resize_grayAt id g (by omega) (by omega) hx0 hx hy0 hy]
  exact resizePixel_id_eq_spec hg hws hhs hw hh hx hy



/-! ## The accumulator of `NoiseImagesMiddle` -/

theorem sliceGet_eq {s : List Int} {i : Int} (h0 : 0 ≤ i) (h1 : i < s.length) :
    sliceGet s i = some (cell s i) := by
  have : i.toNat < s.length := by omega
  simp [sliceGet, cell, h0, List.getD_eq_getElem?_getD, List.getElem?_eq_getElem this]

theorem sliceAdd_eq {s : List Int} {i : Int} (h0 : 0 ≤ i) (h1 : i < s.length) (v : Int) :
    sliceAdd s i v = some (s.set i.toNat (cell s i + v)) := by
  simp [sliceAdd, sliceGet_eq h0 h1]

theorem cell_set {s : List Int} {i : Int} (h0 : 0 ≤ i) (h1 : i < s.length) (v : Int)
    {j : Int} (hj : 0 ≤ j) :
    cell (s.set i.toNat v) j = if j = i then v else cell s j := by
  have hi : i.toNat < s.length := by omega
  by_cases h : j = i
  · subst h
    simp [cell, List.getD_eq_getElem?_getD, List.getElem?_set, hi]
  · have hne : i.toNat ≠ j.toNat := by omega
    simp [cell, List.getD_eq_getElem?_getD, List.getElem?_set, hne, h]

/-- Inner loop of the accumulation: row `y` of one image is added to the accumulator. -/
theorem addRow {mw mh : Int} {px : List Int} (hlen : (px.length : Int) = mw * mh)
    (f : Int → Int) {y : Int} (hy0 : 0 ≤ y) (hy : y < mh) (n : Nat) (hn : (n : Int) ≤ mw) :
    ∃ px', forRangeM (n : Int) (fun pixels x => sliceAdd pixels (x + y * mw) (f x)) px
        = some px' ∧ (px'.length : Int) = mw * mh ∧
      ∀ x' y', 0 ≤ x' → x' < mw → 0 ≤ y' → y' < mh →
        cell px' (x' + y' * mw)
          = cell px (x' + y' * mw) + if y' = y ∧ x' < (n : Int) then f x' else 0 := by
  induction n with
  | zero =>
    refine ⟨px, by simp [forRangeM_zero], hlen, fun x' y' h1 _ _ _ => ?_⟩
    rw [if_neg]; simp
    rintro ⟨-, h⟩; simp at h; omega
  | succ n ih =>
    have hn' : (n : Int) ≤ mw := by push_cast at hn; omega
    have hn2 : (n : Int) < mw := by push_cast at hn; omega
    obtain ⟨px1, h1, h2, h3⟩ := ih hn'
    have hoff := offset_lt (Int.natCast_nonneg n) hn2 hy0 hy
    have hidx : (n : Int) + y * mw = y * mw + n := by ring
    have hb0 : 0 ≤ (n : Int) + y * mw := by omega
    have hb1 : (n : Int) + y * mw < px1.length := by omega
    refine ⟨px1.set ((n : Int) + y * mw).toNat (cell px1 ((n : Int) + y * mw) + f n), ?_, ?_, ?_⟩
    · push_cast
      rw [forRangeM_natCast_succ, h1]
      simp [sliceAdd_eq hb0 hb1]
    · simpa using h2
    · intro x' y' hx0' hx' hy0' hy'
      have hoff' := offset_lt hx0' hx' hy0' hy'
      have hj : 0 ≤ x' + y' * mw := by
        have : x' + y' * mw = y' * mw + x' := by ring
        omega
      rw [cell_set hb0 hb1 _ hj]
      by_cases heq : x' + y' * mw = (n : Int) + y * mw
      · have h5 : y' * mw + x' = y * mw + (n : Int) := by linarith
        obtain ⟨rfl, rfl⟩ := offset_inj hx0' hx' (Int.natCast_nonneg n) hn2 h5
        rw [if_pos rfl, h3 _ _ hx0' hx' hy0' hy', if_neg (by simp), if_pos ⟨rfl, by push_cast; omega⟩]
        ring
      · rw [if_neg heq, h3 _ _ hx0' hx' hy0' hy']
        congr 1
        by_cases hc : y' = y ∧ x' < (n : Int)
        · rw [if_pos hc, if_pos ⟨hc.1, by push_cast; omega⟩]
        · rw [if_neg hc, if_neg]
          rintro ⟨rfl, h6⟩
          push_cast at h6
          have : x' = (n : Int) := by
            by_contra h7
            exact hc ⟨rfl, by omega⟩
          exact heq (by rw [this])


/-- The two inner loops of the accumulation: one image is added to the accumulator,
cell by cell, inside its own extent. -/
theorem addRows {mw mh : Int} {px : List Int} (hlen : (px.length : Int) = mw * mh)
    (f : Int → Int → Int) {W : Int} (hW : W ≤ mw) (hmw : 0 ≤ mw) (m : Nat)
    (hm : (m : Int) ≤ mh) :
    ∃ px', forRangeM (m : Int) (fun pixels y =>
        forRangeM W (fun pixels x => sliceAdd pixels (x + y * mw) (f x y)) pixels) px
        = some px' ∧ (px'.length : Int) = mw * mh ∧
      ∀ x' y', 0 ≤ x' → x' < mw → 0 ≤ y' → y' < mh →
        cell px' (x' + y' * mw)
          = cell px (x' + y' * mw) + if y' < (m : Int) ∧ x' < W then f x' y' else 0 := by
  induction m with
  | zero =>
    refine ⟨px, by simp [forRangeM_zero], hlen, fun x' y' _ _ h1 _ => ?_⟩
    rw [if_neg]; simp
    rintro ⟨h, -⟩; simp at h; omega
  | succ m ih =>
    have hm' : (m : Int) ≤ mh := by push_cast at hm; omega
    have hm2 : (m : Int) < mh := by push_cast at hm; omega
    obtain ⟨px1, h1, h2, h3⟩ := ih hm'
    have hWn : ((W.toNat : Nat) : Int) ≤ mw := by omega
    obtain ⟨px2, k1, k2, k3⟩ := addRow h2 (fun x => f x (m : Int)) (Int.natCast_nonneg m) hm2
      W.toNat hWn
    have hcast : forRangeM ((W.toNat : Nat) : Int) (fun pixels x =>
        sliceAdd pixels (x + (m : Int) * mw) (f x (m : Int))) px1
        = forRangeM W (fun pixels x =>
            sliceAdd pixels (x + (m : Int) * mw) (f x (m : Int))) px1 := by
      simp only [forRangeM, Int.toNat_ofNat]
    refine ⟨px2, ?_, k2, ?_⟩
    · push_cast
      rw [forRangeM_natCast_succ, h1]
      rw [hcast] at k1
      simpa using k1
    · intro x' y' hx0' hx' hy0' hy'
      rw [k3 _ _ hx0' hx' hy0' hy', h3 _ _ hx0' hx' hy0' hy', add_assoc]
      congr 1
      have hlt : x' < ((W.toNat : Nat) : Int) ↔ x' < W := by omega
      by_cases ha : y' < (m : Int) ∧ x' < W
      · have hb : ¬ (y' = (m : Int) ∧ x' < ((W.toNat : Nat) : Int)) := by
          rintro ⟨hb, -⟩; omega
        rw [if_pos ha, if_neg hb, if_pos ⟨by push_cast; omega, ha.2⟩, add_zero]
      · rw [if_neg ha, zero_add]
        by_cases hb : y' = (m : Int) ∧ x' < ((W.toNat : Nat) : Int)
        · rw [if_pos hb, if_pos ⟨by push_cast; omega, hlt.mp hb.2⟩, hb.1]
        · rw [if_neg hb, if_neg]
          rintro ⟨h6, h7⟩
          push_cast at h6
          by_cases h8 : y' = (m : Int)
          · exact hb ⟨h8, hlt.mpr h7⟩
          · exact ha ⟨by omega, h7⟩

theorem forRangeM_toNat {σ : Type} (n : Int) (body : σ → Int → Option σ) (s : σ) :
    forRangeM ((n.toNat : Nat) : Int) body s = forRangeM n body s := by
  simp only [forRangeM, Int.toNat_ofNat]

theorem forRange_toNat {σ : Type} (n : Int) (body : σ → Int → σ) (s : σ) :
    forRange ((n.toNat : Nat) : Int) body s = forRange n body s := by
  simp only [forRange, Int.toNat_ofNat]

/-- The accumulation loop: every slot receives the samples of the images covering it. -/
theorem sumPixels_fold (mw mh : Int) (hmw : 0 ≤ mw) (hmh : 0 ≤ mh) (l : List NoiseImage)
    (hl : ∀ g ∈ l, g.Width ≤ mw ∧ g.Height ≤ mh) (px : List Int)
    (hlen : (px.length : Int) = mw * mh) :
    ∃ px', l.foldlM (fun pixels noiseImage =>
        forRangeM noiseImage.Height (fun pixels y =>
          forRangeM noiseImage.Width (fun pixels x =>
            sliceAdd pixels (x + y * mw) (noiseImage.Image.GrayAt x y)) pixels) pixels) px
        = some px' ∧ (px'.length : Int) = mw * mh ∧
      ∀ x y, 0 ≤ x → x < mw → 0 ≤ y → y < mh →
        cell px' (x + y * mw) = cell px (x + y * mw) + coverSum l x y := by
  induction l generalizing px with
  | nil => exact ⟨px, rfl, hlen, fun x y _ _ _ _ => by simp [coverSum]⟩
  | cons g l ih =>
    have hg := hl g (List.mem_cons_self g l)
    have hHn : ((g.Height.toNat : Nat) : Int) ≤ mh := by omega
    obtain ⟨px1, h1, h2, h3⟩ := addRows hlen (fun x y => (g.Image.GrayAt x y : Int)) hg.1 hmw
      g.Height.toNat hHn
    rw [forRangeM_toNat] at h1
    obtain ⟨px2, k1, k2, k3⟩ := ih (fun g' hg' => hl g' (List.mem_cons_of_mem g hg')) px1 h2
    refine ⟨px2, ?_, k2, ?_⟩
    · rw [List.foldlM_cons, h1]
      exact k1
    · intro x y hx0 hx hy0 hy
      rw [k3 x y hx0 hx hy0 hy, h3 x y hx0 hx hy0 hy, add_assoc]
      congr 1
      have hlt : y < ((g.Height.toNat : Nat) : Int) ↔ y < g.Height := by omega
      simp only [coverSum, List.map_cons, List.sum_cons]
      congr 1
      by_cases hc : x < g.Width ∧ y < g.Height
      · rw [if_pos hc, if_pos ⟨hlt.mpr hc.2, hc.1⟩]
      · rw [if_neg hc, if_neg]
        rintro ⟨h6, h7⟩
        exact hc ⟨h7, hlt.mp h6⟩


/-! ## Dimensions and output of `NoiseImagesMiddle` -/

theorem maxDims_fold (l : List NoiseImage) (m : Int × Int) :
    l.foldl (fun m noiseImage =>
      (if noiseImage.Width > m.1 then noiseImage.Width else m.1,
       if noiseImage.Height > m.2 then noiseImage.Height else m.2)) m
      = (max m.1 ((l.map fun g => g.Width).foldr max m.1),
         max m.2 ((l.map fun g => g.Height).foldr max m.2)) := by
  induction l generalizing m with
  | nil => simp
  | cons g l ih =>
    rw [List.foldl_cons, ih]
    have key : ∀ (a b : Int) (xs : List Int),
        max (if b > a then b else a) (xs.foldr max (if b > a then b else a))
          = max a (max b (xs.foldr max a)) := by
      intro a b xs
      have hmax : (if b > a then b else a) = max a b := by split <;> omega
      rw [hmax]
      induction xs with
      | nil => simp only [List.foldr_nil]; omega
      | cons c xs ihx => simp only [List.foldr_cons]; omega
    simp only [List.map_cons, List.foldr_cons]
    rw [key, key]

theorem foldr_max_zero_nonneg (xs : List Int) : 0 ≤ xs.foldr max 0 := by
  induction xs with
  | nil => simp
  | cons c xs ih => simp only [List.foldr_cons]; omega

theorem le_foldr_max {xs : List Int} {a : Int} (h : a ∈ xs) : a ≤ xs.foldr max 0 := by
  induction xs with
  | nil => simp at h
  | cons c xs ih =>
    simp only [List.foldr_cons]
    rcases List.mem_cons.mp h with rfl | h
    · omega
    · have := ih h; omega

theorem maxDims_eq (l : List NoiseImage) : maxDims l = (maxWidthOf l, maxHeightOf l) := by
  unfold maxDims maxWidthOf maxHeightOf
  rw [maxDims_fold]
  have h1 := foldr_max_zero_nonneg (l.map fun g => g.Width)
  have h2 := foldr_max_zero_nonneg (l.map fun g => g.Height)
  simp only [max_eq_right h1, max_eq_right h2]

theorem maxWidthOf_nonneg (l : List NoiseImage) : 0 ≤ maxWidthOf l :=
  foldr_max_zero_nonneg _

theorem maxHeightOf_nonneg (l : List NoiseImage) : 0 ≤ maxHeightOf l :=
  foldr_max_zero_nonneg _

theorem width_le_maxWidthOf {l : List NoiseImage} {g : NoiseImage} (h : g ∈ l) :
    g.Width ≤ maxWidthOf l :=
  le_foldr_max (List.mem_map_of_mem (fun g => g.Width) h)

theorem height_le_maxHeightOf {l : List NoiseImage} {g : NoiseImage} (h : g ∈ l) :
    g.Height ≤ maxHeightOf l :=
  le_foldr_max (List.mem_map_of_mem (fun g => g.Height) h)

/-- A loop whose body cannot panic on the indices it visits runs to completion. -/
theorem forRangeM_eq_some {σ : Type} (n : Nat) (bodyM : σ → Int → Option σ)
    (body : σ → Int → σ)
    (hb : ∀ s i, 0 ≤ i → i < (n : Int) → bodyM s i = some (body s i)) (s : σ) :
    forRangeM (n : Int) bodyM s = some (forRange (n : Int) body s) := by
  induction n with
  | zero => simp [forRangeM_zero, forRange_zero]
  | succ n ih =>
    push_cast
    rw [forRangeM_natCast_succ, forRange_natCast_succ,
      ih (fun s i h0 h1 => hb s i h0 (by push_cast; omega))]
    simp only [Option.bind]
    exact hb _ _ (Int.natCast_nonneg n) (by push_cast; omega)

theorem forRangeM_eq_some_forRange {σ : Type} (n : Int) (bodyM : σ → Int → Option σ)
    (body : σ → Int → σ)
    (hb : ∀ s i, 0 ≤ i → i < n → bodyM s i = some (body s i)) (s : σ) :
    forRangeM n bodyM s = some (forRange n body s) := by
  rw [← forRangeM_toNat, ← forRange_toNat]
  exact forRangeM_eq_some n.toNat bodyM body (fun s i h0 h1 => hb s i h0 (by omega)) s

theorem cell_replicate (n : Nat) (i : Int) : cell (List.replicate n 0) i = 0 := by
  unfold cell
  rw [List.getD_eq_getElem?_getD, List.getElem?_replicate]
  split <;> rfl

/-- The accumulator computed by `sumPixels`. -/
theorem sumPixels_spec (l : List NoiseImage) :
    ∃ px, sumPixels l (maxWidthOf l) (maxHeightOf l) = some px ∧
      (px.length : Int) = maxWidthOf l * maxHeightOf l ∧
      ∀ x y, 0 ≤ x → x < maxWidthOf l → 0 ≤ y → y < maxHeightOf l →
        cell px (x + y * maxWidthOf l) = coverSum l x y := by
  have hmw := maxWidthOf_nonneg l
  have hmh := maxHeightOf_nonneg l
  have hlen : ((List.replicate (maxWidthOf l * maxHeightOf l).toNat (0 : Int)).length : Int)
      = maxWidthOf l * maxHeightOf l := by
    have := mul_nonneg hmw hmh
    simp only [List.length_replicate]; omega
  obtain ⟨px, h1, h2, h3⟩ := sumPixels_fold (maxWidthOf l) (maxHeightOf l) hmw hmh l
    (fun g hg => ⟨width_le_maxWidthOf hg, height_le_maxHeightOf hg⟩) _ hlen
  refine ⟨px, h1, h2, fun x y hx0 hx hy0 hy => ?_⟩
  rw [h3 x y hx0 hx hy0 hy, cell_replicate, zero_add]

/-- What `NoiseImagesMiddle` returns: it does not panic, the image spans the largest
width and the largest height, and every sample is the narrowed `math.Round` of the
floating-point quotient of the covering sum by the number of images. -/
theorem NoiseImagesMiddle_spec (fl : ℚ → ℚ) (l : List NoiseImage) :
    ∃ img, NoiseImagesMiddle fl l = some img ∧
      img.IsCanvas (maxWidthOf l) (maxHeightOf l) ∧
      ∀ x y, 0 ≤ x → x < maxWidthOf l → 0 ≤ y → y < maxHeightOf l →
        img.GrayAt x y
          = byteOfFloat (mathRound (fl (fl (coverSum l x y) / fl (l.length : Int)))) := by
  have hmw := maxWidthOf_nonneg l
  have hmh := maxHeightOf_nonneg l
  obtain ⟨px, h1, h2, h3⟩ := sumPixels_spec l
  let F : Int → Int → Nat := fun x y =>
    byteOfFloat (mathRound (fl (fl (cell px (x + y * maxWidthOf l)) / fl (l.length : Int))))
  have hfill := fill_rows (NewGray_isCanvas hmw hmh) F (maxHeightOf l).toNat
  rw [forRange_toNat] at hfill
  have hH : ((maxHeightOf l).toNat : Int) = maxHeightOf l := by omega
  rw [hH] at hfill
  refine ⟨_, ?_, hfill.1, fun x y hx0 hx hy0 hy => ?_⟩
  · simp only [NoiseImagesMiddle, maxDims_eq, h1, Option.bind]
    apply forRangeM_eq_some_forRange
    intro s y hy0 hy
    apply forRangeM_eq_some_forRange
    intro s x hx0 hx
    have hoff := offset_lt hx0 hx hy0 hy
    have e : x + y * maxWidthOf l = y * maxWidthOf l + x := by ring
    rw [sliceGet_eq (by omega) (by omega)]
    rfl
  · rw [hfill.2 x y, if_pos ⟨hy0, hy, hy, hx0, hx⟩]
    simp only [F]
    rw [h3 x y hx0 hx hy0 hy]


/-! ## Averaging: the value of each output sample -/

theorem coverSum_nonneg (l : List NoiseImage) (x y : Int) : 0 ≤ coverSum l x y := by
  unfold coverSum
  apply List.sum_nonneg
  intro v hv
  obtain ⟨g, -, rfl⟩ := List.mem_map.mp hv
  split <;> omega

theorem coverSum_le (l : List NoiseImage) (hl : ∀ g ∈ l, ∀ v ∈ g.Image.Pix, v < 256)
    (x y : Int) : coverSum l x y ≤ 255 * (l.length : Int) := by
  induction l with
  | nil => simp [coverSum]
  | cons g l ih =>
    have h1 := ih (fun g' hg' => hl g' (List.mem_cons_of_mem g hg'))
    have h2 := g.Image.grayAt_lt (hl g (List.mem_cons_self g l)) x y
    simp only [coverSum, List.map_cons, List.sum_cons, List.length_cons] at h1 ⊢
    push_cast
    split <;> omega

theorem mathRound_of_nonneg {q : ℚ} (h : 0 ≤ q) : mathRound q = (roundNearest q : ℚ) := by
  simp [mathRound, roundNearest, h]

theorem byteOfFloat_intCast {k : Int} (h0 : 0 ≤ k) (h1 : k < 256) :
    (byteOfFloat (k : ℚ) : Int) = k := by
  rw [byteOfFloat_eq_floor (by exact_mod_cast h0) (by exact_mod_cast h1)]
  simp

/-- The `float64` quotient of a sum of samples by the number of images rounds, under
`math.Round`, to the same integer as the exact quotient. -/
theorem mathRound_float64_div {S n : Int} (hS0 : 0 ≤ S) (hS : S ≤ 255 * n) (hn0 : 1 ≤ n)
    (hn : n ≤ 2 ^ 44) :
    mathRound (float64 (float64 (S : ℚ) / float64 (n : ℚ)))
      = (roundNearest ((S : ℚ) / (n : ℚ)) : ℚ) := by
  have hS' : |S| < 2 ^ 53 := by rw [abs_of_nonneg hS0]; omega
  have hn' : |n| < 2 ^ 53 := by rw [abs_of_nonneg (by omega)]; omega
  rw [float64_intCast hS', float64_intCast hn']
  have hnq : (0 : ℚ) < n := by exact_mod_cast (by omega : 0 < n)
  have hq0 : (0 : ℚ) ≤ (S : ℚ) / n := div_nonneg (by exact_mod_cast hS0) hnq.le
  have hq1 : (S : ℚ) / n ≤ 255 := by
    rw [div_le_iff₀ hnq]; exact_mod_cast hS
  set q := (S : ℚ) / n with hq
  have hf0 : 0 ≤ float64 q :=
    le_roundFloat (by norm_num) (isFloat_intCast (z := 0) (by norm_num) (by norm_num))
      (by exact_mod_cast hq0)
  rw [mathRound_of_nonneg hf0]
  congr 1
  set k := roundNearest q with hk
  have hk1 : (k : ℚ) ≤ q + 1 / 2 := Int.floor_le _
  have hk2 : q + 1 / 2 < k + 1 := Int.lt_floor_add_one _
  have hk0 : 0 ≤ k := Int.floor_nonneg.mpr (by linarith)
  have hk255 : k ≤ 255 := by
    have : k < 256 := Int.floor_lt.mpr (by push_cast; linarith)
    omega
  unfold roundNearest
  rw [Int.floor_eq_iff]
  constructor
  · -- the float `k - 1/2` lies below `q`
    have hr : IsFloat 53 (-1022) (((2 * k - 1 : Int) : ℚ) / 2) :=
      isFloat_half (by norm_num) (by rw [abs_lt]; constructor <;> omega)
    have h1 : ((2 * k - 1 : Int) : ℚ) / 2 ≤ q := by push_cast; linarith
    have h2 := le_roundFloat (by norm_num) hr h1
    have h3 : ((2 * k - 1 : Int) : ℚ) / 2 ≤ float64 q := h2
    push_cast at h3
    linarith
  · -- the float `k + 1/2 - 2^-45` lies above `q`
    have hr : IsFloat 53 (-1022) ((((2 * k + 1) * 2 ^ 44 - 1 : Int) : ℚ) * (2 : ℚ) ^ (-45 : Int)) :=
      ⟨(2 * k + 1) * 2 ^ 44 - 1, -45, by rw [abs_lt]; constructor <;> omega, by norm_num, rfl⟩
    have hint : 2 * S + n + 1 ≤ (2 * k + 2) * n := by
      have h4 : (S : ℚ) < ((k : ℚ) + 1 / 2) * n := by
        have : q < k + 1 / 2 := by linarith
        rwa [hq, div_lt_iff₀ hnq] at this
      have h5 : ((2 * S + n : Int) : ℚ) < (((2 * k + 2) * n : Int) : ℚ) := by
        push_cast; linarith
      have h6 : 2 * S + n < (2 * k + 2) * n := by exact_mod_cast h5
      omega
    have hnle : (n : ℚ) ≤ 2 ^ 44 := by exact_mod_cast hn
    have h1 : q ≤ (((2 * k + 1) * 2 ^ 44 - 1 : Int) : ℚ) * (2 : ℚ) ^ (-45 : Int) := by
      rw [hq, div_le_iff₀ hnq]
      have h7 : ((2 * S + n + 1 : Int) : ℚ) ≤ (((2 * k + 2) * n : Int) : ℚ) := by
        exact_mod_cast hint
      push_cast at h7 ⊢
      have h8 : (2 : ℚ) ^ (-45 : Int) = 1 / 2 ^ 45 := by norm_num
      rw [h8]
      have h9 : (0 : ℚ) ≤ k := by exact_mod_cast hk0
      nlinarith
    have h2 : float64 q ≤ _ := roundFloat_le (by norm_num) hr h1
    have h8 : (2 : ℚ) ^ (-45 : Int) = 1 / 2 ^ 45 := by norm_num
    rw [h8] at h2
    push_cast at h2
    linarith


/-- Two full `W × H` images with the same sample at every coordinate are equal. -/
theorem Gray.IsCanvas.ext {p q : Gray} {W H : Int} (hp : p.IsCanvas W H) (hq : q.IsCanvas W H)
    (h : ∀ x y, 0 ≤ x → x < W → 0 ≤ y → y < H → p.GrayAt x y = q.GrayAt x y) : p = q := by
  have hpix : p.Pix = q.Pix := by
    apply List.ext_getElem
    · have h1 := hp.2.2.2.2
      have h2 := hq.2.2.2.2
      omega
    · intro i hi1 hi2
      have hlen := hp.2.2.2.2
      have hW0 := hp.1
      have hH0 := hp.2.1
      have hWpos : 0 < W := by
        rcases eq_or_lt_of_le hW0 with h0 | h0
        · have : (p.Pix.length : Int) = 0 := by rw [hlen, ← h0]; ring
          omega
        · exact h0
      have hx0 : 0 ≤ (i : Int) % W := Int.emod_nonneg _ hWpos.ne'
      have hx1 : (i : Int) % W < W := Int.emod_lt_of_pos _ hWpos
      have hy0 : 0 ≤ (i : Int) / W := Int.ediv_nonneg (Int.natCast_nonneg i) hW0
      have hsplit : (i : Int) / W * W + (i : Int) % W = i := by
        rw [mul_comm]; exact Int.ediv_add_emod _ _
      have hy1 : (i : Int) / W < H := by
        by_contra hge
        have h3 : H * W ≤ (i : Int) / W * W :=
          mul_le_mul_of_nonneg_right (not_lt.mp hge) hW0
        have h4 : (i : Int) < W * H := by omega
        nlinarith
      have := h ((i : Int) % W) ((i : Int) / W) hx0 hx1 hy0 hy1
      simp only [Gray.GrayAt, if_pos ((hp.contains_iff _ _).mpr ⟨hx0, hx1, hy0, hy1⟩),
        if_pos ((hq.contains_iff _ _).mpr ⟨hx0, hx1, hy0, hy1⟩), hp.pixOffset, hq.pixOffset,
        hsplit, Int.toNat_ofNat, List.getD_eq_getElem?_getD, List.getElem?_eq_getElem hi1,
        List.getElem?_eq_getElem hi2, Option.getD_some] at this
      exact this
  obtain ⟨-, -, hR, hS, -⟩ := hp
  obtain ⟨-, -, hR', hS', -⟩ := hq
  cases p; cases q
  simp only at hpix hR hS hR' hS'
  subst hpix
  rw [hR, hS, hR', hS']

theorem foldr_max_le_iff (xs : List Int) (b : Int) :
    xs.foldr max 0 ≤ b ↔ 0 ≤ b ∧ ∀ a ∈ xs, a ≤ b := by
  induction xs with
  | nil => simp
  | cons c xs ih =>
    simp only [List.foldr_cons, max_le_iff, ih, List.mem_cons, forall_eq_or_imp]
    tauto

theorem foldr_max_attained (xs : List Int) (h : 0 < xs.foldr max 0) :
    ∃ a ∈ xs, a = xs.foldr max 0 := by
  induction xs with
  | nil => simp at h
  | cons c xs ih =>
    simp only [List.foldr_cons] at h ⊢
    by_cases hc : xs.foldr max 0 ≤ c
    · exact ⟨c, List.mem_cons_self c xs, by omega⟩
    · obtain ⟨a, ha, ha'⟩ := ih (by omega)
      exact ⟨a, List.mem_cons_of_mem c ha, by omega⟩

theorem foldr_max_perm {xs ys : List Int} (h : xs.Perm ys) :
    xs.foldr max 0 = ys.foldr max 0 := by
  apply le_antisymm
  · rw [foldr_max_le_iff]
    exact ⟨foldr_max_zero_nonneg ys, fun a ha => le_foldr_max (h.mem_iff.mp ha)⟩
  · rw [foldr_max_le_iff]
    exact ⟨foldr_max_zero_nonneg xs, fun a ha => le_foldr_max (h.mem_iff.mpr ha)⟩

theorem maxWidthOf_perm {l1 l2 : List NoiseImage} (h : l1.Perm l2) :
    maxWidthOf l1 = maxWidthOf l2 :=
  foldr_max_perm (h.map _)

theorem maxHeightOf_perm {l1 l2 : List NoiseImage} (h : l1.Perm l2) :
    maxHeightOf l1 = maxHeightOf l2 :=
  foldr_max_perm (h.map _)

theorem coverSum_perm {l1 l2 : List NoiseImage} (h : l1.Perm l2) (x y : Int) :
    coverSum l1 x y = coverSum l2 x y :=
  (h.map _).sum_eq

/-- C8. For every list of grids the image returned by `NoiseImagesMiddle` spans
`image.Rect(0, 0, maxWidth, maxHeight)`: its width is the largest `Width` in the list
and its height the largest `Height` (each maximum taken on its own; zero for the empty
list). -/
theorem NoiseImagesMiddle_dims (l : List NoiseImage) :
    ∃ img, NoiseImagesMiddle float64 l = some img ∧
      img.Rect = imageRect 0 0 (maxWidthOf l) (maxHeightOf l) ∧
      img.Rect.Dx = maxWidthOf l ∧ img.Rect.Dy = maxHeightOf l ∧
      (∀ g ∈ l, g.Width ≤ img.Rect.Dx ∧ g.Height ≤ img.Rect.Dy) ∧
      (0 < img.Rect.Dx → ∃ g ∈ l, g.Width = img.Rect.Dx) ∧
      (0 < img.Rect.Dy → ∃ g ∈ l, g.Height = img.Rect.Dy) := by
  obtain ⟨img, h1, h2, -⟩ := NoiseImagesMiddle_spec float64 l
  have hR := h2.2.2.1
  have hx : img.Rect.Dx = maxWidthOf l := by
    rw [hR, imageRect_zero_nonneg h2.1 h2.2.1]; simp [Rectangle.Dx]
  have hy : img.Rect.Dy = maxHeightOf l := by
    rw [hR, imageRect_zero_nonneg h2.1 h2.2.1]; simp [Rectangle.Dy]
  refine ⟨img, h1, hR, hx, hy, fun g hg => ?_, fun h => ?_, fun h => ?_⟩
  · rw [hx, hy]; exact ⟨width_le_maxWidthOf hg, height_le_maxHeightOf hg⟩
  · rw [hx] at h ⊢
    obtain ⟨a, ha, ha'⟩ := foldr_max_attained _ h
    obtain ⟨g, hg, rfl⟩ := List.mem_map.mp ha
    exact ⟨g, hg, ha'⟩
  · rw [hy] at h ⊢
    obtain ⟨a, ha, ha'⟩ := foldr_max_attained _ h
    obtain ⟨g, hg, rfl⟩ := List.mem_map.mp ha
    exact ⟨g, hg, ha'⟩


/-- With `float64` arithmetic, every sample of the image `NoiseImagesMiddle` returns is
the round-to-nearest (ties up) of the covering sum divided by the number of images. -/
theorem NoiseImagesMiddle_float64 (l : List NoiseImage) (hne : l ≠ [])
    (hlen : l.length ≤ 2 ^ 44) (hpix : ∀ g ∈ l, ∀ v ∈ g.Image.Pix, v < 256) :
    ∃ img, NoiseImagesMiddle float64 l = some img ∧
      img.IsCanvas (maxWidthOf l) (maxHeightOf l) ∧
      ∀ x y, 0 ≤ x → x < maxWidthOf l → 0 ≤ y → y < maxHeightOf l →
        (img.GrayAt x y : Int)
          = roundNearest ((coverSum l x y : ℚ) / (l.length : ℚ)) := by
  obtain ⟨img, h1, h2, h3⟩ := NoiseImagesMiddle_spec float64 l
  refine ⟨img, h1, h2, fun x y hx0 hx hy0 hy => ?_⟩
  have hn0 : 1 ≤ (l.length : Int) := by
    have := List.length_pos.mpr hne
    omega
  have hn : (l.length : Int) ≤ 2 ^ 44 := by exact_mod_cast hlen
  have hS0 := coverSum_nonneg l x y
  have hS := coverSum_le l hpix x y
  rw [h3 x y hx0 hx hy0 hy, mathRound_float64_div hS0 hS hn0 hn]
  have hq0 : (0 : ℚ) ≤ (coverSum l x y : ℚ) / ((l.length : Int) : ℚ) :=
    div_nonneg (by exact_mod_cast hS0) (by exact_mod_cast (by omega : (0 : Int) ≤ l.length))
  have hq1 : (coverSum l x y : ℚ) / ((l.length : Int) : ℚ) ≤ 255 := by
    rw [div_le_iff₀ (by exact_mod_cast (by omega : (0 : Int) < l.length))]
    exact_mod_cast hS
  have hk0 : 0 ≤ roundNearest ((coverSum l x y : ℚ) / ((l.length : Int) : ℚ)) :=
    Int.floor_nonneg.mpr (by linarith)
  have hk1 : roundNearest ((coverSum l x y : ℚ) / ((l.length : Int) : ℚ)) < 256 :=
    Int.floor_lt.mpr (by push_cast at hq1 ⊢; linarith)
  rw [byteOfFloat_intCast hk0 hk1]
  norm_cast

theorem gridOf_pix_lt {ws hs : Int} {pix : List Nat} (h : ∀ v ∈ pix, v < 256) :
    ∀ v ∈ (gridOf ws hs pix).Image.Pix, v < 256 := h

theorem constGrid_isGrid {ws hs : Int} {V : Nat} (hws : 0 ≤ ws) (hhs : 0 ≤ hs) (hV : V < 256) :
    (constGrid ws hs V).IsGrid ws hs := by
  refine ⟨rfl, rfl, rfl, rfl, ?_, ?_⟩
  · have := mul_nonneg hws hhs
    simp only [constGrid, gridOf, List.length_replicate]
    omega
  · intro v hv
    rw [List.eq_of_mem_replicate hv]
    exact hV

theorem NoiseImage.IsGrid.isCanvas {g : NoiseImage} {ws hs : Int} (hg : g.IsGrid ws hs)
    (hws : 0 ≤ ws) (hhs : 0 ≤ hs) : g.Image.IsCanvas ws hs :=
  ⟨hws, hhs, hg.2.2.1, hg.2.2.2.1, hg.2.2.2.2.1⟩

theorem grayAt_constGrid {ws hs : Int} {V : Nat} {x y : Int} (hx0 : 0 ≤ x) (hx : x < ws)
    (hy0 : 0 ≤ y) (hy : y < hs) : (constGrid ws hs V).Image.GrayAt x y = V := by
  have hc : (constGrid ws hs V).Image.IsCanvas ws hs := by
    refine ⟨by omega, by omega, rfl, rfl, ?_⟩
    have := mul_nonneg (by omega : 0 ≤ ws) (by omega : 0 ≤ hs)
    simp only [constGrid, gridOf, List.length_replicate]
    omega
  have hoff := offset_lt hx0 hx hy0 hy
  have hlt : (y * ws + x).toNat < (ws * hs).toNat := by omega
  simp only [Gray.GrayAt, if_pos ((hc.contains_iff x y).mpr ⟨hx0, hx, hy0, hy⟩), hc.pixOffset]
  simp [constGrid, gridOf, List.getD_eq_getElem?_getD, List.getElem?_replicate, hlt]


/-- C10. For every list of grids, of possibly different sizes, and every permutation
of it, `NoiseImagesMiddle` returns the same image: same rectangle, same buffer. -/
theorem NoiseImagesMiddle_perm (l1 l2 : List NoiseImage) (h : l1.Perm l2) :
    NoiseImagesMiddle float64 l1 = NoiseImagesMiddle float64 l2 ∧
      ∃ img, NoiseImagesMiddle float64 l1 = some img := by
  obtain ⟨img1, a1, a2, a3⟩ := NoiseImagesMiddle_spec float64 l1
  obtain ⟨img2, b1, b2, b3⟩ := NoiseImagesMiddle_spec float64 l2
  refine ⟨?_, img1, a1⟩
  rw [a1, b1]
  congr 1
  rw [← maxWidthOf_perm h, ← maxHeightOf_perm h] at b2 b3
  apply Gray.IsCanvas.ext a2 b2
  intro x y hx0 hx hy0 hy
  rw [a3 x y hx0 hx hy0 hy, b3 x y hx0 hx hy0 hy, coverSum_perm h, h.length_eq]

theorem NoiseImagesMiddle_perm_witness :
    [gridOf 1 1 [7], gridOf 2 1 [3, 4]].Perm [gridOf 2 1 [3, 4], gridOf 1 1 [7]] ∧
    (NoiseImagesMiddle float64 [gridOf 1 1 [7], gridOf 2 1 [3, 4]]
        = NoiseImagesMiddle float64 [gridOf 2 1 [3, 4], gridOf 1 1 [7]] ∧
      ∃ img, NoiseImagesMiddle float64 [gridOf 1 1 [7], gridOf 2 1 [3, 4]] = some img) :=
  ⟨List.Perm.swap _ _ _, NoiseImagesMiddle_perm _ _ (List.Perm.swap _ _ _)⟩

/-- C2. For every non-empty list of grids with samples in `[0, 255]` (of at most
`2^44` grids, a slice of 128 TiB of pointers) and every coordinate `(x, y)` inside the
output, the sample `NoiseImagesMiddle` returns at `(x, y)` is the round-to-nearest,
ties rounded up, of `S / n`: `n` is the number of grids in the list and `S` the sum of
the samples at `(x, y)` of exactly the grids with `Width > x` and `Height > y`; the
other grids add nothing to `S` and still count in `n`.  Two `2 × 2` grids of all 100
and all 200 give 150. -/
theorem NoiseImagesMiddle_sample (l : List NoiseImage) (x y : Int) (hne : l ≠ [])
    (hlen : l.length ≤ 2 ^ 44) (hpix : ∀ g ∈ l, ∀ v ∈ g.Image.Pix, v < 256)
    (hx0 : 0 ≤ x) (hx : x < maxWidthOf l) (hy0 : 0 ≤ y) (hy : y < maxHeightOf l) :
    ∃ img, NoiseImagesMiddle float64 l = some img ∧
      (img.GrayAt x y : Int) = roundNearest ((coverSum l x y : ℚ) / (l.length : ℚ)) := by
  obtain ⟨img, h1, -, h3⟩ := NoiseImagesMiddle_float64 l hne hlen hpix
  exact ⟨img, h1, h3 x y hx0 hx hy0 hy⟩

theorem NoiseImagesMiddle_sample_witness :
    ([constGrid 2 2 100, constGrid 2 2 200] ≠ [] ∧
      [constGrid 2 2 100, constGrid 2 2 200].length ≤ 2 ^ 44 ∧
      (∀ g ∈ [constGrid 2 2 100, constGrid 2 2 200], ∀ v ∈ g.Image.Pix, v < 256) ∧
      (1 : Int) < maxWidthOf [constGrid 2 2 100, constGrid 2 2 200] ∧
      (1 : Int) < maxHeightOf [constGrid 2 2 100, constGrid 2 2 200]) ∧
    ∃ img, NoiseImagesMiddle float64 [constGrid 2 2 100, constGrid 2 2 200] = some img ∧
      (img.GrayAt 1 1 : Int)
        = roundNearest ((coverSum [constGrid 2 2 100, constGrid 2 2 200] 1 1 : ℚ)
            / ([constGrid 2 2 100, constGrid 2 2 200].length : ℚ)) :=
  ⟨⟨by decide, by norm_num, by decide, by decide, by decide⟩,
    NoiseImagesMiddle_sample [constGrid 2 2 100, constGrid 2 2 200] 1 1 (by decide)
      (by norm_num) (by decide) (by decide) (by decide) (by decide) (by decide)⟩


theorem roundNearest_half (S : Int) : roundNearest ((S : ℚ) / 2) = (S + 1) / 2 := by
  unfold roundNearest
  rw [Int.floor_eq_iff]
  have h := Int.ediv_add_emod (S + 1) 2
  have h0 := Int.emod_nonneg (S + 1) (by norm_num : (2 : Int) ≠ 0)
  have h1 := Int.emod_lt_of_pos (S + 1) (by norm_num : (0 : Int) < 2)
  have e : (S : ℚ) = 2 * (((S + 1) / 2 : Int) : ℚ) + (((S + 1) % 2 : Int) : ℚ) - 1 := by
    have : ((2 * ((S + 1) / 2) + (S + 1) % 2 : Int) : ℚ) = ((S + 1 : Int) : ℚ) := by
      rw [h]
    push_cast at this
    linarith
  have h0' : (0 : ℚ) ≤ (((S + 1) % 2 : Int) : ℚ) := by exact_mod_cast h0
  have h1' : (((S + 1) % 2 : Int) : ℚ) ≤ 1 := by exact_mod_cast (by omega : (S + 1) % 2 ≤ 1)
  constructor <;> linarith

theorem coverSum_pair_const (A B : Nat) (wA hA wB hB x y : Int) (hx0 : 0 ≤ x) (hy0 : 0 ≤ y)
    (hxB : x < wB) (hyB : y < hB) :
    coverSum [constGrid wA hA A, constGrid wB hB B] x y
      = (if x < wA ∧ y < hA then (A : Int) else 0) + B := by
  have hw : ∀ (w h : Int) (V : Nat), (constGrid w h V).Width = w := fun _ _ _ => rfl
  have hh : ∀ (w h : Int) (V : Nat), (constGrid w h V).Height = h := fun _ _ _ => rfl
  simp only [coverSum, List.map_cons, List.map_nil, List.sum_cons, List.sum_nil, hw, hh,
    if_pos (And.intro hxB hyB), grayAt_constGrid hx0 hxB hy0 hyB, add_zero]
  congr 1
  split
  · rename_i h
    rw [grayAt_constGrid hx0 h.1 hy0 h.2]
  · rfl

theorem maxWidthOf_pair (g1 g2 : NoiseImage) :
    maxWidthOf [g1, g2] = max g1.Width (max g2.Width 0) := rfl

theorem maxHeightOf_pair (g1 g2 : NoiseImage) :
    maxHeightOf [g1, g2] = max g1.Height (max g2.Height 0) := rfl

theorem pair_pix_lt {A B : Nat} (hA : A ≤ 255) (hB : B ≤ 255) (wA hA' wB hB' : Int) :
    ∀ g ∈ [constGrid wA hA' A, constGrid wB hB' B], ∀ v ∈ g.Image.Pix, v < 256 := by
  intro g hg v hv
  simp only [List.mem_cons, List.mem_singleton, List.not_mem_nil, or_false] at hg
  rcases hg with rfl | rfl
  · rw [List.eq_of_mem_replicate hv]; omega
  · rw [List.eq_of_mem_replicate hv]; omega

/-- C6. For a `2 × 2` grid of all-`A` samples and a `4 × 4` grid of all-`B` samples
(`A, B` in `[0, 255]`), `NoiseImagesMiddle` returns a `4 × 4` image whose samples with
`x < 2` and `y < 2` are `round((A+B)/2)` and whose other samples are `round((0+B)/2)`:
the divisor stays 2 where only the second grid covers the pixel. -/
theorem NoiseImagesMiddle_two_sizes (A B : Nat) (hA : A ≤ 255) (hB : B ≤ 255) :
    ∃ img, NoiseImagesMiddle float64 [constGrid 2 2 A, constGrid 4 4 B] = some img ∧
      img.Rect = imageRect 0 0 4 4 ∧ img.Pix.length = 16 ∧
      ∀ x y, 0 ≤ x → x < 4 → 0 ≤ y → y < 4 →
        (img.GrayAt x y : Int)
          = if x < 2 ∧ y < 2 then roundNearest (((A : ℚ) + B) / 2)
            else roundNearest (((0 : ℚ) + B) / 2) := by
  obtain ⟨img, h1, h2, h3⟩ := NoiseImagesMiddle_float64 [constGrid 2 2 A, constGrid 4 4 B]
    (by simp) (by norm_num) (pair_pix_lt hA hB 2 2 4 4)
  have hmw : maxWidthOf [constGrid 2 2 A, constGrid 4 4 B] = 4 := by
    rw [maxWidthOf_pair]; rfl
  have hmh : maxHeightOf [constGrid 2 2 A, constGrid 4 4 B] = 4 := by
    rw [maxHeightOf_pair]; rfl
  rw [hmw, hmh] at h2 h3
  refine ⟨img, h1, h2.2.2.1, ?_, fun x y hx0 hx hy0 hy => ?_⟩
  · have := h2.2.2.2.2
    omega
  · rw [h3 x y hx0 hx hy0 hy, coverSum_pair_const A B 2 2 4 4 x y hx0 hy0 hx hy]
    split
    · push_cast; norm_num
    · push_cast; norm_num

theorem NoiseImagesMiddle_two_sizes_witness :
    ((100 : Nat) ≤ 255 ∧ (200 : Nat) ≤ 255) ∧
    ∃ img, NoiseImagesMiddle float64 [constGrid 2 2 100, constGrid 4 4 200] = some img ∧
      img.Rect = imageRect 0 0 4 4 ∧ img.Pix.length = 16 ∧
      ∀ x y, 0 ≤ x → x < 4 → 0 ≤ y → y < 4 →
        (img.GrayAt x y : Int)
          = if x < 2 ∧ y < 2 then roundNearest ((((100 : Nat) : ℚ) + (200 : Nat)) / 2)
            else roundNearest (((0 : ℚ) + (200 : Nat)) / 2) :=
  ⟨⟨by decide, by decide⟩, NoiseImagesMiddle_two_sizes 100 200 (by decide) (by decide)⟩


theorem roundNearest_intCast (S : Int) : roundNearest (S : ℚ) = S := by
  unfold roundNearest
  rw [Int.floor_eq_iff]
  constructor <;> linarith

/-- C9. For every grid `g` with width and height at least 1 and samples in `[0, 255]`,
`NoiseImagesMiddle([g])` returns an image with the dimensions of `g` and the sample of
`g` at every coordinate: it is the image of `g` itself. -/
theorem NoiseImagesMiddle_single (g : NoiseImage) (w h : Int) (hg : g.IsGrid w h)
    (hw : 1 ≤ w) (hh : 1 ≤ h) :
    ∃ img, NoiseImagesMiddle float64 [g] = some img ∧
      img.Rect.Dx = g.Width ∧ img.Rect.Dy = g.Height ∧
      (∀ x y, img.GrayAt x y = g.Image.GrayAt x y) ∧ img = g.Image := by
  obtain ⟨img, h1, h2, h3⟩ := NoiseImagesMiddle_float64 [g] (by simp) (by norm_num)
    (by
      intro g' hg' v hv
      rw [List.mem_singleton] at hg'
      subst hg'
      exact hg.2.2.2.2.2 v hv)
  have hmw : maxWidthOf [g] = w := by
    have : maxWidthOf [g] = max g.Width 0 := rfl
    rw [this, hg.1]; omega
  have hmh : maxHeightOf [g] = h := by
    have : maxHeightOf [g] = max g.Height 0 := rfl
    rw [this, hg.2.1]; omega
  rw [hmw, hmh] at h2 h3
  have hc := hg.isCanvas (by omega : 0 ≤ w) (by omega : 0 ≤ h)
  have heq : img = g.Image := by
    apply Gray.IsCanvas.ext h2 hc
    intro x y hx0 hx hy0 hy
    have h4 := h3 x y hx0 hx hy0 hy
    have h5 : coverSum [g] x y = (g.Image.GrayAt x y : Int) := by
      simp only [coverSum, List.map_cons, List.map_nil, List.sum_cons, List.sum_nil, hg.1,
        hg.2.1, if_pos (And.intro hx hy), add_zero]
    rw [h5] at h4
    simp only [List.length_singleton, Nat.cast_one, div_one] at h4
    have h6 : roundNearest (((g.Image.GrayAt x y : Nat) : Int) : ℚ)
        = ((g.Image.GrayAt x y : Nat) : Int) := roundNearest_intCast _
    rw [h6] at h4
    exact_mod_cast h4
  subst heq
  refine ⟨g.Image, h1, ?_, ?_, fun _ _ => rfl, rfl⟩
  · rw [hc.2.2.1, imageRect_zero_nonneg hc.1 hc.2.1, hg.1]; simp [Rectangle.Dx]
  · rw [hc.2.2.1, imageRect_zero_nonneg hc.1 hc.2.1, hg.2.1]; simp [Rectangle.Dy]

theorem NoiseImagesMiddle_single_witness :
    ((gridOf 2 2 [10, 20, 30, 40]).IsGrid 2 2 ∧ (1 : Int) ≤ 2) ∧
    ∃ img, NoiseImagesMiddle float64 [gridOf 2 2 [10, 20, 30, 40]] = some img ∧
      img.Rect.Dx = (gridOf 2 2 [10, 20, 30, 40]).Width ∧
      img.Rect.Dy = (gridOf 2 2 [10, 20, 30, 40]).Height ∧
      (∀ x y, img.GrayAt x y = (gridOf 2 2 [10, 20, 30, 40]).Image.GrayAt x y) ∧
      img = (gridOf 2 2 [10, 20, 30, 40]).Image :=
  ⟨⟨by decide, by decide⟩,
    NoiseImagesMiddle_single (gridOf 2 2 [10, 20, 30, 40]) 2 2 (by decide) (by decide)
      (by decide)⟩


/-! ## Resampling in exact arithmetic: indices, constants, identity -/

/-- In exact arithmetic the four reads of `Resize` stay inside the source:
`0 ≤ x0 ≤ x1 ≤ ws - 1` (and likewise in `y`). -/
theorem Resize_exact_indices {ws w x : Int} (hws : 1 ≤ ws) (hw : 1 ≤ w) (hx : x < w) :
    0 ≤ lowIndex id ws w x ∧ lowIndex id ws w x ≤ highIndex id ws w x ∧
      highIndex id ws w x ≤ ws - 1 := by
  have h0 := lowIndex_id_nonneg ws w x
  have h1 := lowIndex_id_le hws hw hx
  rw [highIndex_id hws hw hx]
  refine ⟨h0, ?_, ?_⟩ <;> omega

theorem byteOfFloat_natCast {n : Nat} (h : n < 256) : byteOfFloat (n : ℚ) = n := by
  have := byteOfFloat_intCast (k := (n : Int)) (by omega) (by omega)
  have e : ((n : Int) : ℚ) = (n : ℚ) := by norm_cast
  rw [e] at this
  exact_mod_cast this

/-- In exact arithmetic `Resize` keeps a constant grid constant. -/
theorem Resize_exact_const {ws hs w h x y : Int} {V : Nat} (hV : V ≤ 255) (hws : 1 ≤ ws)
    (hhs : 1 ≤ hs) (hw : 1 ≤ w) (hh : 1 ≤ h) (hx0 : 0 ≤ x) (hx : x < w) (hy0 : 0 ≤ y)
    (hy : y < h) : (Resize id (constGrid ws hs V) w h).Image.GrayAt x y = V := by
  rw [Resize_grayAt id _ (by omega) (by omega) hx0 hx hy0 hy]
  obtain ⟨a0, a1, a2⟩ := Resize_exact_indices hws hw hx
  obtain ⟨b0, b1, b2⟩ := Resize_exact_indices hhs hh hy
  have hW : (constGrid ws hs V).Width = ws := rfl
  have hH : (constGrid ws hs V).Height = hs := rfl
  have g : ∀ a b, 0 ≤ a → a ≤ ws - 1 → 0 ≤ b → b ≤ hs - 1 →
      (constGrid ws hs V).Image.GrayAt a b = V :=
    fun a b ha0 ha hb0 hb => grayAt_constGrid ha0 (by omega) hb0 (by omega)
  simp only [resizePixel, hW, hH, id,
    g _ _ a0 (by omega) b0 (by omega), g _ _ (by omega) a2 b0 (by omega),
    g _ _ a0 (by omega) (by omega) b2, g _ _ (by omega) a2 (by omega) b2]
  have e : ∀ s t : ℚ, (1 - t) * ((1 - s) * (V : ℚ) + s * V) + t * ((1 - s) * V + s * V)
      = V := fun s t => by ring
  rw [e]
  exact byteOfFloat_natCast (by omega)

theorem sourceCoord_id_self {w x : Int} (hw : 1 ≤ w) (hx0 : 0 ≤ x) :
    sourceCoord id w w x = x := by
  rw [sourceCoord_id]
  have hw' : (w : ℚ) ≠ 0 := by exact_mod_cast (by omega : w ≠ 0)
  have hx' : (0 : ℚ) ≤ x := by exact_mod_cast hx0
  rw [mul_div_assoc, div_self hw', mul_one, max_eq_right (by linarith)]
  ring

/-- In exact arithmetic `Resize` to the grid's own size returns every sample. -/
theorem Resize_exact_identity {g : NoiseImage} {w h x y : Int} (hg : g.IsGrid w h)
    (hw : 1 ≤ w) (hh : 1 ≤ h) (hx0 : 0 ≤ x) (hx : x < w) (hy0 : 0 ≤ y) (hy : y < h) :
    (Resize id g w h).Image.GrayAt x y = g.Image.GrayAt x y := by
  rw [Resize_grayAt id _ (by omega) (by omega) hx0 hx hy0 hy]
  have hlx : lowIndex id w w x = x := by
    rw [lowIndex_id, sourceCoord_id_self hw hx0]; simp
  have hly : lowIndex id h h y = y := by
    rw [lowIndex_id, sourceCoord_id_self hh hy0]; simp
  simp only [resizePixel, hg.1, hg.2.1, id, hlx, hly, sourceCoord_id_self hw hx0,
    sourceCoord_id_self hh hy0, sub_self, sub_zero, one_mul, zero_mul, add_zero]
  exact byteOfFloat_natCast (g.Image.grayAt_lt hg.2.2.2.2.2 x y)

/-! ## `float32` identity resize below `2^23` -/

theorem float32_natCast {n : Nat} (h : n < 2 ^ 24) : float32 (n : ℚ) = n := by
  have := float32_intCast (z := (n : Int)) (by rw [abs_of_nonneg (by omega)]; omega)
  exact_mod_cast this

theorem sourceCoord_float32_self {w x : Int} (hw : 1 ≤ w) (hw' : w ≤ 2 ^ 23) (hx0 : 0 ≤ x)
    (hx : x < w) : sourceCoord float32 w w x = x := by
  have hwf : float32 (w : ℚ) = w :=
    float32_intCast (by rw [abs_of_nonneg (by omega)]; omega)
  have hxf : float32 (x : ℚ) = x :=
    float32_intCast (by rw [abs_of_nonneg (by omega)]; omega)
  have hwne : (w : ℚ) ≠ 0 := by exact_mod_cast (by omega : w ≠ 0)
  have h1 : float32 (1 : ℚ) = 1 := by
    have := float32_intCast (z := 1) (by norm_num)
    simpa using this
  have hhalf : float32 ((x : ℚ) + 1 / 2) = (x : ℚ) + 1 / 2 := by
    have := float32_half (z := 2 * x + 1) (by rw [abs_of_nonneg (by omega)]; omega)
    have e : (((2 * x + 1 : Int)) : ℚ) / 2 = (x : ℚ) + 1 / 2 := by push_cast; ring
    rwa [e] at this
  have hx' : ¬ ((x : ℚ) < 0) := by
    have : (0 : ℚ) ≤ x := by exact_mod_cast hx0
    linarith
  simp only [sourceCoord, hwf, hxf, div_self hwne, h1, hhalf, mul_one, add_sub_cancel_right,
    if_neg hx']

/-- With `float32` arithmetic, `Resize` to the grid's own size returns every sample as
long as the width and the height do not exceed `2^23 = 8388608`. -/
theorem Resize_float32_identity {g : NoiseImage} {w h x y : Int} (hg : g.IsGrid w h)
    (hw : 1 ≤ w) (hw' : w ≤ 2 ^ 23) (hh : 1 ≤ h) (hh' : h ≤ 2 ^ 23) (hx0 : 0 ≤ x)
    (hx : x < w) (hy0 : 0 ≤ y) (hy : y < h) :
    (Resize float32 g w h).Image.GrayAt x y = g.Image.GrayAt x y := by
  rw [Resize_grayAt float32 _ (by omega) (by omega) hx0 hx hy0 hy]
  have hsx := sourceCoord_float32_self hw hw' hx0 hx
  have hsy := sourceCoord_float32_self hh hh' hy0 hy
  have hlx : lowIndex float32 w w x = x := by
    have : (0 : ℚ) ≤ x := by exact_mod_cast hx0
    simp [lowIndex, truncToInt, hsx, this]
  have hly : lowIndex float32 h h y = y := by
    have : (0 : ℚ) ≤ y := by exact_mod_cast hy0
    simp [lowIndex, truncToInt, hsy, this]
  have hxf : float32 (x : ℚ) = x :=
    float32_intCast (by rw [abs_of_nonneg (by omega)]; omega)
  have hyf : float32 (y : ℚ) = y :=
    float32_intCast (by rw [abs_of_nonneg (by omega)]; omega)
  have h0 : float32 (0 : ℚ) = 0 := by simp [float32, roundFloat]
  have h1 : float32 (1 : ℚ) = 1 := by
    have := float32_intCast (z := 1) (by norm_num)
    simpa using this
  have hc : ∀ a b, float32 ((g.Image.GrayAt a b : Nat) : ℚ) = (g.Image.GrayAt a b : Nat) :=
    fun a b => float32_natCast (by
      have := g.Image.grayAt_lt hg.2.2.2.2.2 a b
      omega)
  simp only [resizePixel, hg.1, hg.2.1, hlx, hly, hsx, hsy, hxf, hyf, sub_self, h0, sub_zero,
    h1, hc, one_mul, zero_mul, add_zero]
  exact byteOfFloat_natCast (g.Image.grayAt_lt hg.2.2.2.2.2 x y)


/-! ## `float32` read indices for source widths up to `2^21` -/

/-- In `float32` arithmetic the source coordinate stays below the source size as long
as the source size is at most `2^21` and the destination size at most `2^23`. -/
theorem sourceCoord_float32_lt {ws w x : Int} (hws : 1 ≤ ws) (hws' : ws ≤ 2 ^ 21)
    (hw : 1 ≤ w) (hw' : w ≤ 2 ^ 23) (hx0 : 0 ≤ x) (hx : x < w) :
    0 ≤ sourceCoord float32 ws w x ∧ sourceCoord float32 ws w x < ws := by
  have hwsf : float32 (ws : ℚ) = ws :=
    float32_intCast (by rw [abs_of_nonneg (by omega)]; omega)
  have hwf : float32 (w : ℚ) = w :=
    float32_intCast (by rw [abs_of_nonneg (by omega)]; omega)
  have hxf : float32 (x : ℚ) = x :=
    float32_intCast (by rw [abs_of_nonneg (by omega)]; omega)
  have hhalf : float32 ((x : ℚ) + 1 / 2) = (x : ℚ) + 1 / 2 := by
    have := float32_half (z := 2 * x + 1) (by rw [abs_of_nonneg (by omega)]; omega)
    have e : (((2 * x + 1 : Int)) : ℚ) / 2 = (x : ℚ) + 1 / 2 := by push_cast; ring
    rwa [e] at this
  have hwq : (0 : ℚ) < w := by exact_mod_cast (by omega : 0 < w)
  have hwsq : (1 : ℚ) ≤ ws := by exact_mod_cast hws
  have hwsq' : (ws : ℚ) ≤ 2 ^ 21 := by exact_mod_cast hws'
  have hxq : (0 : ℚ) ≤ x := by exact_mod_cast hx0
  have hxw : (x : ℚ) + 1 ≤ w := by exact_mod_cast (by omega : x + 1 ≤ w)
  have hq0 : (0 : ℚ) ≤ (ws : ℚ) / w := by positivity
  set xs := float32 ((ws : ℚ) / w) with hxs
  have hxs0 : 0 ≤ xs := float32_nonneg hq0
  have hxs1 := float32_le_of_nonneg hq0
  have hp0 : (0 : ℚ) ≤ (x : ℚ) + 1 / 2 := by linarith
  -- the product stays below `ws (1 + ε) + tiny`
  have hpq : ((x : ℚ) + 1 / 2) * ((ws : ℚ) / w) ≤ ws := by
    rw [← mul_div_assoc, div_le_iff₀ hwq]
    have h1 : ((x : ℚ) + 1 / 2) * ws ≤ (w : ℚ) * ws :=
      mul_le_mul_of_nonneg_right (by linarith) (by linarith)
    linarith
  have hprod0 : 0 ≤ ((x : ℚ) + 1 / 2) * xs := mul_nonneg hp0 hxs0
  have hprod1 : ((x : ℚ) + 1 / 2) * xs
      ≤ (ws : ℚ) * (1 + 1 / 2 ^ 24) + 2 ^ 23 * (1 / 2 ^ 150) := by
    have h1 : ((x : ℚ) + 1 / 2) * xs
        ≤ ((x : ℚ) + 1 / 2) * ((ws : ℚ) / w * (1 + 1 / 2 ^ 24) + 1 / 2 ^ 150) :=
      mul_le_mul_of_nonneg_left hxs1 hp0
    have h2 : ((x : ℚ) + 1 / 2) ≤ 2 ^ 23 := by
      have : (w : ℚ) ≤ 2 ^ 23 := by exact_mod_cast hw'
      linarith
    have h3 : ((x : ℚ) + 1 / 2) * ((ws : ℚ) / w) * (1 + 1 / 2 ^ 24)
        ≤ (ws : ℚ) * (1 + 1 / 2 ^ 24) :=
      mul_le_mul_of_nonneg_right hpq (by norm_num)
    have h4 : ((x : ℚ) + 1 / 2) * (1 / 2 ^ 150) ≤ 2 ^ 23 * (1 / 2 ^ 150) :=
      mul_le_mul_of_nonneg_right h2 (by norm_num)
    calc ((x : ℚ) + 1 / 2) * xs
        ≤ ((x : ℚ) + 1 / 2) * ((ws : ℚ) / w * (1 + 1 / 2 ^ 24) + 1 / 2 ^ 150) := h1
      _ = ((x : ℚ) + 1 / 2) * ((ws : ℚ) / w) * (1 + 1 / 2 ^ 24)
            + ((x : ℚ) + 1 / 2) * (1 / 2 ^ 150) := by ring
      _ ≤ (ws : ℚ) * (1 + 1 / 2 ^ 24) + 2 ^ 23 * (1 / 2 ^ 150) := add_le_add h3 h4
  set t := float32 (((x : ℚ) + 1 / 2) * xs) with ht
  have ht0 : 0 ≤ t := float32_nonneg hprod0
  have ht1 := float32_le_of_nonneg hprod0
  simp only [sourceCoord, hwsf, hwf, hxf, hhalf, ← hxs, ← ht]
  split
  · exact ⟨le_rfl, by linarith⟩
  · rename_i hneg
    refine ⟨not_lt.mp hneg, ?_⟩
    rcases le_total (t - 1 / 2) 0 with hle | hge
    · have := float32_nonpos hle
      linarith
    · have hs := float32_le_of_nonneg hge
      have h3 : t ≤ ((ws : ℚ) * (1 + 1 / 2 ^ 24) + 2 ^ 23 * (1 / 2 ^ 150)) * (1 + 1 / 2 ^ 24)
          + 1 / 2 ^ 150 := by
        have := mul_le_mul_of_nonneg_right hprod1 (by norm_num : (0 : ℚ) ≤ 1 + 1 / 2 ^ 24)
        linarith
      have h4 : (t - 1 / 2) * (1 + 1 / 2 ^ 24)
          ≤ (((ws : ℚ) * (1 + 1 / 2 ^ 24) + 2 ^ 23 * (1 / 2 ^ 150)) * (1 + 1 / 2 ^ 24)
            + 1 / 2 ^ 150 - 1 / 2) * (1 + 1 / 2 ^ 24) :=
        mul_le_mul_of_nonneg_right (by linarith) (by norm_num)
      have h5 : (((ws : ℚ) * (1 + 1 / 2 ^ 24) + 2 ^ 23 * (1 / 2 ^ 150)) * (1 + 1 / 2 ^ 24)
            + 1 / 2 ^ 150 - 1 / 2) * (1 + 1 / 2 ^ 24) + 1 / 2 ^ 150 < ws := by
        have e : (((ws : ℚ) * (1 + 1 / 2 ^ 24) + 2 ^ 23 * (1 / 2 ^ 150)) * (1 + 1 / 2 ^ 24)
            + 1 / 2 ^ 150 - 1 / 2) * (1 + 1 / 2 ^ 24) + 1 / 2 ^ 150
            = (ws : ℚ) * ((1 + 1 / 2 ^ 24) ^ 3)
              + (2 ^ 23 * (1 / 2 ^ 150) * (1 + 1 / 2 ^ 24) ^ 2
                + (1 / 2 ^ 150 - 1 / 2) * (1 + 1 / 2 ^ 24) + 1 / 2 ^ 150) := by ring
        rw [e]
        have h6 : (ws : ℚ) * ((1 + 1 / 2 ^ 24) ^ 3 - 1) ≤ 2 ^ 21 * ((1 + 1 / 2 ^ 24) ^ 3 - 1) :=
          mul_le_mul_of_nonneg_right hwsq' (by norm_num)
        have h7 : (2 : ℚ) ^ 21 * ((1 + 1 / 2 ^ 24) ^ 3 - 1)
            + (2 ^ 23 * (1 / 2 ^ 150) * (1 + 1 / 2 ^ 24) ^ 2
              + (1 / 2 ^ 150 - 1 / 2) * (1 + 1 / 2 ^ 24) + 1 / 2 ^ 150) < 0 := by norm_num
        linarith
      linarith

/-- In `float32` arithmetic every read of `Resize` stays inside the source,
`0 ≤ x0 ≤ x1 ≤ ws - 1`, for source sizes up to `2^21` and destination sizes up to
`2^23`. -/
theorem Resize_float32_indices {ws w x : Int} (hws : 1 ≤ ws) (hws' : ws ≤ 2 ^ 21)
    (hw : 1 ≤ w) (hw' : w ≤ 2 ^ 23) (hx0 : 0 ≤ x) (hx : x < w) :
    0 ≤ lowIndex float32 ws w x ∧ lowIndex float32 ws w x ≤ highIndex float32 ws w x ∧
      highIndex float32 ws w x ≤ ws - 1 := by
  obtain ⟨h0, h1⟩ := sourceCoord_float32_lt hws hws' hw hw' hx0 hx
  have hl : lowIndex float32 ws w x = ⌊sourceCoord float32 ws w x⌋ := by
    simp [lowIndex, truncToInt, h0]
  have hl0 : 0 ≤ lowIndex float32 ws w x := by
    rw [hl]; exact Int.floor_nonneg.mpr h0
  have hl1 : lowIndex float32 ws w x < ws := by
    rw [hl]; exact Int.floor_lt.mpr h1
  simp only [highIndex]
  refine ⟨hl0, ?_, ?_⟩ <;> split <;> omega


/-! ## `float32` coordinates at large widths -/

/-- Between `2^23` and `2^24` the spacing of `float32` is 1: `8388609.5` is a tie and
rounds to the even neighbour `8388610`. -/
theorem float32_tie_8388609 : float32 (16777219 / 2) = 8388610 := by
  norm_num [float32, roundFloat, ilog2, roundHalfEven, Nat.log2, abs_eq_max_neg]

/-- In `float32` the source coordinate of the last column of an `8388610`-wide identity
resize is `8388610`, the width itself. -/
theorem sourceCoord_float32_wide : sourceCoord float32 8388610 8388610 8388609 = 8388610 := by
  norm_num [sourceCoord, float32_exact, float32_tie_8388609]

theorem lowIndex_float32_wide : lowIndex float32 8388610 8388610 8388609 = 8388610 := by
  norm_num [lowIndex, truncToInt, sourceCoord_float32_wide]

theorem highIndex_float32_wide : highIndex float32 8388610 8388610 8388609 = 8388610 := by
  norm_num [highIndex, lowIndex_float32_wide]

theorem resizePixel_float32_wide (V : Nat) :
    resizePixel float32 (constGrid 8388610 1 V) 8388610 1 8388609 0 = 0 := by
  have hW : (constGrid 8388610 1 V).Width = 8388610 := rfl
  have hH : (constGrid 8388610 1 V).Height = 1 := rfl
  have hout : ∀ y : Int, (constGrid 8388610 1 V).Image.GrayAt 8388610 y = 0 := by
    intro y
    have : ¬ (constGrid 8388610 1 V).Image.Rect.Contains 8388610 y := by
      show ¬ (imageRect 0 0 8388610 1).Contains 8388610 y
      simp [imageRect, Rectangle.Contains]
    simp only [Gray.GrayAt, if_neg this]
  simp only [resizePixel, hW, hH, lowIndex_float32_wide, highIndex_float32_wide, hout,
    sourceCoord_float32_wide]
  norm_num [byteOfFloat, truncToInt, float32_exact, sourceCoord, lowIndex]


theorem getD_replicate_append_left (n i : Nat) (a d : Nat) (l : List Nat) (h : i < n) :
    (List.replicate n a ++ l).getD i d = a := by
  rw [List.getD_eq_getElem?_getD, List.getElem?_append_left (by simpa using h),
    List.getElem?_replicate, if_pos h]
  rfl

theorem getD_replicate_append_right (n i : Nat) (a d : Nat) (l : List Nat) (h : n ≤ i) :
    (List.replicate n a ++ l).getD i d = l.getD (i - n) d := by
  rw [List.getD_eq_getElem?_getD, List.getElem?_append_right (by simpa using h),
    List.length_replicate, ← List.getD_eq_getElem?_getD]

theorem wideGrid_isGrid : wideGrid.IsGrid 8388612 1 := by
  refine ⟨rfl, rfl, rfl, rfl, ?_, ?_⟩
  · show (((List.replicate 8388610 0 ++ [200, 0] : List Nat).length : Nat) : Int) = 8388612 * 1
    rw [List.length_append, List.length_replicate]
    rfl
  · intro v hv
    have hv' : v ∈ (List.replicate 8388610 0 ++ [200, 0] : List Nat) := hv
    rcases List.mem_append.mp hv' with h | h
    · rw [List.eq_of_mem_replicate h]; norm_num
    · simp only [List.mem_cons, List.mem_singleton, List.not_mem_nil, or_false] at h
      rcases h with rfl | rfl <;> norm_num

theorem wideGrid_grayAt (x : Int) (hx0 : 0 ≤ x) (hx : x < 8388612) :
    wideGrid.Image.GrayAt x 0
      = (List.replicate 8388610 0 ++ [200, 0] : List Nat).getD x.toNat 0 := by
  have hc : wideGrid.Image.Rect.Contains x 0 := by
    show (imageRect 0 0 8388612 1).Contains x 0
    simp [imageRect, Rectangle.Contains, hx0, hx]
  have ho : wideGrid.Image.PixOffset x 0 = x := by
    show ((0 : Int) - (imageRect 0 0 8388612 1).MinY) * 8388612
      + (x - (imageRect 0 0 8388612 1).MinX) = x
    simp [imageRect]
  simp only [Gray.GrayAt, if_pos hc, ho]
  rfl

theorem wideGrid_grayAt_8388609 : wideGrid.Image.GrayAt 8388609 0 = 0 := by
  rw [wideGrid_grayAt 8388609 (by norm_num) (by norm_num)]
  exact getD_replicate_append_left 8388610 8388609 0 0 _ (by norm_num)

theorem wideGrid_grayAt_8388610 : wideGrid.Image.GrayAt 8388610 0 = 200 := by
  rw [wideGrid_grayAt 8388610 (by norm_num) (by norm_num)]
  exact getD_replicate_append_right 8388610 8388610 0 0 _ (by norm_num)

theorem wideGrid_grayAt_8388611 : wideGrid.Image.GrayAt 8388611 0 = 0 := by
  rw [wideGrid_grayAt 8388611 (by norm_num) (by norm_num)]
  exact getD_replicate_append_right 8388610 8388611 0 0 _ (by norm_num)

theorem sourceCoord_float32_wide2 : sourceCoord float32 8388612 8388612 8388609 = 8388610 := by
  norm_num [sourceCoord, float32_exact, float32_tie_8388609]

theorem lowIndex_float32_wide2 : lowIndex float32 8388612 8388612 8388609 = 8388610 := by
  norm_num [lowIndex, truncToInt, sourceCoord_float32_wide2]

theorem highIndex_float32_wide2 : highIndex float32 8388612 8388612 8388609 = 8388611 := by
  norm_num [highIndex, lowIndex_float32_wide2]

theorem resizePixel_float32_wideGrid :
    resizePixel float32 wideGrid 8388612 1 8388609 0 = 200 := by
  have hW : wideGrid.Width = 8388612 := rfl
  have hH : wideGrid.Height = 1 := rfl
  have hsy : sourceCoord float32 1 1 0 = 0 := by norm_num [sourceCoord, float32_exact]
  have hly : lowIndex float32 1 1 0 = 0 := by norm_num [lowIndex, truncToInt, hsy]
  have hhy : highIndex float32 1 1 0 = 0 := by norm_num [highIndex, hly]
  simp only [resizePixel, hW, hH, lowIndex_float32_wide2, highIndex_float32_wide2,
    sourceCoord_float32_wide2, hsy, hly, hhy, wideGrid_grayAt_8388610, wideGrid_grayAt_8388611]
  norm_num [byteOfFloat, truncToInt, float32_exact]
  rfl

/-- C3, at a failing input. In `float32` arithmetic the identity resize of an
`8388610 × 1` grid computes, for the last destination column `x = 8388609`, the read
indices `x0 = x1 = 8388610`: the width itself, one past the last column `ws - 1`. -/
theorem Resize_float32_reads_outside :
    lowIndex float32 8388610 8388610 8388609 = 8388610 ∧
    highIndex float32 8388610 8388610 8388609 = 8388610 ∧
    ¬ (highIndex float32 8388610 8388610 8388609 ≤ 8388610 - 1) ∧
    ∀ (V : Nat) (y : Int), (constGrid 8388610 1 V).Image.GrayAt
      (lowIndex float32 8388610 8388610 8388609) y = 0 := by
  refine ⟨lowIndex_float32_wide, highIndex_float32_wide, ?_, fun V y => ?_⟩
  · rw [highIndex_float32_wide]; norm_num
  · rw [lowIndex_float32_wide]
    have : ¬ (constGrid 8388610 1 V).Image.Rect.Contains 8388610 y := by
      show ¬ (imageRect 0 0 8388610 1).Contains 8388610 y
      simp [imageRect, Rectangle.Contains]
    simp only [Gray.GrayAt, if_neg this]

/-- C4, at a failing input. In `float32` arithmetic `Resize(8388610, 1)` of the
`8388610 × 1` grid of all-255 samples writes 0, not 255, at destination
`(8388609, 0)`. -/
theorem Resize_float32_const_fails :
    (constGrid 8388610 1 255).IsGrid 8388610 1 ∧
    (Resize float32 (constGrid 8388610 1 255) 8388610 1).Image.GrayAt 8388609 0 = 0 := by
  refine ⟨constGrid_isGrid (by norm_num) (by norm_num) (by norm_num), ?_⟩
  rw [Resize_grayAt float32 _ (by norm_num) (by norm_num) (by norm_num) (by norm_num)
    (by norm_num) (by norm_num)]
  exact resizePixel_float32_wide 255

/-- C5, at a failing input. In `float32` arithmetic `Resize(8388612, 1)` of the
`8388612 × 1` grid `wideGrid` writes 200 at the non-edge destination `(8388609, 0)`,
where the source sample is 0: the sample of the next column. -/
theorem Resize_float32_identity_fails :
    wideGrid.IsGrid 8388612 1 ∧ wideGrid.Image.GrayAt 8388609 0 = 0 ∧
    (Resize float32 wideGrid 8388612 1).Image.GrayAt 8388609 0 = 200 := by
  refine ⟨wideGrid_isGrid, wideGrid_grayAt_8388609, ?_⟩
  rw [Resize_grayAt float32 _ (by norm_num) (by norm_num) (by norm_num) (by norm_num)
    (by norm_num) (by norm_num)]
  exact resizePixel_float32_wideGrid


/-! ## The `2 × 2` example -/

theorem sourceCoord_float32_example :
    sourceCoord float32 2 4 0 = 0 ∧ sourceCoord float32 2 4 1 = 1 / 4 ∧
    sourceCoord float32 2 4 2 = 3 / 4 ∧ sourceCoord float32 2 4 3 = 5 / 4 := by
  refine ⟨?_, ?_, ?_, ?_⟩ <;> norm_num [sourceCoord, float32_exact]

theorem sourceCoord_id_example :
    sourceCoord id 2 4 0 = 0 ∧ sourceCoord id 2 4 1 = 1 / 4 ∧
    sourceCoord id 2 4 2 = 3 / 4 ∧ sourceCoord id 2 4 3 = 5 / 4 := by
  refine ⟨?_, ?_, ?_, ?_⟩ <;> norm_num [sourceCoord]

theorem lowIndex_float32_example :
    lowIndex float32 2 4 0 = 0 ∧ lowIndex float32 2 4 1 = 0 ∧
    lowIndex float32 2 4 2 = 0 ∧ lowIndex float32 2 4 3 = 1 := by
  obtain ⟨h0, h1, h2, h3⟩ := sourceCoord_float32_example
  refine ⟨?_, ?_, ?_, ?_⟩ <;> norm_num [lowIndex, truncToInt, h0, h1, h2, h3]

theorem lowIndex_id_example :
    lowIndex id 2 4 0 = 0 ∧ lowIndex id 2 4 1 = 0 ∧
    lowIndex id 2 4 2 = 0 ∧ lowIndex id 2 4 3 = 1 := by
  obtain ⟨h0, h1, h2, h3⟩ := sourceCoord_id_example
  refine ⟨?_, ?_, ?_, ?_⟩ <;> norm_num [lowIndex, truncToInt, h0, h1, h2, h3]

theorem highIndex_float32_example :
    highIndex float32 2 4 0 = 1 ∧ highIndex float32 2 4 1 = 1 ∧
    highIndex float32 2 4 2 = 1 ∧ highIndex float32 2 4 3 = 1 := by
  obtain ⟨h0, h1, h2, h3⟩ := lowIndex_float32_example
  refine ⟨?_, ?_, ?_, ?_⟩ <;> norm_num [highIndex, h0, h1, h2, h3]

theorem highIndex_id_example :
    highIndex id 2 4 0 = 1 ∧ highIndex id 2 4 1 = 1 ∧
    highIndex id 2 4 2 = 1 ∧ highIndex id 2 4 3 = 1 := by
  obtain ⟨h0, h1, h2, h3⟩ := lowIndex_id_example
  refine ⟨?_, ?_, ?_, ?_⟩ <;> norm_num [highIndex, h0, h1, h2, h3]

theorem grayAt_example :
    (gridOf 2 2 [10, 20, 30, 40]).Image.GrayAt 0 0 = 10 ∧
    (gridOf 2 2 [10, 20, 30, 40]).Image.GrayAt 1 0 = 20 ∧
    (gridOf 2 2 [10, 20, 30, 40]).Image.GrayAt 0 1 = 30 ∧
    (gridOf 2 2 [10, 20, 30, 40]).Image.GrayAt 1 1 = 40 := by
  decide

/-- The body of `Resize` at the sixteen destinations of the `2 × 2` example, in
`float32` arithmetic. -/
theorem resizePixel_float32_example (x y : Int) (hx0 : 0 ≤ x) (hx : x < 4) (hy0 : 0 ≤ y)
    (hy : y < 4) :
    resizePixel float32 (gridOf 2 2 [10, 20, 30, 40]) 4 4 x y
      = (gridOf 4 4 [10, 12, 17, 20, 15, 17, 22, 25, 25, 27, 32, 35, 30, 32, 37, 40]).Image.GrayAt
          x y := by
  have hW : (gridOf 2 2 [10, 20, 30, 40]).Width = 2 := rfl
  have hH : (gridOf 2 2 [10, 20, 30, 40]).Height = 2 := rfl
  obtain ⟨s0, s1, s2, s3⟩ := sourceCoord_float32_example
  obtain ⟨l0, l1, l2, l3⟩ := lowIndex_float32_example
  obtain ⟨u0, u1, u2, u3⟩ := highIndex_float32_example
  obtain ⟨c1, c2, c3, c4⟩ := grayAt_example
  simp only [resizePixel, hW, hH]
  interval_cases x <;> interval_cases y <;>
    simp only [s0, s1, s2, s3, l0, l1, l2, l3, u0, u1, u2, u3, c1, c2, c3, c4] <;>
    norm_num [float32_exact, byteOfFloat, truncToInt] <;> decide

/-- The body of `Resize` at the sixteen destinations of the `2 × 2` example, in
exact arithmetic. -/
theorem resizePixel_id_example (x y : Int) (hx0 : 0 ≤ x) (hx : x < 4) (hy0 : 0 ≤ y)
    (hy : y < 4) :
    resizePixel id (gridOf 2 2 [10, 20, 30, 40]) 4 4 x y
      = (gridOf 4 4 [10, 12, 17, 20, 15, 17, 22, 25, 25, 27, 32, 35, 30, 32, 37, 40]).Image.GrayAt
          x y := by
  have hW : (gridOf 2 2 [10, 20, 30, 40]).Width = 2 := rfl
  have hH : (gridOf 2 2 [10, 20, 30, 40]).Height = 2 := rfl
  obtain ⟨s0, s1, s2, s3⟩ := sourceCoord_id_example
  obtain ⟨l0, l1, l2, l3⟩ := lowIndex_id_example
  obtain ⟨u0, u1, u2, u3⟩ := highIndex_id_example
  obtain ⟨c1, c2, c3, c4⟩ := grayAt_example
  simp only [resizePixel, hW, hH]
  interval_cases x <;> interval_cases y <;>
    simp only [s0, s1, s2, s3, l0, l1, l2, l3, u0, u1, u2, u3, c1, c2, c3, c4] <;>
    norm_num [byteOfFloat, truncToInt] <;> decide

theorem Resize_eq_of_pixels (fl : ℚ → ℚ) (g : NoiseImage) {w h : Int} (hw : 0 ≤ w)
    (hh : 0 ≤ h) (pix : List Nat) (hlen : (pix.length : Int) = w * h)
    (hp : ∀ x y, 0 ≤ x → x < w → 0 ≤ y → y < h →
      resizePixel fl g w h x y = (gridOf w h pix).Image.GrayAt x y) :
    Resize fl g w h = gridOf w h pix := by
  have hc : (gridOf w h pix).Image.IsCanvas w h := ⟨hw, hh, rfl, rfl, hlen⟩
  have himg : (Resize fl g w h).Image = (gridOf w h pix).Image := by
    apply Gray.IsCanvas.ext (Resize_isCanvas fl g hw hh) hc
    intro x y hx0 hx hy0 hy
    rw [Resize_grayAt fl g hw hh hx0 hx hy0 hy, hp x y hx0 hx hy0 hy]
  have hW : (Resize fl g w h).Width = w := rfl
  have hH : (Resize fl g w h).Height = h := rfl
  cases hr : Resize fl g w h with
  | mk I W H =>
    rw [hr] at himg hW hH
    simp only at himg hW hH
    subst himg hW hH
    rfl

/-- C7. `Resize(4, 4)` of the `2 × 2` grid with row-major samples `[10, 20, 30, 40]` is
exactly the `4 × 4` grid with row-major samples
`[10,12,17,20, 15,17,22,25, 25,27,32,35, 30,32,37,40]`, in `float32` arithmetic as in
exact arithmetic; these are the truncated bilinear values of the section 4.2 formula. -/
theorem Resize_example :
    Resize float32 (gridOf 2 2 [10, 20, 30, 40]) 4 4
      = gridOf 4 4 [10, 12, 17, 20, 15, 17, 22, 25, 25, 27, 32, 35, 30, 32, 37, 40] ∧
    Resize id (gridOf 2 2 [10, 20, 30, 40]) 4 4
      = gridOf 4 4 [10, 12, 17, 20, 15, 17, 22, 25, 25, 27, 32, 35, 30, 32, 37, 40] ∧
    ∀ x y : Int, 0 ≤ x → x < 4 → 0 ≤ y → y < 4 →
      specResample (gridOf 2 2 [10, 20, 30, 40]) 2 2 4 4 x y
        = (gridOf 4 4 [10, 12, 17, 20, 15, 17, 22, 25, 25, 27, 32, 35, 30, 32, 37,
            40]).Image.GrayAt x y := by
  refine ⟨Resize_eq_of_pixels float32 _ (by norm_num) (by norm_num) _ (by norm_num)
      resizePixel_float32_example,
    Resize_eq_of_pixels id _ (by norm_num) (by norm_num) _ (by norm_num)
      resizePixel_id_example, fun x y hx0 hx hy0 hy => ?_⟩
  rw [← resizePixel_id_eq_spec (by decide) (by norm_num) (by norm_num) (by norm_num)
    (by norm_num) hx hy, resizePixel_id_example x y hx0 hx hy0 hy]


/-! ## Degenerate inputs: no error is raised -/

theorem forRange_nonpos {σ : Type} {n : Int} (hn : n ≤ 0) (body : σ → Int → σ) (s : σ) :
    forRange n body s = s := by
  have : n.toNat = 0 := by omega
  simp [forRange, this]

theorem forRange_const {σ : Type} (n : Int) (body : σ → Int → σ) (s : σ)
    (hb : ∀ i, body s i = s) : forRange n body s = s := by
  have h : ∀ k : Nat, forRange (k : Int) body s = s := by
    intro k
    induction k with
    | zero => exact forRange_zero body s
    | succ k ih =>
      push_cast
      rw [forRange_natCast_succ, ih, hb]
  rw [← forRange_toNat]
  exact h n.toNat

/-- `Resize` with a non-positive width or height: the loops store nothing and the
receiver gets the zero-filled image over `image.Rect(0, 0, width, height)`. -/
theorem Resize_of_nonpos (fl : ℚ → ℚ) (g : NoiseImage) {width height : Int}
    (h : width ≤ 0 ∨ height ≤ 0) :
    Resize fl g width height
      = { Image := NewGray (imageRect 0 0 width height), Width := width, Height := height } := by
  unfold Resize
  simp only
  congr 1
  rcases h with hw | hh
  · apply forRange_const
    intro y
    exact forRange_nonpos hw _ _
  · exact forRange_nonpos hh _ _

/-- C11, refuted as stated: `Resize(0, 10)` returns normally and replaces the receiver
by an empty image with `Width = 0` and `Height = 10`. -/
theorem Resize_zero_width_counterexample :
    (Resize float32 (gridOf 2 2 [10, 20, 30, 40]) 0 10).Width = 0 ∧
    (Resize float32 (gridOf 2 2 [10, 20, 30, 40]) 0 10).Height = 10 ∧
    (Resize float32 (gridOf 2 2 [10, 20, 30, 40]) 0 10).Image.Pix = [] ∧
    Resize float32 (gridOf 2 2 [10, 20, 30, 40]) 0 10 ≠ gridOf 2 2 [10, 20, 30, 40] := by
  rw [Resize_of_nonpos float32 _ (Or.inl le_rfl)]
  refine ⟨rfl, rfl, rfl, ?_⟩
  intro h
  have := congrArg NoiseImage.Width h
  exact absurd this (by decide)

/-- C11, as amended. `Resize` has no error path: called with a width or a height that
is zero or negative it returns normally, stores no sample, and leaves the receiver with
the zero-filled image over `image.Rect(0, 0, width, height)` (no sample at all when
the width or the height is zero), `Width = width` and `Height = height`. -/
theorem Resize_nonpos_dimension (fl : ℚ → ℚ) (g : NoiseImage) (width height : Int)
    (h : width ≤ 0 ∨ height ≤ 0) :
    (Resize fl g width height).Image = NewGray (imageRect 0 0 width height) ∧
    (Resize fl g width height).Width = width ∧
    (Resize fl g width height).Height = height ∧
    (∀ x y, (Resize fl g width height).Image.GrayAt x y = 0) ∧
    (width = 0 ∨ height = 0 → (Resize fl g width height).Image.Pix = []) := by
  rw [Resize_of_nonpos fl g h]
  refine ⟨rfl, rfl, rfl, fun x y => ?_, fun h0 => ?_⟩
  · simp only [Gray.GrayAt, NewGray]
    split
    · rw [List.getD_eq_getElem?_getD, List.getElem?_replicate]
      split <;> rfl
    · rfl
  · have : (imageRect 0 0 width height).Dx * (imageRect 0 0 width height).Dy = 0 := by
      rcases h0 with rfl | rfl <;> simp [imageRect, Rectangle.Dx, Rectangle.Dy]
    simp [NewGray, this]

theorem Resize_nonpos_dimension_witness :
    ((0 : Int) ≤ 0 ∨ (10 : Int) ≤ 0) ∧
    ((Resize float32 (gridOf 2 2 [10, 20, 30, 40]) 0 10).Image
        = NewGray (imageRect 0 0 0 10) ∧
      (Resize float32 (gridOf 2 2 [10, 20, 30, 40]) 0 10).Width = 0 ∧
      (Resize float32 (gridOf 2 2 [10, 20, 30, 40]) 0 10).Height = 10 ∧
      (∀ x y, (Resize float32 (gridOf 2 2 [10, 20, 30, 40]) 0 10).Image.GrayAt x y = 0) ∧
      ((0 : Int) = 0 ∨ (10 : Int) = 0 →
        (Resize float32 (gridOf 2 2 [10, 20, 30, 40]) 0 10).Image.Pix = [])) :=
  ⟨Or.inl le_rfl, Resize_nonpos_dimension float32 (gridOf 2 2 [10, 20, 30, 40]) 0 10
    (Or.inl le_rfl)⟩

/-- C12, refuted as stated: on the empty list `NoiseImagesMiddle` returns an image,
the empty image over `image.Rect(0, 0, 0, 0)`. -/
theorem NoiseImagesMiddle_nil_counterexample :
    NoiseImagesMiddle float64 [] = some (NewGray (imageRect 0 0 0 0)) ∧
    NoiseImagesMiddle float64 [] ≠ none := by
  have h : NoiseImagesMiddle float64 [] = some (NewGray (imageRect 0 0 0 0)) := rfl
  exact ⟨h, by rw [h]; simp⟩

/-- C12, as amended. `NoiseImagesMiddle` has no error path: on the empty list it
returns normally the image over `image.Rect(0, 0, 0, 0)`, which has no sample; no loop
body runs, so the division by the octave count (zero) is never evaluated: the result is
the same whatever the floating-point operations do. -/
theorem NoiseImagesMiddle_nil (fl : ℚ → ℚ) :
    NoiseImagesMiddle fl [] = some (NewGray (imageRect 0 0 0 0)) ∧
    (NewGray (imageRect 0 0 0 0)).Pix = [] ∧
    (NewGray (imageRect 0 0 0 0)).Rect.Dx = 0 ∧ (NewGray (imageRect 0 0 0 0)).Rect.Dy = 0 :=
  ⟨rfl, rfl, rfl, rfl⟩


/-! ## The grid invariant after `Resize` -/

theorem byteOfFloat_lt (q : ℚ) : byteOfFloat q < 256 := by
  unfold byteOfFloat
  have h1 : 0 ≤ truncToInt q % 256 := Int.emod_nonneg _ (by norm_num)
  have h2 : truncToInt q % 256 < 256 := Int.emod_lt_of_pos _ (by norm_num)
  omega

theorem resizePixel_lt (fl : ℚ → ℚ) (g : NoiseImage) (w h x y : Int) :
    resizePixel fl g w h x y < 256 := by
  unfold resizePixel
  exact byteOfFloat_lt _

/-- Every element of the buffer of a canvas is the sample at some coordinate. -/
theorem Gray.IsCanvas.exists_grayAt_eq {p : Gray} {W H : Int} (hp : p.IsCanvas W H)
    {v : Nat} (hv : v ∈ p.Pix) :
    ∃ x y, 0 ≤ x ∧ x < W ∧ 0 ≤ y ∧ y < H ∧ p.GrayAt x y = v := by
  obtain ⟨i, hi, rfl⟩ := List.getElem_of_mem hv
  have hlen := hp.2.2.2.2
  have hW0 := hp.1
  have hH0 := hp.2.1
  have hWpos : 0 < W := by
    rcases eq_or_lt_of_le hW0 with h0 | h0
    · have : (p.Pix.length : Int) = 0 := by rw [hlen, ← h0]; ring
      omega
    · exact h0
  have hx0 : 0 ≤ (i : Int) % W := Int.emod_nonneg _ hWpos.ne'
  have hx1 : (i : Int) % W < W := Int.emod_lt_of_pos _ hWpos
  have hy0 : 0 ≤ (i : Int) / W := Int.ediv_nonneg (Int.natCast_nonneg i) hW0
  have hsplit : (i : Int) / W * W + (i : Int) % W = i := by
    rw [mul_comm]; exact Int.ediv_add_emod _ _
  have hy1 : (i : Int) / W < H := by
    by_contra hge
    have h3 : H * W ≤ (i : Int) / W * W :=
      mul_le_mul_of_nonneg_right (not_lt.mp hge) hW0
    have h4 : (i : Int) < W * H := by omega
    nlinarith
  refine ⟨(i : Int) % W, (i : Int) / W, hx0, hx1, hy0, hy1, ?_⟩
  simp only [Gray.GrayAt, if_pos ((hp.contains_iff _ _).mpr ⟨hx0, hx1, hy0, hy1⟩),
    hp.pixOffset, hsplit, Int.toNat_ofNat, List.getD_eq_getElem?_getD,
    List.getElem?_eq_getElem hi, Option.getD_some]

/-- A canvas whose samples are all below 256 holds only 8-bit values. -/
theorem Gray.IsCanvas.pix_lt {p : Gray} {W H : Int} (hp : p.IsCanvas W H)
    (h : ∀ x y, 0 ≤ x → x < W → 0 ≤ y → y < H → p.GrayAt x y < 256) :
    ∀ v ∈ p.Pix, v < 256 := by
  intro v hv
  obtain ⟨x, y, hx0, hx, hy0, hy, rfl⟩ := hp.exists_grayAt_eq hv
  exact h x y hx0 hx hy0 hy

theorem Resize_isGrid (fl : ℚ → ℚ) (g : NoiseImage) {w h : Int} (hw : 0 ≤ w) (hh : 0 ≤ h) :
    (Resize fl g w h).IsGrid w h := by
  have hc := Resize_isCanvas fl g hw hh
  refine ⟨rfl, rfl, hc.2.2.1, hc.2.2.2.1, hc.2.2.2.2, ?_⟩
  apply hc.pix_lt
  intro x y hx0 hx hy0 hy
  rw [Resize_grayAt fl g hw hh hx0 hx hy0 hy]
  exact resizePixel_lt fl g w h x y

/-- C14. For every grid satisfying the grid invariant with `Width, Height ≥ 1` and every
`w, h ≥ 1`, after `Resize(w, h)` the grid satisfies the invariant again with `Width = w`,
`Height = h`: the buffer has exactly `w * h` samples, all in `[0, 255]`, and every
destination cell `(x, y)` holds the value the loop body wrote for it. This holds for every
interpretation `fl` of the floating-point operations, the float32 one included. -/
theorem Resize_invariant (fl : ℚ → ℚ) (g : NoiseImage) (ws hs w h : Int)
    (_hg : g.IsGrid ws hs) (_hws : 1 ≤ ws) (_hhs : 1 ≤ hs) (hw : 1 ≤ w) (hh : 1 ≤ h) :
    (Resize fl g w h).IsGrid w h ∧
    (Resize fl g w h).Width = w ∧ (Resize fl g w h).Height = h ∧
    ((Resize fl g w h).Image.Pix.length : Int) = w * h ∧
    (∀ v ∈ (Resize fl g w h).Image.Pix, v < 256) ∧
    ∀ x y, 0 ≤ x → x < w → 0 ≤ y → y < h →
      (Resize fl g w h).Image.GrayAt x y = resizePixel fl g w h x y := by
  have hG := Resize_isGrid fl g (by omega : 0 ≤ w) (by omega : 0 ≤ h)
  exact ⟨hG, rfl, rfl, hG.2.2.2.2.1, hG.2.2.2.2.2, fun x y hx0 hx hy0 hy =>
    Resize_grayAt fl g (by omega) (by omega) hx0 hx hy0 hy⟩

theorem Resize_invariant_witness :
    (gridOf 2 2 [10, 20, 30, 40]).IsGrid 2 2 ∧
    ((Resize float32 (gridOf 2 2 [10, 20, 30, 40]) 3 1).IsGrid 3 1 ∧
      (Resize float32 (gridOf 2 2 [10, 20, 30, 40]) 3 1).Width = 3 ∧
      (Resize float32 (gridOf 2 2 [10, 20, 30, 40]) 3 1).Height = 1 ∧
      ((Resize float32 (gridOf 2 2 [10, 20, 30, 40]) 3 1).Image.Pix.length : Int) = 3 * 1 ∧
      (∀ v ∈ (Resize float32 (gridOf 2 2 [10, 20, 30, 40]) 3 1).Image.Pix, v < 256) ∧
      ∀ x y, 0 ≤ x → x < 3 → 0 ≤ y → y < 1 →
        (Resize float32 (gridOf 2 2 [10, 20, 30, 40]) 3 1).Image.GrayAt x y
          = resizePixel float32 (gridOf 2 2 [10, 20, 30, 40]) 3 1 x y) :=
  ⟨by decide, Resize_invariant float32 (gridOf 2 2 [10, 20, 30, 40]) 2 2 3 1 (by decide)
    (by decide) (by decide) (by decide) (by decide)⟩

/-! ## Accumulator indices of `NoiseImagesMiddle` in Go's wrapping `int` -/

theorem wrapInt64_eq {z : Int} (h0 : -2 ^ 63 ≤ z) (h1 : z < 2 ^ 63) : wrapInt64 z = z := by
  unfold wrapInt64
  norm_num at h0 h1 ⊢
  omega

theorem forRangeM_congr {σ : Type} (n : Int) (body body' : σ → Int → Option σ)
    (hb : ∀ s i, 0 ≤ i → i < n → body s i = body' s i) (s : σ) :
    forRangeM n body s = forRangeM n body' s := by
  have h : ∀ k : Nat, (k : Int) ≤ n →
      forRangeM (k : Int) body s = forRangeM (k : Int) body' s := by
    intro k
    induction k with
    | zero => intro _; rw [Nat.cast_zero, forRangeM_zero, forRangeM_zero]
    | succ k ih =>
      intro hk
      push_cast at hk ⊢
      rw [forRangeM_natCast_succ, forRangeM_natCast_succ, ih (by omega)]
      cases forRangeM (k : Int) body' s with
      | none => rfl
      | some t => exact hb t k (by omega) (by omega)
  by_cases hn : 0 ≤ n
  · have := h n.toNat (by omega)
    rwa [forRangeM_toNat, forRangeM_toNat] at this
  · have e : n.toNat = 0 := by omega
    simp [forRangeM, e]

theorem foldlM_congr_mem {α σ : Type} (l : List α) (f f' : σ → α → Option σ)
    (h : ∀ a ∈ l, ∀ s, f s a = f' s a) (s : σ) : l.foldlM f s = l.foldlM f' s := by
  induction l generalizing s with
  | nil => rfl
  | cons a l ih =>
    simp only [List.foldlM_cons]
    rw [h a (List.mem_cons_self a l) s]
    cases f' s a with
    | none => rfl
    | some t => exact ih (fun b hb => h b (List.mem_cons_of_mem a hb)) t

/-- A loop whose body panics at the first index panics. -/
theorem forRangeM_none_first {σ : Type} {n : Int} (hn : 0 < n) (body : σ → Int → Option σ)
    (s : σ) (h : body s 0 = none) : forRangeM n body s = none := by
  have hk : ∀ k : Nat, forRangeM ((k : Int) + 1) body s = none := by
    intro k
    induction k with
    | zero =>
      rw [Nat.cast_zero, zero_add]
      have := forRangeM_natCast_succ 0 body s
      rw [Nat.cast_zero, zero_add, forRangeM_zero] at this
      rw [this]
      exact h
    | succ k ih =>
      have := forRangeM_natCast_succ (k + 1) body s
      push_cast at this ⊢
      rw [this, ih]
      rfl
  have e : n = ((n.toNat - 1 : Nat) : Int) + 1 := by omega
  rw [e]
  exact hk _

/-- The indices of the accumulator do not wrap when `maxWidth*maxHeight` does not. -/
theorem wrapInt64_index {mw mh x y : Int} (hP : mw * mh < 2 ^ 63) (hx0 : 0 ≤ x) (hx : x < mw)
    (hy0 : 0 ≤ y) (hy : y < mh) :
    wrapInt64 (x + wrapInt64 (y * mw)) = x + y * mw := by
  obtain ⟨h1, h2⟩ := @offset_lt mw mh x y hx0 hx hy0 hy
  have h3 : 0 ≤ y * mw := mul_nonneg hy0 (by omega)
  have e1 : wrapInt64 (y * mw) = y * mw := wrapInt64_eq (by omega) (by omega)
  rw [e1, wrapInt64_eq (by omega) (by omega)]

/-- As long as `maxWidth*maxHeight` does not overflow, the accumulation in machine
integers is the accumulation in mathematical integers. -/
theorem sumPixelsInt64_eq {l : List NoiseImage} {mw mh : Int} (hmw : 0 ≤ mw) (hmh : 0 ≤ mh)
    (hP : mw * mh < 2 ^ 63) (hl : ∀ g ∈ l, g.Width ≤ mw ∧ g.Height ≤ mh) :
    sumPixelsInt64 l mw mh = sumPixels l mw mh := by
  have h0 : 0 ≤ mw * mh := mul_nonneg hmw hmh
  unfold sumPixelsInt64 sumPixels
  rw [wrapInt64_eq (by omega) hP]
  simp only [makeSlice, if_pos h0, Option.some_bind]
  apply foldlM_congr_mem
  intro g hg px
  apply forRangeM_congr
  intro px y hy0 hy
  apply forRangeM_congr
  intro px x hx0 hx
  rw [wrapInt64_index hP hx0 (by have := (hl g hg).1; omega) hy0
    (by have := (hl g hg).2; omega)]

/-- As long as `maxWidth*maxHeight` does not overflow, `NoiseImagesMiddle` in machine
integers is `NoiseImagesMiddle` in mathematical integers. -/
theorem NoiseImagesMiddleInt64_eq (fl : ℚ → ℚ) (l : List NoiseImage)
    (hP : (maxDims l).1 * (maxDims l).2 < 2 ^ 63) :
    NoiseImagesMiddleInt64 fl l = NoiseImagesMiddle fl l := by
  rw [maxDims_eq] at hP
  simp only at hP
  have hmw := maxWidthOf_nonneg l
  have hmh := maxHeightOf_nonneg l
  unfold NoiseImagesMiddleInt64 NoiseImagesMiddle
  simp only [maxDims_eq]
  rw [sumPixelsInt64_eq hmw hmh hP
    (fun g hg => ⟨width_le_maxWidthOf hg, height_le_maxHeightOf hg⟩)]
  congr 1
  funext pixels
  apply forRangeM_congr
  intro img y hy0 hy
  apply forRangeM_congr
  intro img x hx0 hx
  rw [wrapInt64_index hP hx0 hx hy0 hy]

/-- Without overflow of `maxWidth*maxHeight` every accumulator index is in range: while
summing a grid, while writing the output, and distinct output coordinates have distinct
indices; the accumulator has `maxWidth*maxHeight` slots and the function returns. -/
theorem NoiseImagesMiddleInt64_index_bounds (fl : ℚ → ℚ) (l : List NoiseImage)
    (hP : (maxDims l).1 * (maxDims l).2 < 2 ^ 63) :
    (∀ g ∈ l, ∀ x y, 0 ≤ x → x < g.Width → 0 ≤ y → y < g.Height →
      wrapInt64 (x + wrapInt64 (y * (maxDims l).1)) = x + y * (maxDims l).1 ∧
      0 ≤ x + y * (maxDims l).1 ∧ x + y * (maxDims l).1 < (maxDims l).1 * (maxDims l).2) ∧
    (∀ x y, 0 ≤ x → x < (maxDims l).1 → 0 ≤ y → y < (maxDims l).2 →
      wrapInt64 (x + wrapInt64 (y * (maxDims l).1)) = x + y * (maxDims l).1 ∧
      0 ≤ x + y * (maxDims l).1 ∧ x + y * (maxDims l).1 < (maxDims l).1 * (maxDims l).2) ∧
    (∀ x y x' y', 0 ≤ x → x < (maxDims l).1 → 0 ≤ x' → x' < (maxDims l).1 →
      x + y * (maxDims l).1 = x' + y' * (maxDims l).1 → x = x' ∧ y = y') ∧
    (∃ pixels, sumPixelsInt64 l (maxDims l).1 (maxDims l).2 = some pixels ∧
      (pixels.length : Int) = wrapInt64 ((maxDims l).1 * (maxDims l).2) ∧
      (pixels.length : Int) = (maxDims l).1 * (maxDims l).2) ∧
    ∃ img, NoiseImagesMiddleInt64 fl l = some img := by
  have hE := NoiseImagesMiddleInt64_eq fl l hP
  rw [maxDims_eq] at hP ⊢
  simp only at hP ⊢
  have hmw := maxWidthOf_nonneg l
  have hmh := maxHeightOf_nonneg l
  have h0 : 0 ≤ maxWidthOf l * maxHeightOf l := mul_nonneg hmw hmh
  have hidx : ∀ x y, 0 ≤ x → x < maxWidthOf l → 0 ≤ y → y < maxHeightOf l →
      wrapInt64 (x + wrapInt64 (y * maxWidthOf l)) = x + y * maxWidthOf l ∧
      0 ≤ x + y * maxWidthOf l ∧ x + y * maxWidthOf l < maxWidthOf l * maxHeightOf l := by
    intro x y hx0 hx hy0 hy
    have := @offset_lt (maxWidthOf l) (maxHeightOf l) x y hx0 hx hy0 hy
    refine ⟨wrapInt64_index hP hx0 hx hy0 hy, ?_, ?_⟩ <;> omega
  refine ⟨fun g hg x y hx0 hx hy0 hy => ?_, hidx, fun x y x' y' hx0 hx hx0' hx' h => ?_, ?_, ?_⟩
  · have h1 := width_le_maxWidthOf hg
    have h2 := height_le_maxHeightOf hg
    exact hidx x y hx0 (by omega) hy0 (by omega)
  · rw [add_comm x, add_comm x'] at h
    exact offset_inj hx0 hx hx0' hx' h
  · obtain ⟨px, h1, h2, -⟩ := sumPixels_spec l
    refine ⟨px, ?_, ?_, h2⟩
    · rw [sumPixelsInt64_eq hmw hmh hP
        (fun g hg => ⟨width_le_maxWidthOf hg, height_le_maxHeightOf hg⟩)]
      exact h1
    · rw [wrapInt64_eq (by omega) hP]
      exact h2
  · obtain ⟨img, h1, -⟩ := NoiseImagesMiddle_spec fl l
    exact ⟨img, by rw [hE]; exact h1⟩

theorem wrapInt64_zero_index (mw : Int) : wrapInt64 (0 + wrapInt64 (0 * mw)) = 0 := by
  rw [zero_mul]
  norm_num [wrapInt64]

/-- With an accumulator of length zero the summing loop panics at the first sample of a
first grid that is not empty. -/
theorem sumPixelsInt64_none (g : NoiseImage) (l : List NoiseImage) (mw mh : Int)
    (hlen : wrapInt64 (mw * mh) = 0) (hW : 0 < g.Width) (hH : 0 < g.Height) :
    sumPixelsInt64 (g :: l) mw mh = none := by
  have hin : forRangeM g.Height (fun pixels y =>
      forRangeM g.Width (fun pixels x =>
        sliceAdd pixels (wrapInt64 (x + wrapInt64 (y * mw))) (g.Image.GrayAt x y)) pixels)
      ([] : List Int) = none := by
    apply forRangeM_none_first hH
    apply forRangeM_none_first hW
    rw [wrapInt64_zero_index]
    rfl
  have hm : makeSlice (wrapInt64 (mw * mh)) = some [] := by
    rw [hlen]; rfl
  unfold sumPixelsInt64
  rw [hm]
  simp only [Option.some_bind, List.foldlM_cons]
  rw [hin]
  rfl

theorem NoiseImagesMiddleInt64_none (fl : ℚ → ℚ) (l : List NoiseImage)
    (h : sumPixelsInt64 l (maxDims l).1 (maxDims l).2 = none) :
    NoiseImagesMiddleInt64 fl l = none := by
  unfold NoiseImagesMiddleInt64
  simp only [h]
  rfl

/-- C19, at a failing input. For the list of the `4294967296 × 1` grid and the
`1 × 4294967296` grid (the widest and the tallest grid are different grids),
`maxWidth*maxHeight = 2^64` wraps to 0 in Go's `int`: the accumulator has no slot, and the
first index used while summing, `0 + 0*maxWidth = 0`, is out of range: the code panics. -/
theorem NoiseImagesMiddle_index_out_of_range :
    (constGrid 4294967296 1 0).IsGrid 4294967296 1 ∧
    (constGrid 1 4294967296 0).IsGrid 1 4294967296 ∧
    maxDims [constGrid 4294967296 1 0, constGrid 1 4294967296 0]
      = (4294967296, 4294967296) ∧
    wrapInt64 (4294967296 * 4294967296) = 0 ∧
    makeSlice (wrapInt64 (4294967296 * 4294967296)) = some [] ∧
    wrapInt64 (0 + wrapInt64 (0 * 4294967296)) = 0 ∧
    (∀ v : Int, sliceAdd [] 0 v = none) ∧
    sumPixelsInt64 [constGrid 4294967296 1 0, constGrid 1 4294967296 0]
      4294967296 4294967296 = none ∧
    ∀ fl : ℚ → ℚ,
      NoiseImagesMiddleInt64 fl [constGrid 4294967296 1 0, constGrid 1 4294967296 0] = none := by
  have hd : maxDims [constGrid 4294967296 1 0, constGrid 1 4294967296 0]
      = (4294967296, 4294967296) := by
    simp only [maxDims, List.foldl_cons, List.foldl_nil]
    rfl
  have hw : wrapInt64 (4294967296 * 4294967296) = 0 := by
    norm_num [wrapInt64]
  have hm : makeSlice (wrapInt64 (4294967296 * 4294967296)) = some [] := by
    rw [hw]; rfl
  have hW : (0 : Int) < (constGrid 4294967296 1 0).Width := by
    show (0 : Int) < 4294967296
    norm_num
  have hH : (0 : Int) < (constGrid 4294967296 1 0).Height := by
    show (0 : Int) < 1
    norm_num
  have hsum := sumPixelsInt64_none (constGrid 4294967296 1 0) [constGrid 1 4294967296 0]
    4294967296 4294967296 hw hW hH
  refine ⟨constGrid_isGrid (by norm_num) (by norm_num) (by norm_num),
    constGrid_isGrid (by norm_num) (by norm_num) (by norm_num), hd, hw, hm,
    wrapInt64_zero_index _, fun _ => rfl, hsum, fun fl => ?_⟩
  apply NoiseImagesMiddleInt64_none
  rw [hd]
  exact hsum

/-! ## `NewNoiseImage` -/

theorem forRange_congr {σ : Type} (n : Int) (body body' : σ → Int → σ)
    (hb : ∀ s i, 0 ≤ i → i < n → body s i = body' s i) (s : σ) :
    forRange n body s = forRange n body' s := by
  have h : ∀ k : Nat, (k : Int) ≤ n → forRange (k : Int) body s = forRange (k : Int) body' s := by
    intro k
    induction k with
    | zero => intro _; rw [Nat.cast_zero, forRange_zero, forRange_zero]
    | succ k ih =>
      intro hk
      push_cast at hk ⊢
      rw [forRange_natCast_succ, forRange_natCast_succ, ih (by omega),
        hb _ _ (by omega) (by omega)]
  by_cases hn : 0 ≤ n
  · have := h n.toNat (by omega)
    rwa [forRange_toNat, forRange_toNat] at this
  · rw [forRange_nonpos (by omega), forRange_nonpos (by omega)]

/-- One row of `NewNoiseImage`: the cell `x` receives the draw number `calls + x`. -/
theorem drawRow (d : Nat → Nat) (y : Int) (n : Nat) (img : Gray) (calls : Nat) :
    forRange (n : Int) (fun (s : Gray × Nat) x => (s.1.SetGray x y (d s.2), s.2 + 1))
        (img, calls)
      = (forRange (n : Int) (fun img x => img.SetGray x y (d (calls + x.toNat))) img,
          calls + n) := by
  induction n with
  | zero => simp [forRange_zero]
  | succ n ih =>
    push_cast
    rw [forRange_natCast_succ, forRange_natCast_succ, ih]
    simp [Nat.add_assoc]

/-- The rows of `NewNoiseImage`: the cell `(x, y)` receives the draw number
`calls + (y * W + x)`. -/
theorem drawRows (d : Nat → Nat) (W : Nat) (m : Nat) (img : Gray) (calls : Nat) :
    forRange (m : Int) (fun s y =>
        forRange (W : Int) (fun (s : Gray × Nat) x => (s.1.SetGray x y (d s.2), s.2 + 1)) s)
        (img, calls)
      = (forRange (m : Int) (fun img y =>
          forRange (W : Int) (fun img x =>
            img.SetGray x y (d (calls + (y * W + x).toNat))) img) img,
          calls + m * W) := by
  induction m with
  | zero => simp [forRange_zero]
  | succ m ih =>
    push_cast
    rw [forRange_natCast_succ, forRange_natCast_succ, ih, drawRow]
    congr 1
    · apply forRange_congr
      intro s i hi0 hi
      have : calls + m * W + i.toNat = calls + ((m : Int) * W + i).toNat := by
        have h1 : (0 : Int) ≤ (m : Int) * W := by positivity
        have h2 : (((m * W : Nat) : Int)) = (m : Int) * W := by push_cast; ring
        omega
      rw [this]
    · ring

theorem NewNoiseImage_eq (draws : Nat → Nat) (calls : Nat) {width height : Int}
    (hw : 0 ≤ width) (hh : 0 ≤ height) :
    NewNoiseImage draws calls width height
      = ({ Image := forRange height (fun img y =>
            forRange width (fun img x =>
              img.SetGray x y (draws (calls + (y * width + x).toNat) % 256)) img)
              (NewGray (imageRect 0 0 width height)),
           Width := width, Height := height },
         calls + (width * height).toNat) := by
  obtain ⟨W, rfl⟩ := Int.eq_ofNat_of_zero_le hw
  obtain ⟨H, rfl⟩ := Int.eq_ofNat_of_zero_le hh
  unfold NewNoiseImage
  simp only
  rw [drawRows (fun k => draws k % 256) W H]
  simp only
  congr 2
  have : ((W : Int) * H).toNat = H * W := by
    have : ((W : Int) * H) = ((H * W : Nat) : Int) := by push_cast; ring
    rw [this, Int.toNat_ofNat]
  rw [this]

theorem NewNoiseImage_grayAt (draws : Nat → Nat) (calls : Nat) {width height : Int}
    (hw : 0 ≤ width) (hh : 0 ≤ height) {x y : Int} (hx0 : 0 ≤ x) (hx : x < width)
    (hy0 : 0 ≤ y) (hy : y < height) :
    (NewNoiseImage draws calls width height).1.Image.GrayAt x y
      = draws (calls + (y * width + x).toNat) % 256 := by
  rw [NewNoiseImage_eq draws calls hw hh]
  have hH : height = ((height.toNat : Nat) : Int) := by omega
  have h := (fill_rows (NewGray_isCanvas hw hh)
    (fun x y => draws (calls + (y * width + x).toNat) % 256) height.toNat).2 x y
  rw [← hH] at h
  simp only
  rw [h, if_pos ⟨hy0, hy, hy, hx0, hx⟩]

theorem NewNoiseImage_isGrid (draws : Nat → Nat) (calls : Nat) {width height : Int}
    (hw : 0 ≤ width) (hh : 0 ≤ height) :
    (NewNoiseImage draws calls width height).1.IsGrid width height := by
  have hH : height = ((height.toNat : Nat) : Int) := by omega
  have hc : (NewNoiseImage draws calls width height).1.Image.IsCanvas width height := by
    rw [NewNoiseImage_eq draws calls hw hh]
    have h := (fill_rows (NewGray_isCanvas hw hh)
      (fun x y => draws (calls + (y * width + x).toNat) % 256) height.toNat).1
    rw [← hH] at h
    exact h
  have hW : (NewNoiseImage draws calls width height).1.Width = width := rfl
  have hHt : (NewNoiseImage draws calls width height).1.Height = height := rfl
  refine ⟨hW, hHt, hc.2.2.1, hc.2.2.2.1, hc.2.2.2.2, ?_⟩
  apply hc.pix_lt
  intro x y hx0 hx hy0 hy
  rw [NewNoiseImage_grayAt draws calls hw hh hx0 hx hy0 hy]
  exact Nat.mod_lt _ (by norm_num)

/-- C13. For every `width ≥ 1`, `height ≥ 1` and every random source (any sequence
`draws` of values of `rand.Intn(256)`, all in `[0, 255]`, of which `calls` have been
consumed before), `NewNoiseImage(width, height)` returns a grid with `Width = width`,
`Height = height` and exactly `width * height` samples, each in `[0, 255]`; the sample of
the cell `(x, y)` is the draw made for it in row-major order, the draw number
`calls + (y * width + x)`, and `width * height` draws are consumed. -/
theorem NewNoiseImage_samples (draws : Nat → Nat) (calls : Nat) (width height : Int)
    (hw : 1 ≤ width) (hh : 1 ≤ height) (hd : ∀ k, draws k < 256) :
    (NewNoiseImage draws calls width height).1.IsGrid width height ∧
    (NewNoiseImage draws calls width height).1.Width = width ∧
    (NewNoiseImage draws calls width height).1.Height = height ∧
    ((NewNoiseImage draws calls width height).1.Image.Pix.length : Int) = width * height ∧
    (∀ v ∈ (NewNoiseImage draws calls width height).1.Image.Pix, v < 256) ∧
    (∀ x y, 0 ≤ x → x < width → 0 ≤ y → y < height →
      (NewNoiseImage draws calls width height).1.Image.GrayAt x y
        = draws (calls + (y * width + x).toNat)) ∧
    (NewNoiseImage draws calls width height).2 = calls + (width * height).toNat := by
  have hG := NewNoiseImage_isGrid draws calls (by omega : 0 ≤ width) (by omega : 0 ≤ height)
  refine ⟨hG, rfl, rfl, hG.2.2.2.2.1, hG.2.2.2.2.2, fun x y hx0 hx hy0 hy => ?_, ?_⟩
  · rw [NewNoiseImage_grayAt draws calls (by omega) (by omega) hx0 hx hy0 hy]
    exact Nat.mod_eq_of_lt (hd _)
  · rw [NewNoiseImage_eq draws calls (by omega) (by omega)]

theorem NewNoiseImage_samples_witness :
    ((1 : Int) ≤ 2 ∧ (1 : Int) ≤ 3 ∧ ∀ k, (fun k => (7 * k + 250) % 256) k < 256) ∧
    ((NewNoiseImage (fun k => (7 * k + 250) % 256) 5 2 3).1.IsGrid 2 3 ∧
      (NewNoiseImage (fun k => (7 * k + 250) % 256) 5 2 3).1.Width = 2 ∧
      (NewNoiseImage (fun k => (7 * k + 250) % 256) 5 2 3).1.Height = 3 ∧
      ((NewNoiseImage (fun k => (7 * k + 250) % 256) 5 2 3).1.Image.Pix.length : Int)
        = 2 * 3 ∧
      (∀ v ∈ (NewNoiseImage (fun k => (7 * k + 250) % 256) 5 2 3).1.Image.Pix, v < 256) ∧
      (∀ x y, 0 ≤ x → x < 2 → 0 ≤ y → y < 3 →
        (NewNoiseImage (fun k => (7 * k + 250) % 256) 5 2 3).1.Image.GrayAt x y
          = (fun k => (7 * k + 250) % 256) (5 + (y * 2 + x).toNat)) ∧
      (NewNoiseImage (fun k => (7 * k + 250) % 256) 5 2 3).2 = 5 + ((2 : Int) * 3).toNat) :=
  ⟨⟨by decide, by decide, fun k => Nat.mod_lt _ (by decide)⟩,
    NewNoiseImage_samples (fun k => (7 * k + 250) % 256) 5 2 3 (by decide) (by decide)
      (fun k => Nat.mod_lt _ (by decide))⟩

/-! ## The pipeline driver `main` -/

theorem outSize_eq : outSize = 4096 := by decide

theorem halve_size (j : Nat) (hj : j < 11) :
    Int.tdiv ((4096 : Int) / 2 ^ j) 2 = 4096 / 2 ^ (j + 1) := by
  interval_cases j <;> decide

theorem two_le_size (i : Nat) (hi : i < 12) : (2 : Int) ≤ 4096 / 2 ^ i := by
  interval_cases i <;> decide

/-- Invariant of the loop of `main` after `j` iterations. -/
theorem mainLoop_inv (draws : Nat → Nat) (j : Nat) (hj : j ≤ 11) :
    (forRange (j : Int) (fun st _ => mainStep draws st)
        { size := outSize, noiseImages := [(NewNoiseImage draws 0 outSize outSize).1],
          calls := (NewNoiseImage draws 0 outSize outSize).2 }).size = 4096 / 2 ^ j ∧
    (forRange (j : Int) (fun st _ => mainStep draws st)
        { size := outSize, noiseImages := [(NewNoiseImage draws 0 outSize outSize).1],
          calls := (NewNoiseImage draws 0 outSize outSize).2 }).noiseImages.length = j + 1 ∧
    ∀ i : Nat, i ≤ j → ∃ calls : Nat,
      (forRange (j : Int) (fun st _ => mainStep draws st)
        { size := outSize, noiseImages := [(NewNoiseImage draws 0 outSize outSize).1],
          calls := (NewNoiseImage draws 0 outSize outSize).2 }).noiseImages[i]?
        = some (if i = 0 then (NewNoiseImage draws calls (4096 / 2 ^ i) (4096 / 2 ^ i)).1
            else Resize float32
              (NewNoiseImage draws calls (4096 / 2 ^ i) (4096 / 2 ^ i)).1 4096 4096) := by
  induction j with
  | zero =>
    refine ⟨?_, ?_, ?_⟩
    · rw [Nat.cast_zero, forRange_zero]
      simp only [outSize_eq, pow_zero, Int.ediv_one]
    · rw [Nat.cast_zero, forRange_zero]
      rfl
    · intro i hi
      have hi0 : i = 0 := by omega
      subst hi0
      refine ⟨0, ?_⟩
      rw [Nat.cast_zero, forRange_zero]
      simp only [outSize_eq, pow_zero, Int.ediv_one, if_true, List.getElem?_cons_zero]
  | succ j ih =>
    obtain ⟨h1, h2, h3⟩ := ih (by omega)
    push_cast
    rw [forRange_natCast_succ]
    generalize forRange (j : Int) (fun st _ => mainStep draws st)
        { size := outSize, noiseImages := [(NewNoiseImage draws 0 outSize outSize).1],
          calls := (NewNoiseImage draws 0 outSize outSize).2 } = st at h1 h2 h3
    have hs : Int.tdiv st.size 2 = 4096 / 2 ^ (j + 1) := by
      rw [h1]; exact halve_size j (by omega)
    refine ⟨?_, ?_, ?_⟩
    · simp only [mainStep]
      exact hs
    · simp only [mainStep, List.length_append, List.length_singleton, h2]
    · intro i hi
      rcases Nat.lt_or_ge i (j + 1) with hlt | hge
      · obtain ⟨c, hc⟩ := h3 i (by omega)
        refine ⟨c, ?_⟩
        simp only [mainStep]
        rw [List.getElem?_append_left (by omega)]
        exact hc
      · have hij : i = j + 1 := by omega
        subst hij
        refine ⟨st.calls, ?_⟩
        simp only [mainStep]
        rw [List.getElem?_append_right (by omega)]
        simp only [h2, Nat.sub_self, List.getElem?_cons_zero, hs, outSize_eq,
          Nat.add_one_ne_zero, if_false]

theorem mainOctaves_spec (draws : Nat → Nat) :
    (mainOctaves draws).noiseImages.length = 12 ∧
    ∀ i : Nat, i < 12 → ∃ calls : Nat,
      (mainOctaves draws).noiseImages[i]?
        = some (if i = 0 then (NewNoiseImage draws calls (4096 / 2 ^ i) (4096 / 2 ^ i)).1
            else Resize float32
              (NewNoiseImage draws calls (4096 / 2 ^ i) (4096 / 2 ^ i)).1 4096 4096) := by
  have h := mainLoop_inv draws 11 le_rfl
  have h11 : ((octaves : Int) - 1) = ((11 : Nat) : Int) := by decide
  unfold mainOctaves
  simp only
  rw [h11]
  exact ⟨h.2.1, fun i hi => h.2.2 i (by omega)⟩

theorem mainOctaves_isGrid (draws : Nat → Nat) :
    ∀ g ∈ (mainOctaves draws).noiseImages, g.IsGrid 4096 4096 := by
  intro g hg
  obtain ⟨i, hi, rfl⟩ := List.getElem_of_mem hg
  obtain ⟨hlen, hel⟩ := mainOctaves_spec draws
  obtain ⟨c, hc⟩ := hel i (by omega)
  rw [List.getElem?_eq_getElem hi, Option.some.injEq] at hc
  rw [hc]
  split
  · next h0 =>
    subst h0
    simp only [pow_zero, Int.ediv_one]
    exact NewNoiseImage_isGrid draws c (by norm_num) (by norm_num)
  · exact Resize_isGrid float32 _ (by norm_num) (by norm_num)

theorem maxWidthOf_eq_of_forall {l : List NoiseImage} {W : Int} (hl : l ≠ [])
    (h : ∀ g ∈ l, g.Width = W) (hW : 0 ≤ W) : maxWidthOf l = W := by
  apply le_antisymm
  · unfold maxWidthOf
    rw [foldr_max_le_iff]
    refine ⟨hW, fun a ha => ?_⟩
    obtain ⟨g, hg, rfl⟩ := List.mem_map.mp ha
    exact (h g hg).le
  · obtain ⟨g, hg⟩ := List.exists_mem_of_ne_nil l hl
    rw [← h g hg]
    exact width_le_maxWidthOf hg

theorem maxHeightOf_eq_of_forall {l : List NoiseImage} {H : Int} (hl : l ≠ [])
    (h : ∀ g ∈ l, g.Height = H) (hH : 0 ≤ H) : maxHeightOf l = H := by
  apply le_antisymm
  · unfold maxHeightOf
    rw [foldr_max_le_iff]
    refine ⟨hH, fun a ha => ?_⟩
    obtain ⟨g, hg, rfl⟩ := List.mem_map.mp ha
    exact (h g hg).le
  · obtain ⟨g, hg⟩ := List.exists_mem_of_ne_nil l hl
    rw [← h g hg]
    exact height_le_maxHeightOf hg

/-- C16. In `main` (`octaves = 12`, `outSize = 1 << 12 = 4096`), for every random
source: twelve octaves are built; for every `i < 12` the octave `i` is created by
`NewNoiseImage` at size `(4096 / 2 ^ i) × (4096 / 2 ^ i)`, which is at least 2; octave 0 is
stored as created and every octave `i ≥ 1` is resized to `4096 × 4096` before it is
stored; all twelve grids handed to `NoiseImagesMiddle` are `4096 × 4096` grids, the call
returns a `4096 × 4096` image, and every output pixel is covered by all twelve octaves. -/
theorem main_octaves (draws : Nat → Nat) :
    outSize = 4096 ∧
    (mainOctaves draws).noiseImages.length = 12 ∧
    (∀ i : Nat, i < 12 → (2 : Int) ≤ 4096 / 2 ^ i ∧ ∃ calls : Nat,
      (mainOctaves draws).noiseImages[i]?
        = some (if i = 0 then (NewNoiseImage draws calls (4096 / 2 ^ i) (4096 / 2 ^ i)).1
            else Resize float32
              (NewNoiseImage draws calls (4096 / 2 ^ i) (4096 / 2 ^ i)).1 4096 4096)) ∧
    (∀ g ∈ (mainOctaves draws).noiseImages,
      g.IsGrid 4096 4096 ∧ g.Width = 4096 ∧ g.Height = 4096) ∧
    (∃ img, mainImage draws = some img ∧ img.IsCanvas 4096 4096 ∧
      img.Rect.Dx = 4096 ∧ img.Rect.Dy = 4096) ∧
    ∀ x y : Int, 0 ≤ x → x < 4096 → 0 ≤ y → y < 4096 →
      ∀ g ∈ (mainOctaves draws).noiseImages, x < g.Width ∧ y < g.Height := by
  obtain ⟨hlen, hel⟩ := mainOctaves_spec draws
  have hgrid := mainOctaves_isGrid draws
  have hne : (mainOctaves draws).noiseImages ≠ [] := by
    intro h
    rw [h] at hlen
    simp at hlen
  have hmw : maxWidthOf (mainOctaves draws).noiseImages = 4096 :=
    maxWidthOf_eq_of_forall hne (fun g hg => (hgrid g hg).1) (by norm_num)
  have hmh : maxHeightOf (mainOctaves draws).noiseImages = 4096 :=
    maxHeightOf_eq_of_forall hne (fun g hg => (hgrid g hg).2.1) (by norm_num)
  refine ⟨outSize_eq, hlen, fun i hi => ⟨two_le_size i hi, hel i hi⟩,
    fun g hg => ⟨hgrid g hg, (hgrid g hg).1, (hgrid g hg).2.1⟩, ?_, ?_⟩
  · obtain ⟨img, h1, h2, -⟩ := NoiseImagesMiddle_spec float64 (mainOctaves draws).noiseImages
    rw [hmw, hmh] at h2
    refine ⟨img, h1, h2, ?_, ?_⟩
    · rw [h2.2.2.1]; rfl
    · rw [h2.2.2.1]; rfl
  · intro x y _ hx _ hy g hg
    rw [(hgrid g hg).1, (hgrid g hg).2.1]
    exact ⟨hx, hy⟩

/-! ## The rounded mean stays in `[0, 255]` -/

theorem float64_le_of_nonneg {q : ℚ} (hq : 0 ≤ q) :
    float64 q ≤ q * (1 + 1 / 2 ^ 53) + 1 / 2 ^ 1075 := by
  have h := @abs_roundFloat_sub_le 53 (-1022) q
  rw [abs_of_nonneg hq] at h
  have h1 : (2 : ℚ) ^ (-((53 : Nat) : Int)) = 1 / 2 ^ 53 := by norm_num
  have h2 : (2 : ℚ) ^ ((-1022 : Int) - ((53 : Nat) : Int)) = 1 / 2 ^ 1075 := by norm_num
  rw [h1, h2] at h
  have h3 := (abs_le.mp h).2
  unfold float64
  linarith

theorem float64_ge_of_nonneg {q : ℚ} (hq : 0 ≤ q) :
    q * (1 - 1 / 2 ^ 53) - 1 / 2 ^ 1075 ≤ float64 q := by
  have h := @abs_roundFloat_sub_le 53 (-1022) q
  rw [abs_of_nonneg hq] at h
  have h1 : (2 : ℚ) ^ (-((53 : Nat) : Int)) = 1 / 2 ^ 53 := by norm_num
  have h2 : (2 : ℚ) ^ ((-1022 : Int) - ((53 : Nat) : Int)) = 1 / 2 ^ 1075 := by norm_num
  rw [h1, h2] at h
  have h3 := (abs_le.mp h).1
  unfold float64
  linarith

/-- The `float64` quotient of a sum of `n` samples by `n`, rounded by `math.Round`, is an
integer of `[0, 255]`, whatever the number of samples. -/
theorem mathRound_float64_div_mem {S n : Int} (hS0 : 0 ≤ S) (hS : S ≤ 255 * n) (hn0 : 1 ≤ n) :
    ∃ k : Int, 0 ≤ k ∧ k ≤ 255 ∧
      mathRound (float64 (float64 (S : ℚ) / float64 (n : ℚ))) = (k : ℚ) := by
  have hSq : (0 : ℚ) ≤ S := by exact_mod_cast hS0
  have hnq : (1 : ℚ) ≤ n := by exact_mod_cast hn0
  have hSn : (S : ℚ) ≤ 255 * n := by exact_mod_cast hS
  have ha0 : 0 ≤ float64 (S : ℚ) :=
    le_roundFloat (by norm_num) (isFloat_intCast (z := 0) (by norm_num) (by norm_num))
      (by exact_mod_cast hS0)
  have hb1 : (1 : ℚ) ≤ float64 (n : ℚ) := by
    have := @le_roundFloat 53 (-1022) ((1 : Int) : ℚ) (n : ℚ) (by norm_num)
      (isFloat_intCast (by norm_num) (by norm_num)) (by exact_mod_cast hn0)
    exact_mod_cast this
  have ha := float64_le_of_nonneg hSq
  have hb := float64_ge_of_nonneg (by linarith : (0 : ℚ) ≤ n)
  have hq0 : 0 ≤ float64 (S : ℚ) / float64 (n : ℚ) := div_nonneg ha0 (by linarith)
  have hq1 : float64 (S : ℚ) / float64 (n : ℚ) ≤ 1021 / 4 := by
    rw [div_le_iff₀ (by linarith)]
    have e1 : (S : ℚ) * (1 + 1 / 2 ^ 53) ≤ 255 * (n : ℚ) * (1 + 1 / 2 ^ 53) :=
      mul_le_mul_of_nonneg_right hSn (by norm_num)
    have e2 : (255 : ℚ) * n * (1 + 1 / 2 ^ 53) + 1 / 2 ^ 1075
        ≤ 1021 / 4 * ((n : ℚ) * (1 - 1 / 2 ^ 53) - 1 / 2 ^ 1075) := by
      have e3 : (1021 : ℚ) / 4 * ((n : ℚ) * (1 - 1 / 2 ^ 53) - 1 / 2 ^ 1075)
          - (255 * n * (1 + 1 / 2 ^ 53) + 1 / 2 ^ 1075)
          = (n : ℚ) * (1 / 4 - 2041 / 4 / 2 ^ 53) - 1025 / 4 / 2 ^ 1075 := by ring
      have e4 : (1 : ℚ) / 8 ≤ 1 / 4 - 2041 / 4 / 2 ^ 53 := by norm_num
      have e5 : (1025 : ℚ) / 4 / 2 ^ 1075 ≤ 1 / 8 := by norm_num
      have e6 : (n : ℚ) * (1 / 8) ≤ (n : ℚ) * (1 / 4 - 2041 / 4 / 2 ^ 53) :=
        mul_le_mul_of_nonneg_left e4 (by linarith)
      linarith
    have e7 : (1021 : ℚ) / 4 * ((n : ℚ) * (1 - 1 / 2 ^ 53) - 1 / 2 ^ 1075)
        ≤ 1021 / 4 * float64 (n : ℚ) := mul_le_mul_of_nonneg_left hb (by norm_num)
    linarith
  have hf0 : 0 ≤ float64 (float64 (S : ℚ) / float64 (n : ℚ)) :=
    le_roundFloat (by norm_num) (isFloat_intCast (z := 0) (by norm_num) (by norm_num))
      (by exact_mod_cast hq0)
  have hf1 : float64 (float64 (S : ℚ) / float64 (n : ℚ)) ≤ 1021 / 4 := by
    have hr : IsFloat 53 (-1022) ((1021 : ℚ) / 4) :=
      ⟨1021, -2, by norm_num, by norm_num, by norm_num⟩
    exact roundFloat_le (by norm_num) hr hq1
  refine ⟨roundNearest (float64 (float64 (S : ℚ) / float64 (n : ℚ))), ?_, ?_,
    mathRound_of_nonneg hf0⟩
  · exact Int.floor_nonneg.mpr (by linarith)
  · have : roundNearest (float64 (float64 (S : ℚ) / float64 (n : ℚ))) < 256 :=
      Int.floor_lt.mpr (by push_cast; linarith)
    omega

/-- C15. For every non-empty list of grids whose samples are all in `[0, 255]`,
`NoiseImagesMiddle` returns an image, and at every output coordinate the rounded mean
`math.Round(float64(sum) / float64(count))` it computes is an integer `k` of `[0, 255]`;
the narrowing `byte(k)` does not wrap: the stored sample is `k` itself. Computed with
`float64` arithmetic, for lists of any length. -/
theorem NoiseImagesMiddle_no_wrap (l : List NoiseImage) (hne : l ≠ [])
    (hpix : ∀ g ∈ l, ∀ v ∈ g.Image.Pix, v < 256) :
    ∃ img, NoiseImagesMiddle float64 l = some img ∧
      ∀ x y, 0 ≤ x → x < (maxDims l).1 → 0 ≤ y → y < (maxDims l).2 →
        ∃ k : Int, 0 ≤ k ∧ k ≤ 255 ∧
          mathRound (float64 (float64 (coverSum l x y : ℚ) / float64 ((l.length : Int) : ℚ)))
            = (k : ℚ) ∧
          byteOfFloat (k : ℚ) = k ∧ (img.GrayAt x y : Int) = k := by
  obtain ⟨img, h1, h2, h3⟩ := NoiseImagesMiddle_spec float64 l
  rw [maxDims_eq]
  refine ⟨img, h1, fun x y hx0 hx hy0 hy => ?_⟩
  have hn0 : 1 ≤ (l.length : Int) := by
    have := List.length_pos.mpr hne
    omega
  obtain ⟨k, hk0, hk1, hk⟩ :=
    mathRound_float64_div_mem (coverSum_nonneg l x y) (coverSum_le l hpix x y) hn0
  have hb := byteOfFloat_intCast hk0 (by omega : k < 256)
  refine ⟨k, hk0, hk1, hk, hb, ?_⟩
  rw [h3 x y hx0 hx hy0 hy, hk]
  exact hb

theorem NoiseImagesMiddle_no_wrap_witness :
    ([constGrid 2 2 255, constGrid 1 1 255] ≠ [] ∧
      (∀ g ∈ [constGrid 2 2 255, constGrid 1 1 255], ∀ v ∈ g.Image.Pix, v < 256)) ∧
    ∃ img, NoiseImagesMiddle float64 [constGrid 2 2 255, constGrid 1 1 255] = some img ∧
      ∀ x y, 0 ≤ x → x < (maxDims [constGrid 2 2 255, constGrid 1 1 255]).1 →
        0 ≤ y → y < (maxDims [constGrid 2 2 255, constGrid 1 1 255]).2 →
        ∃ k : Int, 0 ≤ k ∧ k ≤ 255 ∧
          mathRound (float64 (float64
              (coverSum [constGrid 2 2 255, constGrid 1 1 255] x y : ℚ)
            / float64 (([constGrid 2 2 255, constGrid 1 1 255].length : Int) : ℚ)))
            = (k : ℚ) ∧
          byteOfFloat (k : ℚ) = k ∧ (img.GrayAt x y : Int) = k :=
  ⟨⟨by decide, by decide⟩,
    NoiseImagesMiddle_no_wrap [constGrid 2 2 255, constGrid 1 1 255] (by decide) (by decide)⟩

/-! ## Monotonicity and grid structure of the rounding -/

/-- Rounding to nearest is monotone. -/
theorem roundFloat_mono {prec : Nat} {emin : Int} (hp : 1 ≤ prec) {q q' : ℚ} (h : q ≤ q') :
    roundFloat prec emin q ≤ roundFloat prec emin q' := by
  by_contra hlt
  push_neg at hlt
  have hf := @roundFloat_isFloat prec emin hp q
  have hf' := @roundFloat_isFloat prec emin hp q'
  have h1 : q' < roundFloat prec emin q := by
    by_contra hc
    push_neg at hc
    exact absurd (le_roundFloat hp hf hc) (not_le.mpr hlt)
  have h2 : roundFloat prec emin q' < q := by
    by_contra hc
    push_neg at hc
    exact absurd (roundFloat_le hp hf' hc) (not_le.mpr hlt)
  have n1 := abs_roundFloat_sub_le_isFloat hp hf' q
  have n2 := abs_roundFloat_sub_le_isFloat hp hf q'
  rw [abs_of_nonneg (by linarith), abs_of_nonpos (by linarith)] at n1
  rw [abs_of_nonpos (by linarith), abs_of_nonneg (by linarith)] at n2
  have : q = q' := le_antisymm h (by linarith)
  subst this
  exact lt_irrefl _ hlt

theorem float32_mono {q q' : ℚ} (h : q ≤ q') : float32 q ≤ float32 q' :=
  roundFloat_mono (by norm_num) h

theorem float32_isFloat (q : ℚ) : IsFloat 24 (-126) (float32 q) :=
  roundFloat_isFloat (by norm_num) q

theorem float32_eq_self {r : ℚ} (hr : IsFloat 24 (-126) r) : float32 r = r :=
  roundFloat_eq_self (by norm_num) hr

theorem ilog2_lt {q : ℚ} {p : Int} (hq : q ≠ 0) (h : |q| < (2 : ℚ) ^ p) : ilog2 q < p := by
  have h1 := two_zpow_ilog2_le hq
  exact (zpow_lt_zpow_iff_right₀ (by norm_num : (1 : ℚ) < 2)).mp (lt_of_le_of_lt h1 h)

theorem le_ilog2 {q : ℚ} {p : Int} (h : (2 : ℚ) ^ p ≤ |q|) : p ≤ ilog2 q := by
  have h1 := lt_two_zpow_ilog2 q
  have := (zpow_lt_zpow_iff_right₀ (by norm_num : (1 : ℚ) < 2)).mp (lt_of_le_of_lt h h1)
  omega

/-- Rounding error of a value below `2^(p+1)` in magnitude: at most half the spacing
`2^(p - (prec - 1))` of the binade of exponent `p`. -/
theorem abs_roundFloat_sub_le_zpow {prec : Nat} {emin : Int} {q : ℚ} {p : Int} (hp : emin ≤ p)
    (hq : |q| < (2 : ℚ) ^ (p + 1)) :
    |roundFloat prec emin q - q| ≤ (2 : ℚ) ^ (p - (prec : Int)) := by
  by_cases hq0 : q = 0
  · subst hq0
    simp only [roundFloat, if_true, sub_self, abs_zero]
    positivity
  rw [roundFloat_of_ne hq0]
  set e := max (ilog2 q) emin with he
  set u := (2 : ℚ) ^ (e - ((prec : Int) - 1)) with hu
  have hu0 : 0 < u := by positivity
  have h1 : (roundHalfEven (q / u) : ℚ) * u - q = ((roundHalfEven (q / u) : ℚ) - q / u) * u := by
    field_simp
  rw [h1, abs_mul, abs_of_pos hu0]
  have h2 := abs_roundHalfEven_sub_le (q / u)
  have h3 : |(roundHalfEven (q / u) : ℚ) - q / u| * u ≤ 1 / 2 * u :=
    mul_le_mul_of_nonneg_right h2 hu0.le
  have h4 : 1 / 2 * u = (2 : ℚ) ^ (e - (prec : Int)) := by
    rw [hu, show e - ((prec : Int) - 1) = (e - (prec : Int)) + 1 by ring,
      zpow_add₀ (by norm_num : (2 : ℚ) ≠ 0), zpow_one]
    ring
  rw [h4] at h3
  refine le_trans h3 ?_
  have hlog : ilog2 q < p + 1 := ilog2_lt hq0 hq
  have hep : e ≤ p := max_le (by omega) hp
  exact zpow_le_zpow_right₀ (by norm_num) (by omega)

theorem abs_float32_sub_le {q : ℚ} {p : Int} (hp : -126 ≤ p) (hq : |q| < (2 : ℚ) ^ (p + 1)) :
    |float32 q - q| ≤ (2 : ℚ) ^ (p - 24) :=
  @abs_roundFloat_sub_le_zpow 24 (-126) q p hp hq

/-- A float of magnitude at least `2^p` is an integer multiple of the spacing
`2^(p - (prec - 1))`. -/
theorem IsFloat.multiple {prec : Nat} {emin : Int} {r : ℚ} (hr : IsFloat prec emin r) {p : Int}
    (h : (2 : ℚ) ^ p ≤ |r|) : ∃ z : Int, r = z * (2 : ℚ) ^ (p - ((prec : Int) - 1)) := by
  obtain ⟨m, j, hm, -, rfl⟩ := hr
  apply IsFloat.int_mul_ulp
  have h2 : |(m : ℚ) * (2 : ℚ) ^ j| < (2 : ℚ) ^ ((prec : Int) + j) := by
    rw [abs_mul, abs_of_pos (by positivity : (0 : ℚ) < (2 : ℚ) ^ j),
      zpow_add₀ (by norm_num : (2 : ℚ) ≠ 0), zpow_natCast]
    apply mul_lt_mul_of_pos_right _ (by positivity)
    have : ((|m| : Int) : ℚ) < ((2 ^ prec : Int) : ℚ) := by exact_mod_cast hm
    push_cast at this
    exact this
  have := (zpow_lt_zpow_iff_right₀ (by norm_num : (1 : ℚ) < 2)).mp (lt_of_le_of_lt h h2)
  omega

/-- An integer multiple `z * 2^k` with `|z| ≤ 2^prec` is a float. -/
theorem isFloat_of_multiple {prec : Nat} {emin : Int} (hp : 1 ≤ prec) {z k : Int}
    (hz : |z| ≤ 2 ^ prec) (hk : emin - ((prec : Int) - 1) ≤ k) :
    IsFloat prec emin ((z : ℚ) * (2 : ℚ) ^ k) := by
  rcases lt_or_eq_of_le hz with hlt | heq
  · exact ⟨z, k, hlt, hk, rfl⟩
  · have h1 : (1 : Int) < 2 ^ prec := by
      have : (2 : Int) ^ 1 ≤ 2 ^ prec := pow_le_pow_right₀ (by norm_num) hp
      omega
    rcases abs_eq (by positivity : (0 : Int) ≤ 2 ^ prec) |>.mp heq with h | h
    · refine ⟨1, k + prec, by simpa using h1, by omega, ?_⟩
      rw [h, zpow_add₀ (by norm_num : (2 : ℚ) ≠ 0), zpow_natCast]
      push_cast
      ring
    · refine ⟨-1, k + prec, by simpa using h1, by omega, ?_⟩
      rw [h, zpow_add₀ (by norm_num : (2 : ℚ) ≠ 0), zpow_natCast]
      push_cast
      ring

theorem roundHalfEven_sub_half {K : Int} (hK : K % 2 = 0) :
    roundHalfEven ((K : ℚ) - 1 / 2) = K := by
  have hf : ⌊(K : ℚ) - 1 / 2⌋ = K - 1 := by
    rw [Int.floor_eq_iff]
    push_cast
    constructor <;> linarith
  unfold roundHalfEven
  simp only [hf]
  push_cast
  have e : (K : ℚ) - 1 / 2 - ((K : ℚ) - 1) = 1 / 2 := by ring
  rw [e]
  simp only [lt_irrefl, if_false]
  have : (K - 1) % 2 ≠ 0 := by omega
  rw [if_neg this]
  ring

/-- Ties go to the even significand: half a spacing below a float whose significand `K`
is even and not the smallest of its binade, rounding gives that float. -/
theorem float32_tie_below {K j : Int} (hK1 : 2 ^ 23 < K) (hK2 : K < 2 ^ 24) (hK : K % 2 = 0)
    (hj : -149 ≤ j) :
    float32 (((K : ℚ) - 1 / 2) * (2 : ℚ) ^ j) = (K : ℚ) * (2 : ℚ) ^ j := by
  have hu0 : (0 : ℚ) < (2 : ℚ) ^ j := by positivity
  have hK1q : ((2 : ℚ) ^ 23) + 1 ≤ K := by exact_mod_cast (by omega : (2 : Int) ^ 23 + 1 ≤ K)
  have hK2q : (K : ℚ) < 2 ^ 24 := by exact_mod_cast hK2
  have hq0 : (0 : ℚ) < ((K : ℚ) - 1 / 2) * (2 : ℚ) ^ j := by
    apply mul_pos _ hu0
    have : (0 : ℚ) < 2 ^ 23 := by norm_num
    linarith
  have hlog : ilog2 (((K : ℚ) - 1 / 2) * (2 : ℚ) ^ j) = j + 23 := by
    apply le_antisymm
    · have : ilog2 (((K : ℚ) - 1 / 2) * (2 : ℚ) ^ j) < j + 24 := by
        apply ilog2_lt hq0.ne'
        rw [abs_of_pos hq0, show j + 24 = 24 + j by ring, zpow_add₀ (by norm_num : (2 : ℚ) ≠ 0)]
        apply mul_lt_mul_of_pos_right _ hu0
        norm_num
        linarith
      omega
    · apply le_ilog2
      rw [abs_of_pos hq0, show j + 23 = 23 + j by ring, zpow_add₀ (by norm_num : (2 : ℚ) ≠ 0)]
      apply mul_le_mul_of_nonneg_right _ hu0.le
      norm_num
      linarith
  unfold float32
  rw [roundFloat_of_ne hq0.ne', hlog]
  have hmax : max (j + 23) (-126) - (((24 : Nat) : Int) - 1) = j := by
    rw [max_eq_left (by omega)]
    push_cast
    ring
  rw [hmax, mul_div_assoc, div_self hu0.ne', mul_one, roundHalfEven_sub_half hK]

theorem isFloat_two_zpow {p : Int} (hp : -149 ≤ p) : IsFloat 24 (-126) ((2 : ℚ) ^ p) :=
  ⟨1, p, by norm_num, by push_cast; omega, by simp⟩

theorem le_float32_of_zpow_le {p : Int} (hp : -149 ≤ p) {q : ℚ} (h : (2 : ℚ) ^ p ≤ q) :
    (2 : ℚ) ^ p ≤ float32 q :=
  le_roundFloat (by norm_num) (isFloat_two_zpow hp) h

/-- The float32 sum of the float32 roundings of two positive parts `x ≥ y` of an integer
`m`, `2^e < m < 2^(e+1)`, is at least `m`: the two rounding errors add up to at most half
a spacing below `m`, where the tie goes to `m`. -/
theorem float32_split_ge (m : Int) (e : Nat) (he0 : 1 ≤ e) (he : e ≤ 22) (hm1 : 2 ^ e < m)
    (hm2 : m < 2 ^ (e + 1)) (x y : ℚ) (hxy : x + y = m) (hyx : y ≤ x)
    (hy : (2 : ℚ) ^ (-126 : Int) ≤ y) :
    (m : ℚ) ≤ float32 (float32 x + float32 y) := by
  -- the spacing `G` of the binade of `m` and the significand `K` of `m`
  set G : ℚ := (2 : ℚ) ^ ((e : Int) - 23) with hG
  have hG0 : 0 < G := by positivity
  have hGe : G * 2 ^ (23 - e) = 1 := by
    rw [hG, ← zpow_natCast, ← zpow_add₀ (by norm_num : (2 : ℚ) ≠ 0)]
    have : (e : Int) - 23 + ((23 - e : Nat) : Int) = 0 := by omega
    rw [this, zpow_zero]
  have h2e : (2 : ℚ) ^ (e : Int) = 2 ^ 23 * G := by
    rw [hG, ← zpow_natCast, ← zpow_add₀ (by norm_num : (2 : ℚ) ≠ 0)]
    congr 1
    push_cast
    ring
  have hmK : (m : ℚ) = ((m * 2 ^ (23 - e) : Int) : ℚ) * G := by
    push_cast
    rw [mul_assoc, mul_comm _ G, hGe, mul_one]
  have hm1q : (2 : ℚ) ^ (e : Int) < m := by
    rw [zpow_natCast]; exact_mod_cast hm1
  have hm2q : (m : ℚ) < (2 : ℚ) ^ ((e : Int) + 1) := by
    have : (m : ℚ) < ((2 ^ (e + 1) : Int) : ℚ) := by exact_mod_cast hm2
    rw [show ((e : Int) + 1) = ((e + 1 : Nat) : Int) by push_cast; ring, zpow_natCast]
    exact_mod_cast this
  have hKev : (m * 2 ^ (23 - e)) % 2 = 0 := by
    have : (2 : Int) ^ (23 - e) = 2 * 2 ^ (22 - e) := by
      rw [← pow_succ']; congr 1; omega
    rw [this, ← mul_assoc, mul_comm m 2, mul_assoc]
    exact Int.mul_emod_right _ _
  have hpow : (2 : Int) ^ e * 2 ^ (23 - e) = 2 ^ 23 := by
    rw [← pow_add]; congr 1; omega
  have hpow' : (2 : Int) ^ (e + 1) * 2 ^ (23 - e) = 2 ^ 24 := by
    rw [← pow_add]; congr 1; omega
  have hpos : (0 : Int) < 2 ^ (23 - e) := by positivity
  have hK1 : (2 : Int) ^ 23 < m * 2 ^ (23 - e) := by
    rw [← hpow]; exact mul_lt_mul_of_pos_right hm1 hpos
  have hK2 : m * 2 ^ (23 - e) < (2 : Int) ^ 24 := by
    rw [← hpow']; exact mul_lt_mul_of_pos_right hm2 hpos
  have htie := @float32_tie_below (m * 2 ^ (23 - e)) ((e : Int) - 23) hK1 hK2 hKev (by omega)
  rw [← hG, ← hmK] at htie
  -- it suffices to bound the sum from below by the midpoint
  suffices hS : (m : ℚ) - G / 2 ≤ float32 x + float32 y by
    have := float32_mono hS
    rw [show (m : ℚ) - G / 2 = (((m * 2 ^ (23 - e) : Int) : ℚ) - 1 / 2) * G by
      rw [sub_mul, ← hmK]; ring, htie] at this
    exact this
  have hy0 : 0 < y := lt_of_lt_of_le (by positivity) hy
  have hx0 : 0 < x := lt_of_lt_of_le hy0 hyx
  have hxm : x < (2 : ℚ) ^ ((e : Int) + 1) := by linarith
  have hyh : y < (2 : ℚ) ^ (e : Int) := by
    have h1 : (2 : ℚ) ^ ((e : Int) + 1) = 2 * (2 : ℚ) ^ (e : Int) := by
      rw [zpow_add₀ (by norm_num : (2 : ℚ) ≠ 0), zpow_one]; ring
    linarith
  have hG4 : (2 : ℚ) ^ ((e : Int) - 1 - 24) = G / 4 := by
    rw [hG, show (e : Int) - 1 - 24 = ((e : Int) - 23) + (-2) by ring,
      zpow_add₀ (by norm_num : (2 : ℚ) ≠ 0)]
    norm_num
    ring
  have hG2 : (2 : ℚ) ^ ((e : Int) - 24) = G / 2 := by
    rw [hG, show (e : Int) - 24 = ((e : Int) - 23) + (-1) by ring,
      zpow_add₀ (by norm_num : (2 : ℚ) ≠ 0)]
    norm_num
    ring
  -- error of the smaller part: at most a quarter of the spacing
  have hb4 : |float32 y - y| ≤ G / 4 := by
    rw [← hG4]
    apply abs_float32_sub_le (by omega)
    rw [abs_of_pos hy0, show (e : Int) - 1 + 1 = e by ring]
    exact hyh
  rcases lt_or_le x ((2 : ℚ) ^ (e : Int)) with hxl | hxg
  · -- both parts lie below the binade of `m`
    have ha4 : |float32 x - x| ≤ G / 4 := by
      rw [← hG4]
      apply abs_float32_sub_le (by omega)
      rw [abs_of_pos hx0, show (e : Int) - 1 + 1 = e by ring]
      exact hxl
    have h1 := (abs_le.mp ha4).1
    have h2 := (abs_le.mp hb4).1
    linarith
  · -- the larger part lies in the binade of `m`: it rounds to a multiple of `G`
    have ha2 : |float32 x - x| ≤ G / 2 := by
      rw [← hG2]
      apply abs_float32_sub_le (by omega)
      rw [abs_of_pos hx0]
      exact hxm
    have hage : (2 : ℚ) ^ (e : Int) ≤ float32 x := le_float32_of_zpow_le (by omega) hxg
    obtain ⟨za, hza⟩ := (float32_isFloat x).multiple
      (p := (e : Int)) (by rw [abs_of_nonneg (le_trans (by positivity) hage)]; exact hage)
    have hza' : float32 x = za * G := by
      rw [hza, hG]; congr 2
    -- the binade `p` of the smaller part
    have hp1 : (2 : ℚ) ^ ilog2 y ≤ y := by
      have := two_zpow_ilog2_le hy0.ne'
      rwa [abs_of_pos hy0] at this
    have hp2 : y < (2 : ℚ) ^ (ilog2 y + 1) := by
      have := lt_two_zpow_ilog2 y
      rwa [abs_of_pos hy0] at this
    have hpe : ilog2 y < (e : Int) := by
      apply ilog2_lt hy0.ne'
      rw [abs_of_pos hy0]
      have : y ≤ (m : ℚ) - (2 : ℚ) ^ (e : Int) := by linarith
      have h1 : (2 : ℚ) ^ ((e : Int) + 1) = 2 * (2 : ℚ) ^ (e : Int) := by
        rw [zpow_add₀ (by norm_num : (2 : ℚ) ≠ 0), zpow_one]; ring
      linarith
    have hp126 : -126 ≤ ilog2 y := le_ilog2 (by rw [abs_of_pos hy0]; exact hy)
    set p := ilog2 y with hp
    set gB : ℚ := (2 : ℚ) ^ (p - 23) with hgB
    have hgB0 : 0 < gB := by positivity
    have hbB : |float32 y - y| ≤ gB / 2 := by
      have := @abs_float32_sub_le y p hp126 (by rw [abs_of_pos hy0]; exact hp2)
      rw [show p - 24 = (p - 23) + (-1) by ring, zpow_add₀ (by norm_num : (2 : ℚ) ≠ 0)] at this
      rw [hgB]
      norm_num at this ⊢
      linarith
    have hbge : (2 : ℚ) ^ p ≤ float32 y := le_float32_of_zpow_le (by omega) hp1
    obtain ⟨zb, hzb⟩ := (float32_isFloat y).multiple
      (p := p) (by rw [abs_of_nonneg (le_trans (by positivity) hbge)]; exact hbge)
    have hzb' : float32 y = zb * gB := by
      rw [hzb, hgB]; congr 2
    -- `G` is an even multiple of the finer spacing `gB`
    have hGg : G = 2 ^ ((e : Int) - p - 1).toNat * 2 * gB := by
      rw [hG, hgB, ← zpow_natCast, mul_assoc, ← zpow_one_add₀ (by norm_num : (2 : ℚ) ≠ 0),
        ← zpow_add₀ (by norm_num : (2 : ℚ) ≠ 0)]
      congr 1
      omega
    -- the excess over the midpoint is an integer number of `gB`
    have hT : float32 x + float32 y - ((m : ℚ) - G / 2)
        = (((za - m * 2 ^ (23 - e)) * (2 ^ ((e : Int) - p - 1).toNat * 2) + zb
            + 2 ^ ((e : Int) - p - 1).toNat : Int) : ℚ) * gB := by
      rw [hza', hzb', hmK]
      push_cast
      rw [hGg]
      ring
    have h1 := (abs_le.mp ha2).1
    have h2 := (abs_le.mp hbB).1
    have hlow : -(gB / 2) ≤ float32 x + float32 y - ((m : ℚ) - G / 2) := by linarith
    rw [hT] at hlow
    set t : Int := (za - m * 2 ^ (23 - e)) * (2 ^ ((e : Int) - p - 1).toNat * 2) + zb
            + 2 ^ ((e : Int) - p - 1).toNat with ht
    have ht0 : 0 ≤ t := by
      by_contra hneg
      push_neg at hneg
      have : (t : ℚ) ≤ -1 := by exact_mod_cast (by omega : t ≤ -1)
      have : (t : ℚ) * gB ≤ -1 * gB := mul_le_mul_of_nonneg_right this hgB0.le
      linarith
    have : 0 ≤ (t : ℚ) * gB := mul_nonneg (by exact_mod_cast ht0) hgB0.le
    linarith

theorem float32_zero : float32 0 = 0 := by
  simp [float32, roundFloat]

theorem float32_multiple {z k : Int} (hz : |z| ≤ 2 ^ 24) (hk : -149 ≤ k) :
    float32 ((z : ℚ) * (2 : ℚ) ^ k) = (z : ℚ) * (2 : ℚ) ^ k :=
  float32_eq_self (isFloat_of_multiple (by norm_num) hz (by push_cast; omega))

/-- Blending a value with itself, with float32 weights `1 - k / 2^24` and `k / 2^24`,
never gives less than the value: the core of the lower bound of a bilinear sample. -/
theorem float32_blend_self_ge (m : Nat) (hm : m ≤ 255) (k : Int) (hk0 : 0 ≤ k)
    (hk : k ≤ 2 ^ 24) :
    (m : ℚ) ≤ float32 (float32 ((1 - (k : ℚ) * (2 : ℚ) ^ (-24 : Int)) * m)
      + float32 ((k : ℚ) * (2 : ℚ) ^ (-24 : Int) * m)) := by
  rcases Nat.eq_zero_or_pos m with h0 | hpos
  · subst h0
    simp [float32_zero]
  have hmne : m ≠ 0 := by omega
  have he1 : 2 ^ m.log2 ≤ m := Nat.log2_self_le hmne
  have he2 : m < 2 ^ (m.log2 + 1) := Nat.lt_log2_self
  have he7 : m.log2 ≤ 7 := by
    by_contra hc
    push_neg at hc
    have : 2 ^ 8 ≤ 2 ^ m.log2 := Nat.pow_le_pow_right (by norm_num) hc
    omega
  set e := m.log2 with he
  have hx : (1 - (k : ℚ) * (2 : ℚ) ^ (-24 : Int)) * m
      = ((2 ^ 24 - k : Int) : ℚ) * (2 : ℚ) ^ (-24 : Int) * m := by
    push_cast
    have : ((2 : ℚ) ^ 24) * (2 : ℚ) ^ (-24 : Int) = 1 := by norm_num
    linear_combination (-(m : ℚ)) * this
  have hsum : (1 - (k : ℚ) * (2 : ℚ) ^ (-24 : Int)) * m + (k : ℚ) * (2 : ℚ) ^ (-24 : Int) * m
      = ((m : Int) : ℚ) := by
    push_cast; ring
  rcases Nat.eq_or_lt_of_le he1 with heq | hlt
  · -- a power of two: both products are exact
    have hpw : ∀ z : Int, (z : ℚ) * (2 : ℚ) ^ (-24 : Int) * m
        = (z : ℚ) * (2 : ℚ) ^ ((e : Int) - 24) := by
      intro z
      rw [← heq, sub_eq_add_neg, zpow_add₀ (by norm_num : (2 : ℚ) ≠ 0), zpow_natCast]
      push_cast
      ring
    have h1 : float32 ((1 - (k : ℚ) * (2 : ℚ) ^ (-24 : Int)) * m)
        = (1 - (k : ℚ) * (2 : ℚ) ^ (-24 : Int)) * m := by
      rw [hx, hpw]
      exact float32_multiple (by rw [abs_le]; constructor <;> omega) (by omega)
    have h2 : float32 ((k : ℚ) * (2 : ℚ) ^ (-24 : Int) * m)
        = (k : ℚ) * (2 : ℚ) ^ (-24 : Int) * m := by
      rw [hpw]
      exact float32_multiple (by rw [abs_le]; constructor <;> omega) (by omega)
    rw [h1, h2, hsum]
    have := @float32_intCast (m : Int) (by rw [abs_of_nonneg (by omega)]; omega)
    rw [this]
    push_cast
    exact le_rfl
  · have he0 : 1 ≤ e := by
      by_contra hc
      have : e = 0 := by omega
      rw [this] at hlt he2
      omega
    have hm1 : (2 : Int) ^ e < (m : Int) := by exact_mod_cast hlt
    have hm2 : (m : Int) < 2 ^ (e + 1) := by exact_mod_cast he2
    have hmq : (1 : ℚ) ≤ m := by exact_mod_cast hpos
    rcases eq_or_lt_of_le hk0 with hk00 | hkpos
    · -- weight zero on the second value
      rw [← hk00]
      simp only [Int.cast_zero, zero_mul, sub_zero, one_mul, float32_zero, add_zero]
      have := @float32_intCast (m : Int) (by rw [abs_of_nonneg (by omega)]; omega)
      push_cast at this
      rw [this, this]
    rcases eq_or_lt_of_le hk with hk24 | hklt
    · -- weight zero on the first value
      have h1 : (1 - (k : ℚ) * (2 : ℚ) ^ (-24 : Int)) = 0 := by
        rw [hk24]; norm_num
      have h2 : (k : ℚ) * (2 : ℚ) ^ (-24 : Int) = 1 := by
        rw [hk24]; norm_num
      rw [h1, h2]
      simp only [zero_mul, one_mul, float32_zero, zero_add]
      have := @float32_intCast (m : Int) (by rw [abs_of_nonneg (by omega)]; omega)
      push_cast at this
      rw [this, this]
    -- both parts are at least `2^-24`
    have hsmall : (2 : ℚ) ^ (-126 : Int) ≤ (2 : ℚ) ^ (-24 : Int) :=
      zpow_le_zpow_right₀ (by norm_num) (by norm_num)
    have hp24 : (0 : ℚ) < (2 : ℚ) ^ (-24 : Int) := by positivity
    have hy : (2 : ℚ) ^ (-126 : Int) ≤ (k : ℚ) * (2 : ℚ) ^ (-24 : Int) * m := by
      have hk1 : (1 : ℚ) ≤ k := by exact_mod_cast (by omega : (1 : Int) ≤ k)
      have : (1 : ℚ) * (2 : ℚ) ^ (-24 : Int) * 1 ≤ (k : ℚ) * (2 : ℚ) ^ (-24 : Int) * m :=
        mul_le_mul (mul_le_mul_of_nonneg_right hk1 hp24.le) hmq (by norm_num)
          (by positivity)
      linarith
    have hxl : (2 : ℚ) ^ (-126 : Int) ≤ (1 - (k : ℚ) * (2 : ℚ) ^ (-24 : Int)) * m := by
      rw [hx]
      have hk1 : (1 : ℚ) ≤ ((2 ^ 24 - k : Int) : ℚ) := by
        exact_mod_cast (by omega : (1 : Int) ≤ 2 ^ 24 - k)
      have : (1 : ℚ) * (2 : ℚ) ^ (-24 : Int) * 1
          ≤ ((2 ^ 24 - k : Int) : ℚ) * (2 : ℚ) ^ (-24 : Int) * m :=
        mul_le_mul (mul_le_mul_of_nonneg_right hk1 hp24.le) hmq (by norm_num)
          (by positivity)
      linarith
    rcases le_total ((k : ℚ) * (2 : ℚ) ^ (-24 : Int) * m)
        ((1 - (k : ℚ) * (2 : ℚ) ^ (-24 : Int)) * m) with hle | hle
    · have := float32_split_ge (m : Int) e he0 (by omega) hm1 hm2 _ _ hsum hle hy
      exact_mod_cast this
    · have := float32_split_ge (m : Int) e he0 (by omega) hm1 hm2 _ _
        (by rw [add_comm]; exact hsum) hle hxl
      rw [add_comm] at this
      exact_mod_cast this

theorem float32_blend_mono {u v a a' b b' : ℚ} (hu : 0 ≤ u) (hv : 0 ≤ v) (ha : a ≤ a')
    (hb : b ≤ b') :
    float32 (float32 (u * a) + float32 (v * b)) ≤ float32 (float32 (u * a') + float32 (v * b')) :=
  float32_mono (add_le_add (float32_mono (mul_le_mul_of_nonneg_left ha hu))
    (float32_mono (mul_le_mul_of_nonneg_left hb hv)))

theorem float32_blend_nonneg {u v a b : ℚ} (hu : 0 ≤ u) (hv : 0 ≤ v) (ha : 0 ≤ a)
    (hb : 0 ≤ b) : 0 ≤ float32 (float32 (u * a) + float32 (v * b)) :=
  float32_nonneg (add_nonneg (float32_nonneg (mul_nonneg hu ha))
    (float32_nonneg (mul_nonneg hv hb)))

/-- Upper bound of a blend with weights of sum one: the three roundings add a relative
error of about `2^-23`. -/
theorem float32_blend_le {u v a b B : ℚ} (hu : 0 ≤ u) (hv : 0 ≤ v) (huv : u + v = 1)
    (ha0 : 0 ≤ a) (ha : a ≤ B) (hb0 : 0 ≤ b) (hb : b ≤ B) :
    float32 (float32 (u * a) + float32 (v * b))
      ≤ (B * (1 + 1 / 2 ^ 24) + 2 / 2 ^ 150) * (1 + 1 / 2 ^ 24) + 1 / 2 ^ 150 := by
  have h1 := float32_le_of_nonneg (mul_nonneg hu ha0)
  have h2 := float32_le_of_nonneg (mul_nonneg hv hb0)
  have h3 := float32_le_of_nonneg (add_nonneg (float32_nonneg (mul_nonneg hu ha0))
    (float32_nonneg (mul_nonneg hv hb0)))
  have h4 : u * a ≤ u * B := mul_le_mul_of_nonneg_left ha hu
  have h5 : v * b ≤ v * B := mul_le_mul_of_nonneg_left hb hv
  have h6 : u * B + v * B = B := by rw [← add_mul, huv, one_mul]
  have h7 : float32 (u * a) + float32 (v * b) ≤ B * (1 + 1 / 2 ^ 24) + 2 / 2 ^ 150 := by
    have e1 : (u * a) * (1 + 1 / 2 ^ 24) ≤ (u * B) * (1 + 1 / 2 ^ 24) :=
      mul_le_mul_of_nonneg_right h4 (by norm_num)
    have e2 : (v * b) * (1 + 1 / 2 ^ 24) ≤ (v * B) * (1 + 1 / 2 ^ 24) :=
      mul_le_mul_of_nonneg_right h5 (by norm_num)
    have e3 : (u * B) * (1 + 1 / 2 ^ 24) + (v * B) * (1 + 1 / 2 ^ 24)
        = B * (1 + 1 / 2 ^ 24) := by rw [← add_mul, h6]
    linarith
  have h8 : (float32 (u * a) + float32 (v * b)) * (1 + 1 / 2 ^ 24)
      ≤ (B * (1 + 1 / 2 ^ 24) + 2 / 2 ^ 150) * (1 + 1 / 2 ^ 24) :=
    mul_le_mul_of_nonneg_right h7 (by norm_num)
  linarith

/-! ## The float32 weights and the range of a resampled value -/

theorem resizePixel_eq_byteOfFloat (fl : ℚ → ℚ) (g : NoiseImage) (w h x y : Int) :
    resizePixel fl g w h x y = byteOfFloat (resizeValue fl g w h x y) := rfl

/-- The float32 source coordinate is a non-negative float and a multiple of `2^-24`. -/
theorem sourceCoord_float32_grid (n d i : Int) :
    0 ≤ sourceCoord float32 n d i ∧ IsFloat 24 (-126) (sourceCoord float32 n d i) ∧
    ∃ k : Int, sourceCoord float32 n d i = (k : ℚ) * (2 : ℚ) ^ (-24 : Int) := by
  unfold sourceCoord
  simp only
  have htf : IsFloat 24 (-126)
      (float32 (float32 (float32 (i : ℚ) + 1 / 2) * float32 (float32 (n : ℚ) / float32 (d : ℚ)))) :=
    float32_isFloat _
  generalize float32 (float32 (float32 (i : ℚ) + 1 / 2)
    * float32 (float32 (n : ℚ) / float32 (d : ℚ))) = t at htf ⊢
  split
  · exact ⟨le_rfl, ⟨0, 0, by norm_num, by norm_num, by simp⟩, ⟨0, by simp⟩⟩
  · next hneg =>
    push_neg at hneg
    refine ⟨hneg, float32_isFloat _, ?_⟩
    by_cases hth : (1 : ℚ) / 2 ≤ t
    · obtain ⟨z, hz⟩ := htf.multiple (p := -1)
        (by rw [abs_of_nonneg (by linarith)]; norm_num; linarith)
      have hz' : t = (z : ℚ) * (2 : ℚ) ^ (-24 : Int) := by
        rw [hz]; norm_num
      have hq : t - 1 / 2 = ((z - 2 ^ 23 : Int) : ℚ) * (2 : ℚ) ^ (-24 : Int) := by
        rw [hz']; push_cast; norm_num; ring
      have hp24 : (0 : ℚ) < (2 : ℚ) ^ (-24 : Int) := by positivity
      have hz0 : (0 : ℚ) ≤ ((z - 2 ^ 23 : Int) : ℚ) := by
        have : (0 : ℚ) ≤ ((z - 2 ^ 23 : Int) : ℚ) * (2 : ℚ) ^ (-24 : Int) := by
          rw [← hq]; linarith
        exact nonneg_of_mul_nonneg_left this hp24
      have hz0' : 0 ≤ z - 2 ^ 23 := by exact_mod_cast hz0
      by_cases hq1 : t - 1 / 2 < 1
      · have hlt : ((z - 2 ^ 23 : Int) : ℚ) < 2 ^ 24 := by
          rw [hq] at hq1
          have : ((z - 2 ^ 23 : Int) : ℚ) * (2 : ℚ) ^ (-24 : Int)
              < (2 : ℚ) ^ 24 * (2 : ℚ) ^ (-24 : Int) := by
            have e : (2 : ℚ) ^ 24 * (2 : ℚ) ^ (-24 : Int) = 1 := by norm_num
            rw [e]; exact hq1
          exact lt_of_mul_lt_mul_right this hp24.le
        have hlt' : z - 2 ^ 23 < 2 ^ 24 := by exact_mod_cast hlt
        refine ⟨z - 2 ^ 23, ?_⟩
        rw [hq]
        exact float32_multiple (by rw [abs_le]; constructor <;> omega) (by norm_num)
      · push_neg at hq1
        have h1 : (2 : ℚ) ^ (0 : Int) ≤ float32 (t - 1 / 2) :=
          le_float32_of_zpow_le (by norm_num) (by simpa using hq1)
        obtain ⟨z', hz'⟩ := (float32_isFloat (t - 1 / 2)).multiple (p := 0)
          (by rw [abs_of_nonneg hneg]; exact h1)
        refine ⟨2 * z', ?_⟩
        rw [hz']
        push_cast
        norm_num
        ring
    · push_neg at hth
      have : float32 (t - 1 / 2) ≤ 0 := float32_nonpos (by linarith)
      refine ⟨0, ?_⟩
      have : float32 (t - 1 / 2) = 0 := le_antisymm this hneg
      rw [this]
      simp

/-- The integer part of a non-negative float32 value is a float32 value. -/
theorem float32_floor {r : ℚ} (hr : IsFloat 24 (-126) r) (h0 : 0 ≤ r) :
    float32 ((⌊r⌋ : Int) : ℚ) = ((⌊r⌋ : Int) : ℚ) := by
  have hf0 : 0 ≤ ⌊r⌋ := Int.floor_nonneg.mpr h0
  by_cases h : r < 2 ^ 24
  · apply float32_intCast
    rw [abs_of_nonneg hf0]
    have : (⌊r⌋ : ℚ) < ((2 ^ 24 : Int) : ℚ) := by
      push_cast
      exact lt_of_le_of_lt (Int.floor_le r) h
    exact_mod_cast this
  · push_neg at h
    obtain ⟨z, hz⟩ := hr.multiple (p := 24)
      (by rw [abs_of_nonneg h0]; exact_mod_cast h)
    have hz' : r = ((2 * z : Int) : ℚ) := by
      rw [hz]; push_cast; norm_num; ring
    have : ((⌊r⌋ : Int) : ℚ) = r := by
      rw [hz', Int.floor_intCast]
    rw [this]
    exact float32_eq_self hr

/-- The float32 weights are exact: `fracx` is the fractional part of `sx`, a multiple
`k / 2^24` with `0 ≤ k < 2^24`, and `1 - fracx` is computed without rounding. -/
theorem fracPart_float32 (n d i : Int) :
    ∃ k : Int, 0 ≤ k ∧ k < 2 ^ 24 ∧
      fracPart float32 n d i = (k : ℚ) * (2 : ℚ) ^ (-24 : Int) ∧
      float32 (1 - fracPart float32 n d i) = 1 - (k : ℚ) * (2 : ℚ) ^ (-24 : Int) := by
  obtain ⟨h0, hf, ks, hks⟩ := sourceCoord_float32_grid n d i
  have hlow : lowIndex float32 n d i = ⌊sourceCoord float32 n d i⌋ := by
    simp [lowIndex, truncToInt, h0]
  have hp24 : (0 : ℚ) < (2 : ℚ) ^ (-24 : Int) := by positivity
  have e24 : (16777216 : ℚ) * (2 : ℚ) ^ (-24 : Int) = 1 := by norm_num
  have hfr : sourceCoord float32 n d i - ((⌊sourceCoord float32 n d i⌋ : Int) : ℚ)
      = ((ks - ⌊sourceCoord float32 n d i⌋ * 2 ^ 24 : Int) : ℚ) * (2 : ℚ) ^ (-24 : Int) := by
    push_cast
    linear_combination hks + (⌊sourceCoord float32 n d i⌋ : ℚ) * e24
  have hfr0 : 0 ≤ sourceCoord float32 n d i - ((⌊sourceCoord float32 n d i⌋ : Int) : ℚ) :=
    sub_nonneg.mpr (Int.floor_le _)
  have hfr1 : sourceCoord float32 n d i - ((⌊sourceCoord float32 n d i⌋ : Int) : ℚ) < 1 := by
    have := Int.lt_floor_add_one (sourceCoord float32 n d i)
    linarith
  set k := ks - ⌊sourceCoord float32 n d i⌋ * 2 ^ 24 with hk
  have hk0 : 0 ≤ k := by
    have : (0 : ℚ) ≤ (k : ℚ) := by
      rw [hfr] at hfr0
      exact nonneg_of_mul_nonneg_left hfr0 hp24
    exact_mod_cast this
  have hk1 : k < 2 ^ 24 := by
    have : (k : ℚ) < 16777216 := by
      rw [hfr, ← e24] at hfr1
      exact lt_of_mul_lt_mul_right hfr1 hp24.le
    exact_mod_cast this
  have hfrac : fracPart float32 n d i = (k : ℚ) * (2 : ℚ) ^ (-24 : Int) := by
    unfold fracPart
    rw [hlow, float32_floor hf h0, hfr]
    exact float32_multiple (by rw [abs_le]; constructor <;> omega) (by norm_num)
  refine ⟨k, hk0, hk1, hfrac, ?_⟩
  rw [hfrac]
  have : (1 : ℚ) - (k : ℚ) * (2 : ℚ) ^ (-24 : Int)
      = ((2 ^ 24 - k : Int) : ℚ) * (2 : ℚ) ^ (-24 : Int) := by
    push_cast
    linear_combination (-1 : ℚ) * e24
  rw [this]
  exact float32_multiple (by rw [abs_le]; constructor <;> omega) (by norm_num)

theorem resizeValue_eq (fl : ℚ → ℚ) (g : NoiseImage) (w h x y : Int) :
    resizeValue fl g w h x y
      = fl (fl (fl (1 - fracPart fl g.Height h y)
            * fl (fl (fl (1 - fracPart fl g.Width w x)
                  * fl (g.Image.GrayAt (lowIndex fl g.Width w x) (lowIndex fl g.Height h y)))
                + fl (fracPart fl g.Width w x
                  * fl (g.Image.GrayAt (highIndex fl g.Width w x) (lowIndex fl g.Height h y)))))
          + fl (fracPart fl g.Height h y
            * fl (fl (fl (1 - fracPart fl g.Width w x)
                  * fl (g.Image.GrayAt (lowIndex fl g.Width w x) (highIndex fl g.Height h y)))
                + fl (fracPart fl g.Width w x
                  * fl (g.Image.GrayAt (highIndex fl g.Width w x)
                      (highIndex fl g.Height h y)))))) := rfl

theorem blend_bound_step {B M s : ℚ} (hB : B ≤ M + s) (hM : M ≤ 255) (hs : s ≤ 1 / 2) :
    (B * (1 + 1 / 2 ^ 24) + 2 / 2 ^ 150) * (1 + 1 / 2 ^ 24) + 1 / 2 ^ 150 ≤ M + s + 1 / 4 := by
  have h1 : (B * (1 + 1 / 2 ^ 24) + 2 / 2 ^ 150) * (1 + 1 / 2 ^ 24) + 1 / 2 ^ 150
      = B + B * ((1 + 1 / 2 ^ 24) ^ 2 - 1)
        + (2 / 2 ^ 150 * (1 + 1 / 2 ^ 24) + 1 / 2 ^ 150) := by ring
  have h2 : B * ((1 + 1 / 2 ^ 24) ^ 2 - 1) ≤ (511 / 2) * ((1 + 1 / 2 ^ 24) ^ 2 - 1) :=
    mul_le_mul_of_nonneg_right (by linarith) (by norm_num)
  have h3 : (511 / 2 : ℚ) * ((1 + 1 / 2 ^ 24) ^ 2 - 1)
      + (2 / 2 ^ 150 * (1 + 1 / 2 ^ 24) + 1 / 2 ^ 150) ≤ 1 / 4 := by norm_num
  linarith

/-- Range of the float32 value `rf`: it is at least every lower bound `m` of the four
samples read, and less than `M + 1` for every upper bound `M ≤ 255` of them. -/
theorem resizeValue_float32_bounds (g : NoiseImage) (w h x y : Int) (m M : Nat) (hM : M ≤ 255)
    (h1 : m ≤ g.Image.GrayAt (lowIndex float32 g.Width w x) (lowIndex float32 g.Height h y) ∧
      g.Image.GrayAt (lowIndex float32 g.Width w x) (lowIndex float32 g.Height h y) ≤ M)
    (h2 : m ≤ g.Image.GrayAt (highIndex float32 g.Width w x) (lowIndex float32 g.Height h y) ∧
      g.Image.GrayAt (highIndex float32 g.Width w x) (lowIndex float32 g.Height h y) ≤ M)
    (h3 : m ≤ g.Image.GrayAt (lowIndex float32 g.Width w x) (highIndex float32 g.Height h y) ∧
      g.Image.GrayAt (lowIndex float32 g.Width w x) (highIndex float32 g.Height h y) ≤ M)
    (h4 : m ≤ g.Image.GrayAt (highIndex float32 g.Width w x) (highIndex float32 g.Height h y) ∧
      g.Image.GrayAt (highIndex float32 g.Width w x) (highIndex float32 g.Height h y) ≤ M) :
    (m : ℚ) ≤ resizeValue float32 g w h x y ∧ resizeValue float32 g w h x y < (M : ℚ) + 1 := by
  obtain ⟨kx, hkx0, hkx1, hfx, hifx⟩ := fracPart_float32 g.Width w x
  obtain ⟨ky, hky0, hky1, hfy, hify⟩ := fracPart_float32 g.Height h y
  have hp24 : (0 : ℚ) < (2 : ℚ) ^ (-24 : Int) := by positivity
  have e24 : (2 : ℚ) ^ 24 * (2 : ℚ) ^ (-24 : Int) = 1 := by norm_num
  have hvx : 0 ≤ (kx : ℚ) * (2 : ℚ) ^ (-24 : Int) :=
    mul_nonneg (by exact_mod_cast hkx0) hp24.le
  have hvy : 0 ≤ (ky : ℚ) * (2 : ℚ) ^ (-24 : Int) :=
    mul_nonneg (by exact_mod_cast hky0) hp24.le
  have hux : 0 ≤ 1 - (kx : ℚ) * (2 : ℚ) ^ (-24 : Int) := by
    have : (kx : ℚ) ≤ 2 ^ 24 := by exact_mod_cast hkx1.le
    have := mul_le_mul_of_nonneg_right this hp24.le
    linarith
  have huy : 0 ≤ 1 - (ky : ℚ) * (2 : ℚ) ^ (-24 : Int) := by
    have : (ky : ℚ) ≤ 2 ^ 24 := by exact_mod_cast hky1.le
    have := mul_le_mul_of_nonneg_right this hp24.le
    linarith
  have hc : ∀ c : Nat, c ≤ M → float32 (c : ℚ) = c :=
    fun c hc => float32_natCast (by omega)
  rw [resizeValue_eq, hifx, hify, hfx, hfy, hc _ h1.2, hc _ h2.2, hc _ h3.2, hc _ h4.2]
  have hmM : m ≤ M := le_trans h1.1 h1.2
  have hq : ∀ {c : Nat}, m ≤ c → (m : ℚ) ≤ (c : ℚ) := fun h => by exact_mod_cast h
  have hQ : ∀ {c : Nat}, c ≤ M → (c : ℚ) ≤ (M : ℚ) := fun h => by exact_mod_cast h
  have hn : ∀ c : Nat, (0 : ℚ) ≤ (c : ℚ) := fun c => by positivity
  constructor
  · -- lower bound: blend the lower bound with itself
    have hl0 := le_trans (float32_blend_self_ge m (by omega) kx hkx0 hkx1.le)
      (float32_blend_mono hux hvx (hq h1.1) (hq h2.1))
    have hl1 := le_trans (float32_blend_self_ge m (by omega) kx hkx0 hkx1.le)
      (float32_blend_mono hux hvx (hq h3.1) (hq h4.1))
    exact le_trans (float32_blend_self_ge m (by omega) ky hky0 hky1.le)
      (float32_blend_mono huy hvy hl0 hl1)
  · -- upper bound: six roundings of relative error `2^-24`
    have hM' : (M : ℚ) ≤ 255 := by exact_mod_cast hM
    have hM0 : (0 : ℚ) ≤ (M : ℚ) := by positivity
    have hs := @blend_bound_step (M : ℚ) (M : ℚ) 0 (by linarith) hM' (by norm_num)
    have hs' := @blend_bound_step ((M : ℚ) + 1 / 4) (M : ℚ) (1 / 4) le_rfl hM' (by norm_num)
    have hl0 : _ ≤ (M : ℚ) + 1 / 4 := le_trans
      (float32_blend_le hux hvx (by ring) (hn _) (hQ h1.2) (hn _) (hQ h2.2)) (by linarith)
    have hl1 : _ ≤ (M : ℚ) + 1 / 4 := le_trans
      (float32_blend_le hux hvx (by ring) (hn _) (hQ h3.2) (hn _) (hQ h4.2)) (by linarith)
    have hr := float32_blend_le huy hvy (by ring)
      (float32_blend_nonneg hux hvx (hn _) (hn _)) hl0
      (float32_blend_nonneg hux hvx (hn _) (hn _)) hl1
    exact lt_of_le_of_lt (le_trans hr hs') (by linarith)

/-! ## Range and monotonicity of `Resize` in float32 arithmetic -/

/-- The byte stored for a float32 value `rf` with `m ≤ rf < M + 1 ≤ 256`. -/
theorem byteOfFloat_mem {q : ℚ} {m M : Nat} (hM : M ≤ 255) (h1 : (m : ℚ) ≤ q)
    (h2 : q < (M : ℚ) + 1) :
    (byteOfFloat q : Int) = ⌊q⌋ ∧ m ≤ byteOfFloat q ∧ byteOfFloat q ≤ M := by
  have h0 : 0 ≤ q := le_trans (by positivity) h1
  have h256 : q < 256 := by
    have : (M : ℚ) ≤ 255 := by exact_mod_cast hM
    linarith
  have hb := byteOfFloat_eq_floor h0 h256
  have hlo : (m : Int) ≤ ⌊q⌋ := Int.le_floor.mpr (by exact_mod_cast h1)
  have hhi : ⌊q⌋ < (M : Int) + 1 := Int.floor_lt.mpr (by push_cast; exact h2)
  refine ⟨hb, ?_, ?_⟩ <;> omega

/-- C17. For every source grid (`ws, hs ≥ 1`, samples in `[0, 255]`) and every destination
size `w, h ≥ 1`, in float32 arithmetic: the weights `fracx`, `fracy` are in `[0, 1]` and
`1 - fracx`, `1 - fracy` are computed without rounding (so they are in `[0, 1]` too);
each sample written by `Resize` lies between the minimum and the maximum of the four
source samples `c1 .. c4` it is blended from; the value `rf` before narrowing satisfies
`0 ≤ rf < 256`, so the conversion to a byte is the plain truncation and never wraps. -/
theorem Resize_between (g : NoiseImage) (ws hs w h x y : Int) (hg : g.IsGrid ws hs)
    (_hws : 1 ≤ ws) (_hhs : 1 ≤ hs) (hw : 1 ≤ w) (hh : 1 ≤ h) (hx0 : 0 ≤ x) (hx : x < w)
    (hy0 : 0 ≤ y) (hy : y < h) :
    (0 ≤ fracPart float32 ws w x ∧ fracPart float32 ws w x ≤ 1 ∧
      float32 (1 - fracPart float32 ws w x) = 1 - fracPart float32 ws w x ∧
      0 ≤ fracPart float32 hs h y ∧ fracPart float32 hs h y ≤ 1 ∧
      float32 (1 - fracPart float32 hs h y) = 1 - fracPart float32 hs h y) ∧
    (min (min (g.Image.GrayAt (lowIndex float32 ws w x) (lowIndex float32 hs h y))
            (g.Image.GrayAt (highIndex float32 ws w x) (lowIndex float32 hs h y)))
          (min (g.Image.GrayAt (lowIndex float32 ws w x) (highIndex float32 hs h y))
            (g.Image.GrayAt (highIndex float32 ws w x) (highIndex float32 hs h y)))
        ≤ (Resize float32 g w h).Image.GrayAt x y ∧
      (Resize float32 g w h).Image.GrayAt x y
        ≤ max (max (g.Image.GrayAt (lowIndex float32 ws w x) (lowIndex float32 hs h y))
            (g.Image.GrayAt (highIndex float32 ws w x) (lowIndex float32 hs h y)))
          (max (g.Image.GrayAt (lowIndex float32 ws w x) (highIndex float32 hs h y))
            (g.Image.GrayAt (highIndex float32 ws w x) (highIndex float32 hs h y)))) ∧
    (0 ≤ resizeValue float32 g w h x y ∧ resizeValue float32 g w h x y < 256 ∧
      (Resize float32 g w h).Image.GrayAt x y = byteOfFloat (resizeValue float32 g w h x y) ∧
      ((Resize float32 g w h).Image.GrayAt x y : Int) = ⌊resizeValue float32 g w h x y⌋ ∧
      (Resize float32 g w h).Image.GrayAt x y ≤ 255) := by
  obtain ⟨rfl, rfl, -, -, -, hpix⟩ := hg
  have hp24 : (0 : ℚ) < (2 : ℚ) ^ (-24 : Int) := by positivity
  have e24 : (2 : ℚ) ^ 24 * (2 : ℚ) ^ (-24 : Int) = 1 := by norm_num
  have hwt : ∀ n d i : Int, 0 ≤ fracPart float32 n d i ∧ fracPart float32 n d i ≤ 1 ∧
      float32 (1 - fracPart float32 n d i) = 1 - fracPart float32 n d i := by
    intro n d i
    obtain ⟨k, hk0, hk1, hf, hif⟩ := fracPart_float32 n d i
    rw [hif, hf]
    refine ⟨mul_nonneg (by exact_mod_cast hk0) hp24.le, ?_, rfl⟩
    have : (k : ℚ) ≤ 2 ^ 24 := by exact_mod_cast hk1.le
    have := mul_le_mul_of_nonneg_right this hp24.le
    linarith
  have hc : ∀ a b, g.Image.GrayAt a b ≤ 255 := fun a b => by
    have := g.Image.grayAt_lt hpix a b
    omega
  have hres := Resize_grayAt float32 g (by omega : 0 ≤ w) (by omega : 0 ≤ h) hx0 hx hy0 hy
  rw [resizePixel_eq_byteOfFloat] at hres
  have hb := resizeValue_float32_bounds g w h x y
    (min (min (g.Image.GrayAt (lowIndex float32 g.Width w x) (lowIndex float32 g.Height h y))
        (g.Image.GrayAt (highIndex float32 g.Width w x) (lowIndex float32 g.Height h y)))
      (min (g.Image.GrayAt (lowIndex float32 g.Width w x) (highIndex float32 g.Height h y))
        (g.Image.GrayAt (highIndex float32 g.Width w x) (highIndex float32 g.Height h y))))
    (max (max (g.Image.GrayAt (lowIndex float32 g.Width w x) (lowIndex float32 g.Height h y))
        (g.Image.GrayAt (highIndex float32 g.Width w x) (lowIndex float32 g.Height h y)))
      (max (g.Image.GrayAt (lowIndex float32 g.Width w x) (highIndex float32 g.Height h y))
        (g.Image.GrayAt (highIndex float32 g.Width w x) (highIndex float32 g.Height h y))))
    (by
      have a1 := hc (lowIndex float32 g.Width w x) (lowIndex float32 g.Height h y)
      have a2 := hc (highIndex float32 g.Width w x) (lowIndex float32 g.Height h y)
      have a3 := hc (lowIndex float32 g.Width w x) (highIndex float32 g.Height h y)
      have a4 := hc (highIndex float32 g.Width w x) (highIndex float32 g.Height h y)
      omega)
    (by constructor <;> omega) (by constructor <;> omega) (by constructor <;> omega)
    (by constructor <;> omega)
  have hM : max (max (g.Image.GrayAt (lowIndex float32 g.Width w x) (lowIndex float32 g.Height h y))
        (g.Image.GrayAt (highIndex float32 g.Width w x) (lowIndex float32 g.Height h y)))
      (max (g.Image.GrayAt (lowIndex float32 g.Width w x) (highIndex float32 g.Height h y))
        (g.Image.GrayAt (highIndex float32 g.Width w x) (highIndex float32 g.Height h y))) ≤ 255 := by
    have a1 := hc (lowIndex float32 g.Width w x) (lowIndex float32 g.Height h y)
    have a2 := hc (highIndex float32 g.Width w x) (lowIndex float32 g.Height h y)
    have a3 := hc (lowIndex float32 g.Width w x) (highIndex float32 g.Height h y)
    have a4 := hc (highIndex float32 g.Width w x) (highIndex float32 g.Height h y)
    omega
  obtain ⟨b1, b2, b3⟩ := byteOfFloat_mem hM hb.1 hb.2
  have h0 : 0 ≤ resizeValue float32 g w h x y := le_trans (by positivity) hb.1
  have h256 : resizeValue float32 g w h x y < 256 := by
    have : ((max (max (g.Image.GrayAt (lowIndex float32 g.Width w x) (lowIndex float32 g.Height h y))
        (g.Image.GrayAt (highIndex float32 g.Width w x) (lowIndex float32 g.Height h y)))
      (max (g.Image.GrayAt (lowIndex float32 g.Width w x) (highIndex float32 g.Height h y))
        (g.Image.GrayAt (highIndex float32 g.Width w x) (highIndex float32 g.Height h y))) : Nat) : ℚ)
        ≤ 255 := by exact_mod_cast hM
    linarith [hb.2]
  obtain ⟨wx0, wx1, wx2⟩ := hwt g.Width w x
  obtain ⟨wy0, wy1, wy2⟩ := hwt g.Height h y
  refine ⟨⟨wx0, wx1, wx2, wy0, wy1, wy2⟩, ?_, h0, h256, hres, ?_, ?_⟩
  · rw [hres]
    exact ⟨b2, b3⟩
  · rw [hres]
    exact b1
  · rw [hres]
    omega

/-- The float32 value `rf` is monotone in the source samples. -/
theorem resizeValue_float32_mono (A B : NoiseImage) (hW : A.Width = B.Width)
    (hH : A.Height = B.Height) (hAB : ∀ a b, A.Image.GrayAt a b ≤ B.Image.GrayAt a b)
    (w h x y : Int) : resizeValue float32 A w h x y ≤ resizeValue float32 B w h x y := by
  rw [resizeValue_eq, resizeValue_eq, hW, hH]
  obtain ⟨kx, hkx0, hkx1, hfx, hifx⟩ := fracPart_float32 B.Width w x
  obtain ⟨ky, hky0, hky1, hfy, hify⟩ := fracPart_float32 B.Height h y
  have hp24 : (0 : ℚ) < (2 : ℚ) ^ (-24 : Int) := by positivity
  have e24 : (2 : ℚ) ^ 24 * (2 : ℚ) ^ (-24 : Int) = 1 := by norm_num
  have hvx : 0 ≤ (kx : ℚ) * (2 : ℚ) ^ (-24 : Int) :=
    mul_nonneg (by exact_mod_cast hkx0) hp24.le
  have hvy : 0 ≤ (ky : ℚ) * (2 : ℚ) ^ (-24 : Int) :=
    mul_nonneg (by exact_mod_cast hky0) hp24.le
  have hux : 0 ≤ 1 - (kx : ℚ) * (2 : ℚ) ^ (-24 : Int) := by
    have : (kx : ℚ) ≤ 2 ^ 24 := by exact_mod_cast hkx1.le
    have := mul_le_mul_of_nonneg_right this hp24.le
    linarith
  have huy : 0 ≤ 1 - (ky : ℚ) * (2 : ℚ) ^ (-24 : Int) := by
    have : (ky : ℚ) ≤ 2 ^ 24 := by exact_mod_cast hky1.le
    have := mul_le_mul_of_nonneg_right this hp24.le
    linarith
  rw [hifx, hify, hfx, hfy]
  have hc : ∀ a b, float32 ((A.Image.GrayAt a b : Nat) : ℚ)
      ≤ float32 ((B.Image.GrayAt a b : Nat) : ℚ) :=
    fun a b => float32_mono (by exact_mod_cast hAB a b)
  exact float32_blend_mono huy hvy
    (float32_blend_mono hux hvx (hc _ _) (hc _ _))
    (float32_blend_mono hux hvx (hc _ _) (hc _ _))

/-- C20. `Resize` is monotone in the source samples, in float32 arithmetic and for all
sizes: for two source grids `A` and `B` of the same size `ws × hs` (`ws, hs ≥ 1`) with
`A(x, y) ≤ B(x, y)` at every coordinate, and every destination size `w, h ≥ 1`, the
result of `Resize(w, h)` on `A` is at most the result on `B` at every destination
coordinate. -/
theorem Resize_mono (A B : NoiseImage) (ws hs w h : Int) (hA : A.IsGrid ws hs)
    (hB : B.IsGrid ws hs) (hws : 1 ≤ ws) (hhs : 1 ≤ hs) (hw : 1 ≤ w) (hh : 1 ≤ h)
    (hAB : ∀ a b, 0 ≤ a → a < ws → 0 ≤ b → b < hs →
      A.Image.GrayAt a b ≤ B.Image.GrayAt a b) :
    ∀ x y, 0 ≤ x → x < w → 0 ≤ y → y < h →
      (Resize float32 A w h).Image.GrayAt x y ≤ (Resize float32 B w h).Image.GrayAt x y := by
  intro x y hx0 hx hy0 hy
  rw [Resize_grayAt float32 A (by omega) (by omega) hx0 hx hy0 hy,
    Resize_grayAt float32 B (by omega) (by omega) hx0 hx hy0 hy,
    resizePixel_eq_byteOfFloat, resizePixel_eq_byteOfFloat]
  have hcA := hA.isCanvas (by omega) (by omega)
  have hcB := hB.isCanvas (by omega) (by omega)
  -- outside the source both images read as zero
  have hall : ∀ a b, A.Image.GrayAt a b ≤ B.Image.GrayAt a b := by
    intro a b
    by_cases hin : 0 ≤ a ∧ a < ws ∧ 0 ≤ b ∧ b < hs
    · exact hAB a b hin.1 hin.2.1 hin.2.2.1 hin.2.2.2
    · have h1 : ¬ A.Image.Rect.Contains a b := fun hc => hin ((hcA.contains_iff a b).mp hc)
      simp [Gray.GrayAt, h1]
  have hmono := resizeValue_float32_mono A B (hA.1.trans hB.1.symm) (hA.2.1.trans hB.2.1.symm)
    hall w h x y
  have hcA255 : ∀ a b, A.Image.GrayAt a b ≤ 255 := fun a b => by
    have := A.Image.grayAt_lt hA.2.2.2.2.2 a b
    omega
  have hcB255 : ∀ a b, B.Image.GrayAt a b ≤ 255 := fun a b => by
    have := B.Image.grayAt_lt hB.2.2.2.2.2 a b
    omega
  have hbA := resizeValue_float32_bounds A w h x y 0 255 le_rfl
    ⟨Nat.zero_le _, hcA255 _ _⟩ ⟨Nat.zero_le _, hcA255 _ _⟩ ⟨Nat.zero_le _, hcA255 _ _⟩
    ⟨Nat.zero_le _, hcA255 _ _⟩
  have hbB := resizeValue_float32_bounds B w h x y 0 255 le_rfl
    ⟨Nat.zero_le _, hcB255 _ _⟩ ⟨Nat.zero_le _, hcB255 _ _⟩ ⟨Nat.zero_le _, hcB255 _ _⟩
    ⟨Nat.zero_le _, hcB255 _ _⟩
  obtain ⟨fA, -, -⟩ := byteOfFloat_mem le_rfl hbA.1 hbA.2
  obtain ⟨fB, -, -⟩ := byteOfFloat_mem le_rfl hbB.1 hbB.2
  have := Int.floor_mono hmono
  omega

theorem Resize_between_witness :
    ((gridOf 2 2 [10, 20, 30, 40]).IsGrid 2 2 ∧ (1 : Int) ≤ 2 ∧ (1 : Int) ≤ 4 ∧
      (0 : Int) ≤ 1 ∧ (1 : Int) < 4) ∧
    ((0 ≤ fracPart float32 2 4 1 ∧ fracPart float32 2 4 1 ≤ 1 ∧
      float32 (1 - fracPart float32 2 4 1) = 1 - fracPart float32 2 4 1 ∧
      0 ≤ fracPart float32 2 4 1 ∧ fracPart float32 2 4 1 ≤ 1 ∧
      float32 (1 - fracPart float32 2 4 1) = 1 - fracPart float32 2 4 1) ∧
    (min (min ((gridOf 2 2 [10, 20, 30, 40]).Image.GrayAt
              (lowIndex float32 2 4 1) (lowIndex float32 2 4 1))
            ((gridOf 2 2 [10, 20, 30, 40]).Image.GrayAt
              (highIndex float32 2 4 1) (lowIndex float32 2 4 1)))
          (min ((gridOf 2 2 [10, 20, 30, 40]).Image.GrayAt
              (lowIndex float32 2 4 1) (highIndex float32 2 4 1))
            ((gridOf 2 2 [10, 20, 30, 40]).Image.GrayAt
              (highIndex float32 2 4 1) (highIndex float32 2 4 1)))
        ≤ (Resize float32 (gridOf 2 2 [10, 20, 30, 40]) 4 4).Image.GrayAt 1 1 ∧
      (Resize float32 (gridOf 2 2 [10, 20, 30, 40]) 4 4).Image.GrayAt 1 1
        ≤ max (max ((gridOf 2 2 [10, 20, 30, 40]).Image.GrayAt
              (lowIndex float32 2 4 1) (lowIndex float32 2 4 1))
            ((gridOf 2 2 [10, 20, 30, 40]).Image.GrayAt
              (highIndex float32 2 4 1) (lowIndex float32 2 4 1)))
          (max ((gridOf 2 2 [10, 20, 30, 40]).Image.GrayAt
              (lowIndex float32 2 4 1) (highIndex float32 2 4 1))
            ((gridOf 2 2 [10, 20, 30, 40]).Image.GrayAt
              (highIndex float32 2 4 1) (highIndex float32 2 4 1)))) ∧
    (0 ≤ resizeValue float32 (gridOf 2 2 [10, 20, 30, 40]) 4 4 1 1 ∧
      resizeValue float32 (gridOf 2 2 [10, 20, 30, 40]) 4 4 1 1 < 256 ∧
      (Resize float32 (gridOf 2 2 [10, 20, 30, 40]) 4 4).Image.GrayAt 1 1
        = byteOfFloat (resizeValue float32 (gridOf 2 2 [10, 20, 30, 40]) 4 4 1 1) ∧
      ((Resize float32 (gridOf 2 2 [10, 20, 30, 40]) 4 4).Image.GrayAt 1 1 : Int)
        = ⌊resizeValue float32 (gridOf 2 2 [10, 20, 30, 40]) 4 4 1 1⌋ ∧
      (Resize float32 (gridOf 2 2 [10, 20, 30, 40]) 4 4).Image.GrayAt 1 1 ≤ 255)) :=
  ⟨⟨by decide, by decide, by decide, by decide, by decide⟩,
    Resize_between (gridOf 2 2 [10, 20, 30, 40]) 2 2 4 4 1 1 (by decide) (by decide)
      (by decide) (by decide) (by decide) (by decide) (by decide) (by decide) (by decide)⟩

theorem Resize_mono_witness :
    ((gridOf 2 2 [10, 20, 30, 40]).IsGrid 2 2 ∧ (gridOf 2 2 [10, 25, 30, 50]).IsGrid 2 2 ∧
      (1 : Int) ≤ 2 ∧ (1 : Int) ≤ 4 ∧
      ∀ a b : Int, 0 ≤ a → a < 2 → 0 ≤ b → b < 2 →
        (gridOf 2 2 [10, 20, 30, 40]).Image.GrayAt a b
          ≤ (gridOf 2 2 [10, 25, 30, 50]).Image.GrayAt a b) ∧
    ∀ x y : Int, 0 ≤ x → x < 4 → 0 ≤ y → y < 4 →
      (Resize float32 (gridOf 2 2 [10, 20, 30, 40]) 4 4).Image.GrayAt x y
        ≤ (Resize float32 (gridOf 2 2 [10, 25, 30, 50]) 4 4).Image.GrayAt x y :=
  ⟨⟨by decide, by decide, by decide, by decide,
      fun a b h1 h2 h3 h4 => by interval_cases a <;> interval_cases b <;> decide⟩,
    Resize_mono (gridOf 2 2 [10, 20, 30, 40]) (gridOf 2 2 [10, 25, 30, 50]) 2 2 4 4
      (by decide) (by decide) (by decide) (by decide) (by decide) (by decide)
      (fun a b h1 h2 h3 h4 => by interval_cases a <;> interval_cases b <;> decide)⟩

/-! ## Corner samples under upsampling -/

/-- In exact arithmetic the first destination column of an upsampling reads the first
source column only: `sx` clamps to 0. -/
theorem sourceCoord_id_first {n d : Int} (hn : 1 ≤ n) (hnd : n ≤ d) :
    sourceCoord id n d 0 = 0 := by
  rw [sourceCoord_id]
  apply max_eq_left
  have hd : (0 : ℚ) < d := by exact_mod_cast (by omega : 0 < d)
  have hnd' : (n : ℚ) ≤ d := by exact_mod_cast hnd
  have : ((0 : Int) : ℚ) = 0 := by norm_num
  rw [this, zero_add, sub_nonpos, div_le_iff₀ hd]
  linarith

/-- In exact arithmetic the last destination column of an upsampling has
`ws - 1 ≤ sx < ws - 1/2`, so that `x0 = x1 = ws - 1`. -/
theorem lowIndex_id_last {n d : Int} (hn : 1 ≤ n) (hnd : n ≤ d) :
    lowIndex id n d (d - 1) = n - 1 ∧ highIndex id n d (d - 1) = n - 1 := by
  have hd : (0 : ℚ) < d := by exact_mod_cast (by omega : 0 < d)
  have hn' : (1 : ℚ) ≤ n := by exact_mod_cast hn
  have hnd' : (n : ℚ) ≤ d := by exact_mod_cast hnd
  have hr1 : (n : ℚ) / d ≤ 1 := by rw [div_le_iff₀ hd]; linarith
  have hr0 : 0 < (n : ℚ) / d := div_pos (by linarith) hd
  have hs : sourceCoord id n d (d - 1) = (n : ℚ) - 1 + (1 / 2) * (1 - (n : ℚ) / d) := by
    rw [sourceCoord_id]
    have e : (((d - 1 : Int) : ℚ) + 1 / 2) * n / d - 1 / 2
        = (n : ℚ) - 1 + (1 / 2) * (1 - (n : ℚ) / d) := by
      push_cast
      field_simp
      ring
    rw [e, max_eq_right]
    nlinarith
  have hl : lowIndex id n d (d - 1) = n - 1 := by
    rw [lowIndex_id, hs, Int.floor_eq_iff]
    push_cast
    constructor <;> nlinarith
  refine ⟨hl, ?_⟩
  simp only [highIndex, hl]
  rw [if_pos (by omega)]

/-- In exact arithmetic, a destination whose column reads the single source column `X`
(either `x0 = x1 = X`, or `x0 = X` with weight `fracx = 0`) and whose row reads the single
source row `Y` receives the source sample at `(X, Y)`. -/
theorem resizePixel_id_of_edges (g : NoiseImage) (w h x y X Y : Int)
    (hX : lowIndex id g.Width w x = X)
    (hX' : highIndex id g.Width w x = X ∨ sourceCoord id g.Width w x = X)
    (hY : lowIndex id g.Height h y = Y)
    (hY' : highIndex id g.Height h y = Y ∨ sourceCoord id g.Height h y = Y)
    (hpix : g.Image.GrayAt X Y < 256) :
    resizePixel id g w h x y = g.Image.GrayAt X Y := by
  have e : ∀ f c : ℚ, (1 - f) * c + f * c = c := fun f c => by ring
  rcases hX' with hx1 | hx1 <;> rcases hY' with hy1 | hy1 <;>
    simp only [resizePixel, id, hX, hY, hx1, hy1, e, sub_self, sub_zero, one_mul, zero_mul,
      add_zero] <;>
    exact byteOfFloat_natCast hpix

/-- In exact arithmetic `Resize` to a size at least the source size preserves the four
corner samples, for all sizes. -/
theorem Resize_exact_corners {g : NoiseImage} {ws hs w h : Int} (hg : g.IsGrid ws hs)
    (hws : 1 ≤ ws) (hw : ws ≤ w) (hhs : 1 ≤ hs) (hh : hs ≤ h) :
    (Resize id g w h).Image.GrayAt 0 0 = g.Image.GrayAt 0 0 ∧
    (Resize id g w h).Image.GrayAt (w - 1) 0 = g.Image.GrayAt (ws - 1) 0 ∧
    (Resize id g w h).Image.GrayAt 0 (h - 1) = g.Image.GrayAt 0 (hs - 1) ∧
    (Resize id g w h).Image.GrayAt (w - 1) (h - 1) = g.Image.GrayAt (ws - 1) (hs - 1) := by
  have hp : ∀ a b, g.Image.GrayAt a b < 256 := g.Image.grayAt_lt hg.2.2.2.2.2
  obtain ⟨rfl, rfl, -⟩ := hg
  have fx := sourceCoord_id_first hws hw
  have fy := sourceCoord_id_first hhs hh
  have fx0 : lowIndex id g.Width w 0 = 0 := by rw [lowIndex_id, fx]; simp
  have fy0 : lowIndex id g.Height h 0 = 0 := by rw [lowIndex_id, fy]; simp
  obtain ⟨lx0, lx1⟩ := lowIndex_id_last hws hw
  obtain ⟨ly0, ly1⟩ := lowIndex_id_last hhs hh
  have c0 : ((0 : Int) : ℚ) = 0 := by norm_num
  refine ⟨?_, ?_, ?_, ?_⟩
  · rw [Resize_grayAt id g (by omega) (by omega) le_rfl (by omega) le_rfl (by omega)]
    exact resizePixel_id_of_edges g w h 0 0 0 0 fx0 (Or.inr (by rw [fx, c0])) fy0
      (Or.inr (by rw [fy, c0])) (hp _ _)
  · rw [Resize_grayAt id g (by omega) (by omega) (by omega) (by omega) le_rfl (by omega)]
    exact resizePixel_id_of_edges g w h (w - 1) 0 (g.Width - 1) 0 lx0 (Or.inl lx1) fy0
      (Or.inr (by rw [fy, c0])) (hp _ _)
  · rw [Resize_grayAt id g (by omega) (by omega) le_rfl (by omega) (by omega) (by omega)]
    exact resizePixel_id_of_edges g w h 0 (h - 1) 0 (g.Height - 1) fx0 (Or.inr (by rw [fx, c0]))
      ly0 (Or.inl ly1) (hp _ _)
  · rw [Resize_grayAt id g (by omega) (by omega) (by omega) (by omega) (by omega) (by omega)]
    exact resizePixel_id_of_edges g w h (w - 1) (h - 1) (g.Width - 1) (g.Height - 1) lx0
      (Or.inl lx1) ly0 (Or.inl ly1) (hp _ _)

/-- C18, at a failing input. In float32 arithmetic the identity resize of the
`8388610 × 1` grid of all-255 samples (`w = ws = 8388610`, `h = hs = 1`) does not
preserve the corner `(w - 1, 0) = (w - 1, h - 1)`: the source sample there is 255 and
`Resize` writes 0; the read index is `x0 = x1 = 8388610 = ws`, not `ws - 1`. -/
theorem Resize_float32_corner_fails :
    (constGrid 8388610 1 255).IsGrid 8388610 1 ∧
    (constGrid 8388610 1 255).Image.GrayAt (8388610 - 1) 0 = 255 ∧
    (constGrid 8388610 1 255).Image.GrayAt (8388610 - 1) (1 - 1) = 255 ∧
    (Resize float32 (constGrid 8388610 1 255) 8388610 1).Image.GrayAt (8388610 - 1) 0 = 0 ∧
    (Resize float32 (constGrid 8388610 1 255) 8388610 1).Image.GrayAt (8388610 - 1) (1 - 1) = 0 ∧
    lowIndex float32 8388610 8388610 (8388610 - 1) = 8388610 ∧
    highIndex float32 8388610 8388610 (8388610 - 1) = 8388610 := by
  have e1 : (8388610 : Int) - 1 = 8388609 := by norm_num
  have e2 : (1 : Int) - 1 = 0 := by norm_num
  rw [e1, e2]
  have hres : (Resize float32 (constGrid 8388610 1 255) 8388610 1).Image.GrayAt 8388609 0 = 0 := by
    rw [Resize_grayAt float32 _ (by norm_num) (by norm_num) (by norm_num) (by norm_num)
      (by norm_num) (by norm_num)]
    exact resizePixel_float32_wide 255
  have hsrc : (constGrid 8388610 1 255).Image.GrayAt 8388609 0 = 255 :=
    grayAt_constGrid (by norm_num) (by norm_num) (by norm_num) (by norm_num)
  exact ⟨constGrid_isGrid (by norm_num) (by norm_num) (by norm_num), hsrc, hsrc, hres, hres,
    lowIndex_float32_wide, highIndex_float32_wide⟩

/-- In float32 arithmetic too, and for all sizes, the first destination column of an
upsampling has `sx = 0`. -/
theorem sourceCoord_float32_first {n d : Int} (hn : 1 ≤ n) (hnd : n ≤ d) :
    sourceCoord float32 n d 0 = 0 := by
  have h1 : float32 (1 : ℚ) = 1 := by
    have := float32_intCast (z := 1) (by norm_num)
    simpa using this
  have hd1 : (1 : ℚ) ≤ float32 (d : ℚ) := by
    rw [← h1]
    exact float32_mono (by exact_mod_cast (by omega : (1 : Int) ≤ d))
  have hn0 : (0 : ℚ) ≤ float32 (n : ℚ) :=
    float32_nonneg (by exact_mod_cast (by omega : (0 : Int) ≤ n))
  have hnd' : float32 (n : ℚ) ≤ float32 (d : ℚ) := float32_mono (by exact_mod_cast hnd)
  have hr : float32 (n : ℚ) / float32 (d : ℚ) ≤ 1 := by
    rw [div_le_iff₀ (by linarith)]; linarith
  have hxs : float32 (float32 (n : ℚ) / float32 (d : ℚ)) ≤ 1 := by
    rw [← h1]; exact float32_mono hr
  have hhalf : float32 ((1 : ℚ) / 2) = 1 / 2 := by
    have := float32_half (z := 1) (by norm_num)
    simpa using this
  have ht : float32 (1 / 2 * float32 (float32 (n : ℚ) / float32 (d : ℚ))) ≤ 1 / 2 := by
    rw [← hhalf]
    apply float32_mono
    rw [hhalf]
    linarith
  have hs : float32 (float32 (1 / 2 * float32 (float32 (n : ℚ) / float32 (d : ℚ))) - 1 / 2) ≤ 0 :=
    float32_nonpos (by linarith)
  simp only [sourceCoord, Int.cast_zero, float32_zero, zero_add, hhalf]
  split
  · rfl
  · next hneg =>
    push_neg at hneg
    exact le_antisymm hs hneg

/-- In float32 arithmetic and for all sizes, `Resize` to a size at least the source size
preserves the corner sample at `(0, 0)`. -/
theorem Resize_float32_first_corner {g : NoiseImage} {ws hs w h : Int} (hg : g.IsGrid ws hs)
    (hws : 1 ≤ ws) (hw : ws ≤ w) (hhs : 1 ≤ hs) (hh : hs ≤ h) :
    (Resize float32 g w h).Image.GrayAt 0 0 = g.Image.GrayAt 0 0 := by
  have hp : ∀ a b, g.Image.GrayAt a b < 256 := g.Image.grayAt_lt hg.2.2.2.2.2
  obtain ⟨rfl, rfl, -⟩ := hg
  rw [Resize_grayAt float32 g (by omega) (by omega) le_rfl (by omega) le_rfl (by omega),
    resizePixel_eq_byteOfFloat, resizeValue_eq]
  have fx := sourceCoord_float32_first hws hw
  have fy := sourceCoord_float32_first hhs hh
  have lx : lowIndex float32 g.Width w 0 = 0 := by simp [lowIndex, truncToInt, fx]
  have ly : lowIndex float32 g.Height h 0 = 0 := by simp [lowIndex, truncToInt, fy]
  have h1 : float32 (1 : ℚ) = 1 := by
    have := float32_intCast (z := 1) (by norm_num)
    simpa using this
  have px : fracPart float32 g.Width w 0 = 0 := by
    simp only [fracPart, fx, lx, Int.cast_zero, float32_zero, sub_zero]
  have py : fracPart float32 g.Height h 0 = 0 := by
    simp only [fracPart, fy, ly, Int.cast_zero, float32_zero, sub_zero]
  have hc : float32 ((g.Image.GrayAt 0 0 : Nat) : ℚ) = (g.Image.GrayAt 0 0 : Nat) :=
    float32_natCast (by have := hp 0 0; omega)
  simp only [px, py, lx, ly, sub_zero, h1, one_mul, zero_mul, float32_zero, add_zero, hc]
  exact byteOfFloat_natCast (hp 0 0)

/-! ## `Resize` in float32 arithmetic and the formula of section 4.2 -/

theorem sourceCoord_eq_max (fl : ℚ → ℚ) (n d i : Int) :
    sourceCoord fl n d i
      = max 0 (fl (fl (fl (fl (i : ℚ) + 1 / 2) * fl (fl (n : ℚ) / fl (d : ℚ))) - 1 / 2)) := by
  simp only [sourceCoord]
  split
  · rw [max_eq_left]; linarith
  · rw [max_eq_right]; linarith

theorem lowIndex_eq_floor (fl : ℚ → ℚ) (n d i : Int) :
    lowIndex fl n d i = ⌊sourceCoord fl n d i⌋ := by
  have h0 : 0 ≤ sourceCoord fl n d i := by
    rw [sourceCoord_eq_max]; exact le_max_left _ _
  simp [lowIndex, truncToInt, h0]

theorem highIndex_eq_min {fl : ℚ → ℚ} {n d i : Int} (h : lowIndex fl n d i ≤ n - 1) :
    highIndex fl n d i = min (lowIndex fl n d i + 1) (n - 1) := by
  simp only [highIndex]
  split
  · rw [min_eq_right]; omega; omega
  · rw [min_eq_left]; omega

/-- With `fl = id` the rounded formula is the formula in exact arithmetic. -/
theorem specResampleFl_id (g : NoiseImage) (ws hs w h x y : Int) :
    specResampleFl id g ws hs w h x y = specResample g ws hs w h x y := by
  simp only [specResampleFl, specResample, id, mul_div_assoc]

theorem resizeValue_float32_eq_spec {g : NoiseImage} {ws hs w h x y : Int} (hg : g.IsGrid ws hs)
    (hws : 1 ≤ ws) (hws' : ws ≤ 2 ^ 21) (hhs : 1 ≤ hs) (hhs' : hs ≤ 2 ^ 21)
    (hw : 1 ≤ w) (hw' : w ≤ 2 ^ 23) (hh : 1 ≤ h) (hh' : h ≤ 2 ^ 23)
    (hx0 : 0 ≤ x) (hx : x < w) (hy0 : 0 ≤ y) (hy : y < h) :
    ⌊resizeValue float32 g w h x y⌋ = specResampleFl float32 g ws hs w h x y := by
  obtain ⟨rfl, rfl, -⟩ := hg
  obtain ⟨-, a1, a2⟩ := Resize_float32_indices hws hws' hw hw' hx0 hx
  obtain ⟨-, b1, b2⟩ := Resize_float32_indices hhs hhs' hh hh' hy0 hy
  have hX := @highIndex_eq_min float32 g.Width w x (by omega)
  have hY := @highIndex_eq_min float32 g.Height h y (by omega)
  rw [resizeValue_eq]
  simp only [specResampleFl, fracPart, ← sourceCoord_eq_max, ← lowIndex_eq_floor, ← hX, ← hY]

theorem float32_3_7 : float32 (3 / 7) = 14380471 / 33554432 := by
  norm_num [float32, roundFloat, ilog2, roundHalfEven, Nat.log2, abs_eq_max_neg]

theorem float32_ex1 : float32 (71902355 / 67108864) = 4493897 / 4194304 := by
  norm_num [float32, roundFloat, ilog2, roundHalfEven, Nat.log2, abs_eq_max_neg]

theorem float32_ex2 : float32 (34153621 / 4194304) = 8538405 / 1048576 := by
  norm_num [float32, roundFloat, ilog2, roundHalfEven, Nat.log2, abs_eq_max_neg]

theorem float32_ex3 : float32 (515300175 / 4194304) = 8051565 / 65536 := by
  norm_num [float32, roundFloat, ilog2, roundHalfEven, Nat.log2, abs_eq_max_neg]

theorem float32_ex4 : float32 (137363445 / 1048576) = 8585215 / 65536 := by
  norm_num [float32, roundFloat, ilog2, roundHalfEven, Nat.log2, abs_eq_max_neg]

theorem sourceCoord_float32_3_7 : sourceCoord float32 3 7 2 = 2396745 / 4194304 := by
  norm_num [sourceCoord, float32_exact, float32_3_7, float32_ex1]

theorem sourceCoord_float32_1_1 : sourceCoord float32 1 1 0 = 0 := by
  norm_num [sourceCoord, float32_exact]

theorem grayAt_19_215_22 :
    (gridOf 3 1 [19, 215, 22]).Image.GrayAt 0 0 = 19 ∧
    (gridOf 3 1 [19, 215, 22]).Image.GrayAt 1 0 = 215 := by
  decide

theorem resizePixel_float32_19_215_22 :
    resizePixel float32 (gridOf 3 1 [19, 215, 22]) 7 1 2 0 = 130 := by
  have hW : (gridOf 3 1 [19, 215, 22]).Width = 3 := rfl
  have hH : (gridOf 3 1 [19, 215, 22]).Height = 1 := rfl
  obtain ⟨c1, c2⟩ := grayAt_19_215_22
  have lx : lowIndex float32 3 7 2 = 0 := by
    norm_num [lowIndex, truncToInt, sourceCoord_float32_3_7]
  have ly : lowIndex float32 1 1 0 = 0 := by
    norm_num [lowIndex, truncToInt, sourceCoord_float32_1_1]
  have ux : highIndex float32 3 7 2 = 1 := by
    norm_num [highIndex, lx]
  have uy : highIndex float32 1 1 0 = 0 := by
    norm_num [highIndex, ly]
  simp only [resizePixel, hW, hH, lx, ly, ux, uy, c1, c2, sourceCoord_float32_3_7,
    sourceCoord_float32_1_1]
  norm_num [float32_exact, float32_ex2, float32_ex3, float32_ex4, byteOfFloat, truncToInt]
  rfl

theorem specResample_19_215_22 :
    specResample (gridOf 3 1 [19, 215, 22]) 3 1 7 1 2 0 = 131 := by
  obtain ⟨c1, c2⟩ := grayAt_19_215_22
  have e1 : max (0 : ℚ) ((((2 : Int) : ℚ) + 1 / 2) * ((3 : Int) : ℚ) / ((7 : Int) : ℚ) - 1 / 2)
      = 4 / 7 := by norm_num
  have e2 : max (0 : ℚ) ((((0 : Int) : ℚ) + 1 / 2) * ((1 : Int) : ℚ) / ((1 : Int) : ℚ) - 1 / 2)
      = 0 := by norm_num
  have f1 : ⌊(4 / 7 : ℚ)⌋ = 0 := by norm_num [Int.floor_eq_iff]
  have f2 : ⌊(0 : ℚ)⌋ = 0 := by norm_num
  simp only [specResample, e1, e2, f1, f2]
  norm_num [c1, c2, Int.floor_eq_iff]

/-- C1, refuted as stated: the sample the code writes is not always the value of the
formula in exact arithmetic. On the `3 × 1` grid `[19, 215, 22]`, `Resize(7, 1)` writes
130 at destination `(2, 0)`, where the exact formula gives
`floor((3/7) * 19 + (4/7) * 215) = 131`: in float32 the blend is `130.99998…`. -/
theorem Resize_float32_ne_exact :
    (gridOf 3 1 [19, 215, 22]).IsGrid 3 1 ∧
    (Resize float32 (gridOf 3 1 [19, 215, 22]) 7 1).Image.GrayAt 2 0 = 130 ∧
    specResample (gridOf 3 1 [19, 215, 22]) 3 1 7 1 2 0 = 131 ∧
    ((Resize float32 (gridOf 3 1 [19, 215, 22]) 7 1).Image.GrayAt 2 0 : Int)
      ≠ specResample (gridOf 3 1 [19, 215, 22]) 3 1 7 1 2 0 := by
  have h1 : (Resize float32 (gridOf 3 1 [19, 215, 22]) 7 1).Image.GrayAt 2 0 = 130 := by
    rw [Resize_grayAt float32 _ (by norm_num) (by norm_num) (by norm_num) (by norm_num)
      (by norm_num) (by norm_num)]
    exact resizePixel_float32_19_215_22
  refine ⟨by decide, h1, specResample_19_215_22, ?_⟩
  rw [h1, specResample_19_215_22]
  norm_num

/-- C1, as amended. For every source grid of size `ws × hs` with `1 ≤ ws, hs ≤ 2^21` and
every destination size `1 ≤ w, h ≤ 2^23`, the sample that `Resize` writes at each
destination `(x, y)` is the value of the formula of section 4.2 evaluated the way the
code evaluates it, in float32 with every operation rounded to nearest:
`sx = max(0, (x + 0.5) * xs - 0.5)` with `xs = ws / w`, `x0 = floor(sx)`,
`fracx = sx - x0`, `x1 = min(x0 + 1, ws - 1)` (likewise in `y`), the blend of the four
source samples, and a floor at the end: the result is truncated, not rounded, and it is
in `[0, 255]`. -/
theorem Resize_float32_eq_specResampleFl (g : NoiseImage) (ws hs w h x y : Int)
    (hg : g.IsGrid ws hs) (hws : 1 ≤ ws) (hws' : ws ≤ 2 ^ 21) (hhs : 1 ≤ hs)
    (hhs' : hs ≤ 2 ^ 21) (hw : 1 ≤ w) (hw' : w ≤ 2 ^ 23) (hh : 1 ≤ h) (hh' : h ≤ 2 ^ 23)
    (hx0 : 0 ≤ x) (hx : x < w) (hy0 : 0 ≤ y) (hy : y < h) :
    ((Resize float32 g w h).Image.GrayAt x y : Int) = specResampleFl float32 g ws hs w h x y ∧
    0 ≤ specResampleFl float32 g ws hs w h x y ∧
    specResampleFl float32 g ws hs w h x y ≤ 255 := by
  have hspec := resizeValue_float32_eq_spec hg hws hws' hhs hhs' hw hw' hh hh' hx0 hx hy0 hy
  have hc : ∀ a b, g.Image.GrayAt a b ≤ 255 := fun a b => by
    have := g.Image.grayAt_lt hg.2.2.2.2.2 a b
    omega
  have hb := resizeValue_float32_bounds g w h x y 0 255 le_rfl
    ⟨Nat.zero_le _, hc _ _⟩ ⟨Nat.zero_le _, hc _ _⟩ ⟨Nat.zero_le _, hc _ _⟩
    ⟨Nat.zero_le _, hc _ _⟩
  obtain ⟨b1, -, b3⟩ := byteOfFloat_mem le_rfl hb.1 hb.2
  rw [Resize_grayAt float32 g (by omega) (by omega) hx0 hx hy0 hy,
    resizePixel_eq_byteOfFloat, b1, ← hspec]
  refine ⟨rfl, ?_, ?_⟩ <;> omega

theorem Resize_float32_eq_specResampleFl_witness :
    ((gridOf 3 1 [19, 215, 22]).IsGrid 3 1 ∧ (3 : Int) ≤ 2 ^ 21 ∧ (1 : Int) ≤ 2 ^ 21 ∧
      (7 : Int) ≤ 2 ^ 23 ∧ (1 : Int) ≤ 2 ^ 23 ∧ (2 : Int) < 7 ∧ (0 : Int) < 1) ∧
    (((Resize float32 (gridOf 3 1 [19, 215, 22]) 7 1).Image.GrayAt 2 0 : Int)
        = specResampleFl float32 (gridOf 3 1 [19, 215, 22]) 3 1 7 1 2 0 ∧
      0 ≤ specResampleFl float32 (gridOf 3 1 [19, 215, 22]) 3 1 7 1 2 0 ∧
      specResampleFl float32 (gridOf 3 1 [19, 215, 22]) 3 1 7 1 2 0 ≤ 255) :=
  ⟨⟨by decide, by decide, by decide, by decide, by decide, by decide, by decide⟩,
    Resize_float32_eq_specResampleFl (gridOf 3 1 [19, 215, 22]) 3 1 7 1 2 0 (by decide)
      (by decide) (by decide) (by decide) (by decide) (by decide) (by decide) (by decide)
      (by decide) (by decide) (by decide) (by decide) (by decide)⟩

end PerlinNoise
